import Mathlib

/-!
Verification of the aoc2023 repository (bbliem/aoc2023): a shallow embedding
of the parts of the Rust sources that the specification claims are about,
followed by theorems settling each claim.

Conventions of the embedding:
- Rust `&str` values are embedded as `List Char` (so that all parsing
  functions are structurally recursive and evaluate inside the kernel);
  error strings of `Result`/`Except` values stay `String`.
- Rust `usize`/`u64` values are embedded as `Nat`, `i32` as `Int`.
- Fallible Rust code (`Result`, and code that can panic) is embedded as
  `Option`/`Except`; a panicking execution is `none`.
- Imperative loops become folds or fuel-indexed recursion.
-/

namespace Rust

/-- Split a character list at every occurrence of `sep` (the pieces do not
contain `sep`); mirrors Rust `str::split` with a `char` pattern. -/
def splitOnChar (sep : Char) : List Char → List (List Char)
  | [] => [[]]
  | c :: rest =>
    let r := splitOnChar sep rest
    if c = sep then [] :: r
    else (c :: r.headD []) :: r.tail

/-- Embedding of Rust `str::lines`: split on newline, dropping the final
empty piece produced by a trailing newline (so the empty string has no
lines), and stripping one trailing carriage return from every line. -/
def lines (s : List Char) : List (List Char) :=
  let parts := splitOnChar '\n' s
  let parts := if parts.getLast? = some [] then parts.dropLast else parts
  parts.map fun l => if l.getLast? = some '\r' then l.dropLast else l

/-- Embedding of Rust `str::trim` (Unicode whitespace at both ends). -/
def trim (s : List Char) : List Char :=
  ((s.dropWhile Char.isWhitespace).reverse.dropWhile Char.isWhitespace).reverse

/-- The numeric value of a list of ASCII digits. -/
def digitsToNat (digits : List Char) : Nat :=
  digits.foldl (fun acc c => acc * 10 + (c.toNat - Char.toNat '0')) 0

/-- Embedding of Rust `str::parse::<i32>`: an optional sign followed by at
least one ASCII digit, rejecting values outside the `i32` range. -/
def parseI32 (s : List Char) : Option Int :=
  let signDigits : Int × List Char :=
    match s with
    | '+' :: rest => (1, rest)
    | '-' :: rest => (-1, rest)
    | _ => (1, s)
  let sign := signDigits.1
  let digits := signDigits.2
  if digits = [] ∨ ¬ digits.all Char.isDigit then none
  else
    let v : Int := sign * digitsToNat digits
    if v < -(2 ^ 31) ∨ 2 ^ 31 ≤ v then none else some v

/-- Embedding of Rust `str::parse::<u64>`: an optional `+` sign followed by
at least one ASCII digit, rejecting values that do not fit in 64 bits. -/
def parseU64 (s : List Char) : Option Nat :=
  let digits : List Char :=
    match s with
    | '+' :: rest => rest
    | _ => s
  if digits = [] ∨ ¬ digits.all Char.isDigit then none
  else
    let n := digitsToNat digits
    if 2 ^ 64 ≤ n then none else some n

end Rust

namespace Day1

/-- `Config` from the day1 file `src/lib.rs` (the same struct appears
verbatim in the `config` modules of the other days, e.g. day8
`src/config.rs`). -/
structure Config where
  file_path1 : List Char
  file_path2 : List Char
  deriving Repr, DecidableEq

/-- `Config::build`: exactly three CLI arguments are required; the paths are
the second and the third argument. -/
def Config.build (args : List (List Char)) : Except String Config :=
  if args.length ≠ 3 then .error "Not enough arguments"
  else .ok ⟨args.getD 1 [], args.getD 2 []⟩

end Day1

namespace Day9

/-- One history line of day 9 (`struct Sequence`), `i32` elements as `Int`. -/
structure Sequence where
  elements : List Int
  deriving Repr, DecidableEq

/-- `Sequence::from_differences`: the sequence of consecutive differences,
empty when there are fewer than two elements. -/
def Sequence.from_differences (s : Sequence) : Sequence :=
  if s.elements.length < 2 then ⟨[]⟩
  else ⟨(s.elements.zip s.elements.tail).map fun p => p.2 - p.1⟩

/-- `Sequence::extrapolate_next_value`: recursively extrapolate the next
(or, with `reverse`, the previous) value.  The `headD 0`/`getLastD 0`
defaults are never used: the list is nonempty in the recursive branch. -/
def Sequence.extrapolate_next_value (s : Sequence) (reverse : Bool) : Int :=
  if s.elements.all (fun i => i == 0) then 0
  else
    let extrapolated := (s.from_differences).extrapolate_next_value reverse
    if reverse then s.elements.headD 0 - extrapolated
    else s.elements.getLastD 0 + extrapolated
termination_by s.elements.length
decreasing_by
  rename_i h
  have hne : s.elements ≠ [] := by
    intro hnil
    apply h
    simp [hnil]
  simp only [Sequence.from_differences]
  split
  · simpa using List.length_pos.mpr hne
  · simp only [List.length_map, List.length_zip, List.length_tail]
    have := List.length_pos.mpr hne
    omega

/-- Fuel-indexed version of `Sequence::extrapolate_next_value`, making the
recursion of the Rust function explicit: `none` means the fuel ran out
before the recursion bottomed out. -/
def extrapolateFuel : Nat → List Int → Bool → Option Int
  | 0, _, _ => none
  | fuel + 1, elems, reverse =>
    if elems.all (fun i => i == 0) then some 0
    else
      match extrapolateFuel fuel (Sequence.from_differences ⟨elems⟩).elements reverse with
      | none => none
      | some extrapolated =>
        some (if reverse then elems.headD 0 - extrapolated
              else elems.getLastD 0 + extrapolated)

/-- `struct Puzzle` of day 9. -/
structure Puzzle where
  histories : List Sequence
  deriving Repr, DecidableEq

/-- `Sequence::from_str`: split on spaces, trim, drop empty pieces, parse
every piece as an `i32`. -/
def Sequence.from_str (s : List Char) : Option Sequence :=
  let parts := (((Rust.splitOnChar ' ' s).map Rust.trim).filter fun v => v ≠ [])
  (parts.mapM Rust.parseI32).map Sequence.mk

/-- `Puzzle::from_input` of day 9: trim all lines, drop empty ones, parse
each as a `Sequence`. -/
def Puzzle.from_input (input : List Char) : Option Puzzle :=
  let ls := (((Rust.lines input).map Rust.trim).filter fun l => l ≠ [])
  (ls.mapM Sequence.from_str).map Puzzle.mk

/-- `Puzzle::sum_extrapolated_values`. -/
def Puzzle.sum_extrapolated_values (p : Puzzle) (reverse : Bool) : Int :=
  (p.histories.map fun seq => seq.extrapolate_next_value reverse).sum

/-- Day 9 `part1`. -/
def part1 (input : List Char) : Option Int :=
  (Puzzle.from_input input).map fun p => p.sum_extrapolated_values false

/-- Day 9 `part2`. -/
def part2 (input : List Char) : Option Int :=
  (Puzzle.from_input input).map fun p => p.sum_extrapolated_values true

end Day9

namespace Day14

/-- `enum Tile` of day 14. -/
inductive Tile
  | O
  | Hash
  | Dot
  deriving Repr, DecidableEq

/-- `TryFrom<char> for Tile` of day 14. -/
def Tile.try_from (c : Char) : Option Tile :=
  if c = 'O' then some .O
  else if c = '#' then some .Hash
  else if c = '.' then some .Dot
  else none

/-- `struct Puzzle` of day 14: the grid stored as a list of columns. -/
structure Puzzle where
  columns : List (List Tile)
  num_rows : Nat
  deriving Repr, DecidableEq

/-- `Puzzle::from_input` of day 14: reject empty input and ragged lines,
then build the list of columns. -/
def Puzzle.from_input (input : List Char) : Option Puzzle :=
  match Rust.lines input with
  | [] => none
  | first :: rest =>
    let ls := first :: rest
    let line_len := first.length
    if ls.all fun l => l.length = line_len then
      ((List.range line_len).mapM fun i =>
          ls.mapM fun (l : List Char) => (l.get? i).bind Tile.try_from).map
        fun columns => ⟨columns, ls.length⟩
    else none

/-- `Puzzle::transpose_matrix`: `none` embeds the panic on an empty matrix
(`matrix[0]`) and on a column shorter than the first one (`col[i]`). -/
def transpose_matrix (matrix : List (List Tile)) : Option (List (List Tile)) :=
  match matrix with
  | [] => none
  | col0 :: _ => (List.range col0.length).mapM fun i => matrix.mapM fun col => col.get? i

/-- `Puzzle::handle_end_of_segment`: append the `O` tiles of the finished
segment, then the `.` tiles filling the rest of the segment. -/
def Puzzle.handle_end_of_segment (os_in_segment segment_len : Nat)
    (tilted_column : List Tile) : List Tile :=
  tilted_column ++ List.replicate os_in_segment Tile.O
    ++ List.replicate (segment_len - os_in_segment) Tile.Dot

/-- The loop of `Puzzle::tilt_vector` as explicit state passing: `tilted` is
the output built so far, `seg_len` the number of tiles consumed since the
segment started (`i - segment_start` in the source), `os` the number of `O`
tiles among them. -/
def tiltGo : List Tile → List Tile → Nat → Nat → List Tile
  | tilted, [], seg_len, os => Puzzle.handle_end_of_segment os seg_len tilted
  | tilted, .O :: rest, seg_len, os => tiltGo tilted rest (seg_len + 1) (os + 1)
  | tilted, .Dot :: rest, seg_len, os => tiltGo tilted rest (seg_len + 1) os
  | tilted, .Hash :: rest, seg_len, os =>
      tiltGo (Puzzle.handle_end_of_segment os seg_len tilted ++ [Tile.Hash]) rest 0 0

/-- `Puzzle::tilt_vector`. -/
def Puzzle.tilt_vector (vector : List Tile) : List Tile :=
  tiltGo [] vector 0 0

/-- Accumulator-free companion of `tiltGo`, used to state its properties. -/
def tiltSpecGo : List Tile → Nat → Nat → List Tile
  | [], seg_len, os =>
      List.replicate os Tile.O ++ List.replicate (seg_len - os) Tile.Dot
  | .O :: rest, seg_len, os => tiltSpecGo rest (seg_len + 1) (os + 1)
  | .Dot :: rest, seg_len, os => tiltSpecGo rest (seg_len + 1) os
  | .Hash :: rest, seg_len, os =>
      List.replicate os Tile.O ++ List.replicate (seg_len - os) Tile.Dot
        ++ Tile.Hash :: tiltSpecGo rest 0 0

/-- The claimed shape of a tilted maximal `#`-free segment: all its `O`
tiles at the front, followed by `.` tiles. -/
def sortSeg (s : List Tile) : List Tile :=
  List.replicate (s.count Tile.O) Tile.O
    ++ List.replicate (s.length - s.count Tile.O) Tile.Dot

/-- `Puzzle::tilt`: tilt every column. -/
def Puzzle.tilt (p : Puzzle) : Puzzle :=
  { p with columns := p.columns.map Puzzle.tilt_vector }

/-- `Puzzle::transpose`: `none` embeds the panics of `transpose_matrix` and
of `self.columns[0]` on an empty transposed matrix. -/
def Puzzle.transpose (p : Puzzle) : Option Puzzle :=
  match transpose_matrix p.columns with
  | none => none
  | some [] => none
  | some (c0 :: cols) => some ⟨c0 :: cols, c0.length⟩

/-- `Puzzle::rotate_left`: transpose, then reverse the column list. -/
def Puzzle.rotate_left (p : Puzzle) : Option Puzzle :=
  (p.transpose).map fun q => ⟨q.columns.reverse, q.num_rows⟩

/-- `Puzzle::tilting_cycle`: four rounds of tilt-then-rotate-left. -/
def Puzzle.tilting_cycle (p : Puzzle) : Option Puzzle := do
  let p1 ← (p.tilt).rotate_left
  let p2 ← (p1.tilt).rotate_left
  let p3 ← (p2.tilt).rotate_left
  (p3.tilt).rotate_left

/-- `Puzzle::load`: every `O` tile in a column at index `i` contributes
`num_rows - i`. -/
def Puzzle.load (p : Puzzle) : Nat :=
  (p.columns.map fun column =>
    ((column.enum.map fun it =>
      if it.2 = Tile.O then p.num_rows - it.1 else 0).sum)).sum

/-- `tilting_cycle` applied `n` times (the "naive" iteration of C4). -/
def applyN : Nat → Puzzle → Option Puzzle
  | 0, p => some p
  | n + 1, p => (p.tilting_cycle).bind (applyN n)

/-- Lookup in the association-list embedding of the `seen_at_iteration`
`HashMap` of day 14 `part2`. -/
def assocLookup (seen : List (Puzzle × Nat)) (p : Puzzle) : Option Nat :=
  match seen with
  | [] => none
  | (q, j) :: rest => if q = p then some j else assocLookup rest p

/-- The loop of day 14 `part2`: at iteration `i` apply `tilting_cycle`; if
the new state was already seen at iteration `cycle_start_iteration`, skip
ahead by `(num_operations - 1 - cycle_start_iteration) % cycle_length`
further applications and stop. -/
def part2Go (num_operations : Nat) : Nat → Nat → Puzzle → List (Puzzle × Nat) → Option Puzzle
  | 0, _, p, _ => some p
  | fuel + 1, i, p, seen =>
    match p.tilting_cycle with
    | none => none
    | some p =>
      match assocLookup seen p with
      | some cycle_start_iteration =>
        let cycle_length := i - cycle_start_iteration
        let remaining := (num_operations - 1 - cycle_start_iteration) % cycle_length
        applyN remaining p
      | none => part2Go num_operations fuel (i + 1) p ((p, i) :: seen)

/-- Day 14 `part1`: tilt once, then compute the load. -/
def part1 (input : List Char) : Option Nat :=
  (Puzzle.from_input input).map fun p => (p.tilt).load

/-- Day 14 `part2`. -/
def part2 (input : List Char) : Option Nat := do
  let p ← Puzzle.from_input input
  let q ← part2Go 1000000000 1000000000 0 p []
  pure q.load

end Day14

namespace Day17

/-- Outcome of running a puzzle part: a numeric result, a returned error
string, or a panic. -/
inductive RunResult (a : Type)
  | ok (v : a)
  | err (e : String)
  | panicked
  deriving Repr, DecidableEq

/-- `struct State` of day 17: a node of the search, `vertical` recording
whether it was entered vertically. -/
structure State where
  x : Nat
  y : Nat
  cost : Nat
  vertical : Bool
  deriving Repr, DecidableEq

/-- `Ord for State`: greater means lower cost (the Rust `BinaryHeap` is a
max-heap, so reversing the cost comparison makes `pop` yield the cheapest
state), with ties broken by `x`, `y`, `vertical`. -/
def State.cmp (self other : State) : Ordering :=
  ((((compare other.cost self.cost).then
      (compare self.x other.x)).then
      (compare self.y other.y)).then
      (compare self.vertical other.vertical))

/-- Embedding of `BinaryHeap::pop`: remove a maximal element under
`State.cmp`.  All `cmp`-ties are identical states, so which maximal element
is removed does not matter; we take the leftmost. -/
def popMax : List State → Option (State × List State)
  | [] => none
  | s :: rest =>
    match popMax rest with
    | none => some (s, [])
    | some (m, l) => if State.cmp s m = .lt then some (m, s :: l) else some (s, rest)

/-- `struct Edge` of day 17. -/
structure Edge where
  x : Nat
  y : Nat
  cost : Nat
  deriving Repr, DecidableEq

/-- `struct Puzzle` of day 17. -/
structure Puzzle where
  rows : List (List Nat)
  w : Nat
  h : Nat
  min_move : Nat
  max_move : Nat
  deriving Repr, DecidableEq

/-- `char::to_digit(10)`. -/
def to_digit (c : Char) : Option Nat :=
  if c.isDigit then some (c.toNat - Char.toNat '0') else none

/-- `Puzzle::from_input` of day 17. -/
def Puzzle.from_input (input : List Char) (min_move max_move : Nat) :
    Except String Puzzle :=
  match Rust.lines input with
  | [] => .error "Empty input"
  | first :: rest =>
    let ls := first :: rest
    let line_len := first.length
    if ls.all fun l => l.length = line_len then
      match ls.mapM fun l => l.mapM to_digit with
      | none => .error "Could not parse digit"
      | some rows => .ok ⟨rows, line_len, rows.length, min_move, max_move⟩
    else .error "Not all lines have the same length"

/-- `self.rows[y][x]`; all call sites are in bounds, the default is never
used. -/
def Puzzle.row_get (p : Puzzle) (x y : Nat) : Nat :=
  (p.rows.getD y []).getD x 0

/-- Left half of `Puzzle::edges_h`: distances `1..=max_move` while
`distance <= x`, accumulating the cost; structured as a countdown with
`n = max_move - distance + 1` remaining iterations. -/
def Puzzle.edgesGoLeft (p : Puzzle) (x y : Nat) : Nat → Nat → Nat → List Edge
  | 0, _, _ => []
  | n + 1, distance, cost =>
    if distance > x then []
    else
      let x2 := x - distance
      let cost := cost + p.row_get x2 y
      let rest := p.edgesGoLeft x y n (distance + 1) cost
      if p.min_move ≤ distance then ⟨x2, y, cost⟩ :: rest else rest

/-- Right half of `Puzzle::edges_h`: distances `1..=max_move` while
`x + distance < w`. -/
def Puzzle.edgesGoRight (p : Puzzle) (x y : Nat) : Nat → Nat → Nat → List Edge
  | 0, _, _ => []
  | n + 1, distance, cost =>
    let x2 := x + distance
    if x2 ≥ p.w then []
    else
      let cost := cost + p.row_get x2 y
      let rest := p.edgesGoRight x y n (distance + 1) cost
      if p.min_move ≤ distance then ⟨x2, y, cost⟩ :: rest else rest

/-- Up half of `Puzzle::edges_v`. -/
def Puzzle.edgesGoUp (p : Puzzle) (x y : Nat) : Nat → Nat → Nat → List Edge
  | 0, _, _ => []
  | n + 1, distance, cost =>
    if distance > y then []
    else
      let y2 := y - distance
      let cost := cost + p.row_get x y2
      let rest := p.edgesGoUp x y n (distance + 1) cost
      if p.min_move ≤ distance then ⟨x, y2, cost⟩ :: rest else rest

/-- Down half of `Puzzle::edges_v`. -/
def Puzzle.edgesGoDown (p : Puzzle) (x y : Nat) : Nat → Nat → Nat → List Edge
  | 0, _, _ => []
  | n + 1, distance, cost =>
    let y2 := y + distance
    if y2 ≥ p.h then []
    else
      let cost := cost + p.row_get x y2
      let rest := p.edgesGoDown x y n (distance + 1) cost
      if p.min_move ≤ distance then ⟨x, y2, cost⟩ :: rest else rest

/-- `Puzzle::edges_h`: edges moving left (near to far), then right. -/
def Puzzle.edges_h (p : Puzzle) (x y : Nat) : List Edge :=
  p.edgesGoLeft x y p.max_move 1 0 ++ p.edgesGoRight x y p.max_move 1 0

/-- `Puzzle::edges_v`: edges moving up (near to far), then down. -/
def Puzzle.edges_v (p : Puzzle) (x y : Nat) : List Edge :=
  p.edgesGoUp x y p.max_move 1 0 ++ p.edgesGoDown x y p.max_move 1 0

/-- A distance table entry; `none` is `usize::MAX` (unreached). -/
def getDist (d : List (List (Option Nat))) (x y : Nat) : Option Nat :=
  (d.getD y []).getD x none

/-- Update a distance table entry. -/
def setDist (d : List (List (Option Nat))) (x y : Nat) (v : Nat) :
    List (List (Option Nat)) :=
  d.set y ((d.getD y []).set x (some v))

/-- `cost <= dist[y][x]` with `none` as `usize::MAX`. -/
def leDist (c : Nat) : Option Nat → Bool
  | none => true
  | some d => c ≤ d

/-- `next.cost < dist[y][x]` with `none` as `usize::MAX`. -/
def ltDist (c : Nat) : Option Nat → Bool
  | none => true
  | some d => c < d

/-- The relaxation loop over the edges of a popped node: push every
improving edge and record its new distance. -/
def relax (edges : List Edge) (vertical : Bool) (cost : Nat)
    (dist : List (List (Option Nat))) (heap : List State) :
    List (List (Option Nat)) × List State :=
  edges.foldl
    (fun acc edge =>
      let next : State := ⟨edge.x, edge.y, cost + edge.cost, vertical⟩
      if ltDist next.cost (getDist acc.1 next.x next.y) then
        (setDist acc.1 next.x next.y next.cost, next :: acc.2)
      else acc)
    (dist, heap)

/-- The main loop of `Puzzle::shortest_path`.  `none` means the heap ran
empty — the panicking branch of the source — or the fuel ran out (the fuel passed
by `shortest_path` exceeds the possible number of pops). -/
def shortestPathGo (p : Puzzle) :
    Nat → List (List (Option Nat)) → List (List (Option Nat)) → List State → Option Nat
  | 0, _, _, _ => none
  | fuel + 1, dist_h, dist_v, heap =>
    match popMax heap with
    | none => none
    | some (s, heap) =>
      if s.x = p.w - 1 ∧ s.y = p.h - 1 then some s.cost
      else
        match s.vertical with
        | true =>
          if leDist s.cost (getDist dist_v s.x s.y) then
            let r := relax (p.edges_h s.x s.y) false s.cost dist_h heap
            shortestPathGo p fuel r.1 dist_v r.2
          else shortestPathGo p fuel dist_h dist_v heap
        | false =>
          if leDist s.cost (getDist dist_h s.x s.y) then
            let r := relax (p.edges_v s.x s.y) true s.cost dist_v heap
            shortestPathGo p fuel dist_h r.1 r.2
          else shortestPathGo p fuel dist_h dist_v heap

/-- An upper bound on the number of loop iterations of `shortest_path`:
every push strictly decreases a distance entry, every pushed cost is at
most `9 * max_move` per segment over a chain of at most `2 * w * h`
strictly improving pushes, and every iteration pops one element. -/
def dijkstraFuel (p : Puzzle) : Nat :=
  2 + 2 * p.w * p.h * (9 * p.max_move * (2 * p.w * p.h) + 2)

/-- `Puzzle::shortest_path`: `none` embeds the goal-unreachable panic
(and the panic of `dist_h[0][0]` on a zero-width grid). -/
def Puzzle.shortest_path (p : Puzzle) : Option Nat :=
  if p.w = 0 then none
  else
    let unreached : List (List (Option Nat)) :=
      List.replicate p.h (List.replicate p.w none)
    let dist_h := setDist unreached 0 0 0
    let dist_v := setDist unreached 0 0 0
    shortestPathGo p (dijkstraFuel p) dist_h dist_v
      [⟨0, 0, 0, false⟩, ⟨0, 0, 0, true⟩]

/-- Day 17 `part1`. -/
def part1 (input : List Char) : RunResult Nat :=
  match Puzzle.from_input input 1 3 with
  | .error e => .err e
  | .ok p =>
    match p.shortest_path with
    | none => .panicked
    | some c => .ok c

/-- Day 17 `part2`. -/
def part2 (input : List Char) : RunResult Nat :=
  match Puzzle.from_input input 4 10 with
  | .error e => .err e
  | .ok p =>
    match p.shortest_path with
    | none => .panicked
    | some c => .ok c

/-- Modelled from claim C1: the cost of a straight horizontal segment from
column `x` to column `x2` in row `y`: the sum of the digits of every cell
the segment enters (the cell left from excluded). -/
def hSegCost (p : Puzzle) (x x2 y : Nat) : Nat :=
  if x ≤ x2 then ((List.range' (x + 1) (x2 - x)).map fun t => p.row_get t y).sum
  else ((List.range' x2 (x - x2)).map fun t => p.row_get t y).sum

/-- Modelled from claim C1: the cost of a straight vertical segment from
row `y` to row `y2` in column `x`. -/
def vSegCost (p : Puzzle) (y y2 x : Nat) : Nat :=
  if y ≤ y2 then ((List.range' (y + 1) (y2 - y)).map fun t => p.row_get x t).sum
  else ((List.range' y2 (y - y2)).map fun t => p.row_get x t).sum

/-- Modelled from claim C1: a valid path from `(0, 0)` to `(x, y)` whose
last segment was vertical iff `vert`: a sequence of straight horizontal or
vertical segments, each of length between `min_move` and `max_move`
inclusive, consecutive segments alternating orientation (the empty path
carries either flag, leaving the first segment's orientation free), staying
on the grid; the cost is the sum of the digits of every cell entered, the
start cell excluded. -/
inductive PathTo (p : Puzzle) : Nat → Nat → Bool → Nat → Prop
  | init (vert : Bool) : PathTo p 0 0 vert 0
  | stepH {x y c : Nat} (x2 : Nat) :
      PathTo p x y true c →
      (x2 < x ∧ p.min_move ≤ x - x2 ∧ x - x2 ≤ p.max_move ∨
        x < x2 ∧ p.min_move ≤ x2 - x ∧ x2 - x ≤ p.max_move ∧ x2 < p.w) →
      PathTo p x2 y false (c + hSegCost p x x2 y)
  | stepV {x y c : Nat} (y2 : Nat) :
      PathTo p x y false c →
      (y2 < y ∧ p.min_move ≤ y - y2 ∧ y - y2 ≤ p.max_move ∨
        y < y2 ∧ p.min_move ≤ y2 - y ∧ y2 - y ≤ p.max_move ∧ y2 < p.h) →
      PathTo p x y2 true (c + vSegCost p y y2 x)

/-- Sum of a per-entry weight over a distance table. -/
def tableSum (f : Option Nat → Nat) (d : List (List (Option Nat))) : Nat :=
  (d.map fun r => (r.map f).sum).sum

/-- The number of reached (`some`) entries of a distance table. -/
def countSome (d : List (List (Option Nat))) : Nat :=
  tableSum (fun e => match e with | none => 0 | some _ => 1) d

/-- The termination potential of a distance table: unreached entries count
`M + 2`, reached entries one more than their value; every push strictly
decreases it while values stay at most `M`. -/
def phiTable (M : Nat) (d : List (List (Option Nat))) : Nat :=
  tableSum (fun e => match e with | none => M + 2 | some c => c + 1) d

/-- The loop invariant of `shortest_path`: table shapes, the origin pinned
at 0, every recorded value and heap state realized by a valid path, heap
states at least their recorded entry, every recorded entry either present
in the heap at its exact value or (for non-goal cells) fully relaxed, and
the value bounds driving termination. -/
structure Inv (p : Puzzle) (dist_h dist_v : List (List (Option Nat)))
    (heap : List State) : Prop where
  shape_h : dist_h.length = p.h ∧ ∀ r ∈ dist_h, r.length = p.w
  shape_v : dist_v.length = p.h ∧ ∀ r ∈ dist_v, r.length = p.w
  origin_h : getDist dist_h 0 0 = some 0
  origin_v : getDist dist_v 0 0 = some 0
  sound_h : ∀ x y c, getDist dist_h x y = some c → PathTo p x y false c
  sound_v : ∀ x y c, getDist dist_v x y = some c → PathTo p x y true c
  heap_sound : ∀ s ∈ heap, PathTo p s.x s.y s.vertical s.cost
  heap_dist : ∀ s ∈ heap, ∃ c,
    getDist (if s.vertical then dist_v else dist_h) s.x s.y = some c ∧ c ≤ s.cost
  entry_live : ∀ (vert : Bool) (x y c : Nat),
    getDist (if vert then dist_v else dist_h) x y = some c →
    (∃ s ∈ heap, s.x = x ∧ s.y = y ∧ s.vertical = vert ∧ s.cost = c) ∨
    (¬(x = p.w - 1 ∧ y = p.h - 1) ∧
      ∀ e ∈ (if vert then p.edges_h x y else p.edges_v x y),
        ∃ c2, getDist (if vert then dist_h else dist_v) e.x e.y = some c2 ∧
          c2 ≤ c + e.cost)
  val_bound : ∀ (vert : Bool) (x y c : Nat),
    getDist (if vert then dist_v else dist_h) x y = some c →
    c ≤ 9 * p.max_move * (countSome dist_h + countSome dist_v)
  heap_bound : ∀ s ∈ heap, s.cost ≤ 9 * p.max_move * (2 * p.w * p.h)

end Day17

namespace Day5

/-- `struct IntervalMapping` of day 5: the source interval `[a, b)` is
mapped affinely so that `a` goes to `dest`. -/
structure IntervalMapping where
  a : Nat
  b : Nat
  dest : Nat
  deriving Repr, DecidableEq

/-- `IntervalMapping::contains`. -/
def IntervalMapping.contains (self : IntervalMapping) (x : Nat) : Bool :=
  decide (self.a ≤ x ∧ x < self.b)

/-- `IntervalMapping::apply`.  The fields are `u64`, so the addition
`self.dest + (x - self.a)` wraps around modulo `2 ^ 64` (release-mode Rust
semantics), embedded by the explicit remainder; the subtraction cannot
underflow because `contains` guarantees `self.a ≤ x`. -/
def IntervalMapping.apply (self : IntervalMapping) (x : Nat) : Option Nat :=
  if self.contains x then some ((self.dest + (x - self.a)) % 2 ^ 64) else none

/-- `IntervalMapping::source_overlaps`. -/
def IntervalMapping.source_overlaps (self other : IntervalMapping) : Bool :=
  self.contains other.a || other.contains self.a

/-- The `derive(Ord)` order on `IntervalMapping`: lexicographic on
`(a, b, dest)`. -/
def IntervalMapping.le (i j : IntervalMapping) : Prop :=
  i.a < j.a ∨ (i.a = j.a ∧ (i.b < j.b ∨ (i.b = j.b ∧ i.dest ≤ j.dest)))

instance : DecidableRel IntervalMapping.le := by
  intro i j
  unfold IntervalMapping.le
  infer_instance

instance : IsTotal IntervalMapping IntervalMapping.le :=
  ⟨by
    intro i j
    unfold IntervalMapping.le
    omega⟩

instance : IsTrans IntervalMapping IntervalMapping.le :=
  ⟨by
    intro i j k
    unfold IntervalMapping.le
    omega⟩

/-- `struct Map` of day 5. -/
structure Map where
  from_type : List Char
  to_type : List Char
  entries : List IntervalMapping
  deriving Repr, DecidableEq

/-- `Map::apply`: send `x` through the first interval mapping whose source
contains it; the identity when no interval contains it. -/
def Map.apply (m : Map) (x : Nat) : Nat :=
  match m.entries.findSome? (fun entry => entry.apply x) with
  | some y => y
  | none => x

/-- The loop of `Map::fill_holes`: keep the mappings, inserting an identity
mapping in front of every gap; `a` is the end of the previously processed
mapping. -/
def fillGo : Nat → List IntervalMapping → List IntervalMapping
  | _, [] => []
  | a, m :: rest =>
    if m.a > a then ⟨a, m.a, a⟩ :: m :: fillGo m.b rest
    else m :: fillGo m.b rest

/-- `Map::fill_holes`: fill the gaps of a sorted mapping list with identity
mappings, and pad with an identity mapping up to `max_b`. -/
def Map.fill_holes (sorted_mappings : List IntervalMapping) (max_b : Nat) :
    List IntervalMapping :=
  let result := fillGo 0 sorted_mappings
  match result.getLast? with
  | some last_mapping =>
    if last_mapping.b < max_b then
      result ++ [⟨last_mapping.b, max_b, last_mapping.b⟩]
    else result
  | none => result

/-- The inner `while let` loop of `Map::combine`, processing one source
interval `f` from position `a` on: as long as some `g` of the other map
contains the value of `f` at `a`, emit the composed mapping on the largest
prefix on which it is affine.  The `u64` addition `a + (g.b - fa)` wraps
modulo `2 ^ 64` (release-mode Rust), and with wrap-around the loop can run
forever, so the recursion is indexed by fuel; exhausting the fuel embeds
divergence.  `none` embeds the `unwrap` panics (which need an empty
interval in `f` to fire) and divergence. -/
def combineGo (other_intervals : List IntervalMapping) (f : IntervalMapping) :
    Nat → Nat → List IntervalMapping → Option (List IntervalMapping)
  | 0, _, _ => none
  | fuel + 1, a, entries =>
    match f.apply a with
    | none => none
    | some fa =>
      match other_intervals.find? (fun g => g.contains fa) with
      | some g =>
        match g.apply fa with
        | none => none
        | some dest =>
          let x := (a + (g.b - fa)) % 2 ^ 64
          if x < f.b then
            combineGo other_intervals f fuel x (entries ++ [⟨a, x, dest⟩])
          else
            some (entries ++ [⟨a, f.b, dest⟩])
      | none => some (entries ++ [⟨a, f.b, fa⟩])

/-- The outer `for f in self_intervals` loop of `Map::combine`; `none` also
embeds the `assert_eq!(a, f.a)`.  The inner loop's whole control state is
the single `u64` variable `a` (`fa`, `g`, `dest` and `x` are computed from
it and the loop constants), each iteration assigns `a` a fresh value that
is `< 2 ^ 64` from the first iteration on, and a run that revisits a value
of `a` repeats forever; a terminating run of the inner loop therefore
takes at most `2 ^ 64 + 1` iterations, so fuel `2 ^ 64 + 2` never runs out
on a run the Rust program finishes, and its exhaustion only embeds
divergence. -/
def combineEntries (other_intervals : List IntervalMapping) :
    List IntervalMapping → Nat → List IntervalMapping → Option (List IntervalMapping)
  | [], _, entries => some entries
  | f :: fs, a, entries =>
    if a = f.a then
      match combineGo other_intervals f (2 ^ 64 + 2) a entries with
      | some entries => combineEntries other_intervals fs f.b entries
      | none => none
    else none

/-- `Map::combine`.  `none` embeds the panics (`assert!`, `assert_eq!` and
the `unwrap`s).  The stable Rust `Vec::sort` under the derived order is
embedded as insertion sort, which computes the same list as any stable sort
for the same total preorder. -/
def Map.combine (self other : Map) : Option Map :=
  if self.to_type ≠ other.from_type then none
  else
    let self_intervals := List.insertionSort IntervalMapping.le self.entries
    let other_intervals := List.insertionSort IntervalMapping.le other.entries
    let max_b := max
      (((self_intervals.getLast?).map fun i => i.b).getD 0)
      (((other_intervals.getLast?).map fun i => i.b).getD 0)
    let self_intervals := Map.fill_holes self_intervals max_b
    let other_intervals := Map.fill_holes other_intervals max_b
    (combineEntries other_intervals self_intervals 0 []).map
      fun entries => ⟨self.from_type, other.to_type, entries⟩

/-- The hypothesis of claim C2 on a day-5 map: pairwise non-overlapping
source intervals. -/
def Map.sources_ok (m : Map) : Prop :=
  m.entries.Pairwise fun i j => ¬ i.source_overlaps j

instance (m : Map) : Decidable m.sources_ok := by
  unfold Map.sources_ok
  infer_instance

/-- The entry-list core of `Map::apply`. -/
def applyEntries (l : List IntervalMapping) (x : Nat) : Nat :=
  match l.findSome? (fun entry => entry.apply x) with
  | some y => y
  | none => x

/-- Contiguity of a mapping list: the first interval starts at `s`, every
interval starts where the previous one ends (with nonnegative spans), and
the last ends at `t`. -/
def Contig : List IntervalMapping → Nat → Nat → Prop
  | [], s, t => s = t
  | e :: rest, s, t => e.a = s ∧ s ≤ e.b ∧ Contig rest e.b t

end Day5

namespace Day10

/-- `enum Tile` of day 10. -/
inductive Tile
  | NS
  | EW
  | NE
  | NW
  | SW
  | SE
  | Ground
  | Start
  deriving Repr, DecidableEq

/-- `Tile::connects_up`. -/
def Tile.connects_up : Tile → Bool
  | .NS | .NE | .NW => true
  | _ => false

/-- `Tile::connects_down`. -/
def Tile.connects_down : Tile → Bool
  | .NS | .SE | .SW => true
  | _ => false

/-- `Tile::connects_left`. -/
def Tile.connects_left : Tile → Bool
  | .EW | .SW | .NW => true
  | _ => false

/-- `Tile::connects_right`. -/
def Tile.connects_right : Tile → Bool
  | .EW | .SE | .NE => true
  | _ => false

/-- Whether a tile is a pipe (not `Ground` or `Start`). -/
def Tile.is_pipe : Tile → Bool
  | .Ground | .Start => false
  | _ => true

/-- `Tile::neighbors`: the two connected coordinates, N before E before S
before W.  `none` embeds the panic on a non-pipe tile and the `usize`
underflow panic at the grid border. -/
def Tile.neighbors : Tile → Nat × Nat → Option ((Nat × Nat) × (Nat × Nat))
  | .NS, (x, y) => if y = 0 then none else some ((x, y - 1), (x, y + 1))
  | .EW, (x, y) => if x = 0 then none else some ((x + 1, y), (x - 1, y))
  | .NE, (x, y) => if y = 0 then none else some ((x, y - 1), (x + 1, y))
  | .NW, (x, y) => if y = 0 ∨ x = 0 then none else some ((x, y - 1), (x - 1, y))
  | .SW, (x, y) => if x = 0 then none else some ((x, y + 1), (x - 1, y))
  | .SE, (x, y) => some ((x + 1, y), (x, y + 1))
  | _, _ => none

/-- `struct Puzzle` of day 10. -/
structure Puzzle where
  width : Nat
  height : Nat
  rows : List (List Tile)
  start_row : Nat
  start_col : Nat
  deriving Repr, DecidableEq

/-- `self.rows[y][x]`; call sites are in bounds on rectangular grids. -/
def Puzzle.tile_at (p : Puzzle) (x y : Nat) : Tile :=
  (p.rows.getD y []).getD x Tile.Ground

/-- The loop of `Puzzle::get_cycle` as fuel-indexed recursion: follow the
neighbor that is not the previous position until the start reappears. -/
def getCycleGo (p : Puzzle) : Nat → Nat × Nat → Nat × Nat → List (Nat × Nat) →
    Option (List (Nat × Nat))
  | 0, _, _, _ => none
  | fuel + 1, cur, prev, acc =>
    match (p.tile_at cur.1 cur.2).neighbors cur with
    | none => none
    | some (n0, n1) =>
      let next := if n0 = prev then n1 else n0
      let acc := acc ++ [next]
      if next = (p.start_col, p.start_row) then some acc
      else getCycleGo p fuel next cur acc

/-- `Puzzle::get_cycle`. -/
def Puzzle.get_cycle (p : Puzzle) (fuel : Nat) : Option (List (Nat × Nat)) :=
  getCycleGo p fuel (p.start_col, p.start_row) (p.start_col, p.start_row)
    [(p.start_col, p.start_row)]

/-- The `sort_by` order of `area_in_cycle`: by row, then by column. -/
def posLe (a b : Nat × Nat) : Prop :=
  a.2 < b.2 ∨ (a.2 = b.2 ∧ a.1 ≤ b.1)

instance : DecidableRel posLe := by
  intro a b
  unfold posLe
  infer_instance

instance : IsTotal (Nat × Nat) posLe :=
  ⟨by
    intro a b
    unfold posLe
    omega⟩

instance : IsTrans (Nat × Nat) posLe :=
  ⟨by
    intro a b c
    unfold posLe
    omega⟩

/-- Strict row-major order on grid positions. -/
def rmLt (a b : Nat × Nat) : Prop :=
  a.2 < b.2 ∨ (a.2 = b.2 ∧ a.1 < b.1)

/-- Non-strict row-major order on grid positions. -/
def rmLe (a b : Nat × Nat) : Prop :=
  a.2 < b.2 ∨ (a.2 = b.2 ∧ a.1 ≤ b.1)

/-- One row of the cell scan of `area_in_cycle`: `xs` are the remaining
column indices, `rest` the not-yet-passed sorted cycle positions.  `none`
embeds the panic on an unexpected tile in the cycle, `Sum.inl` the early
`return area` when the cycle positions are exhausted. -/
def scanRow (p : Puzzle) (y : Nat) :
    List Nat → Bool → Option Tile → Nat → List (Nat × Nat) →
    Option (Sum Nat (Nat × List (Nat × Nat)))
  | [], _, _, area, rest => some (Sum.inr (area, rest))
  | x :: xs, inside, last_angle_read, area, rest =>
    if rest.head? = some (x, y) then
      let step : Option (Bool × Option Tile) :=
        match p.tile_at x y with
        | Tile.NS => some (!inside, last_angle_read)
        | Tile.EW => some (inside, last_angle_read)
        | Tile.NE => some (inside, some Tile.NE)
        | Tile.NW => some
            (if last_angle_read = some Tile.SE then !inside else inside, some Tile.NW)
        | Tile.SW => some
            (if last_angle_read = some Tile.NE then !inside else inside, some Tile.SW)
        | Tile.SE => some (inside, some Tile.SE)
        | _ => none
      match step with
      | none => none
      | some (inside2, last2) =>
        match rest.tail with
        | [] => some (Sum.inl area)
        | r :: rs => scanRow p y xs inside2 last2 area (r :: rs)
    else
      scanRow p y xs inside last_angle_read (if inside then area + 1 else area) rest

/-- The row loop of `area_in_cycle`: `inside` and `last_angle_read` are
reset at every row, `area` and the remaining cycle positions persist. -/
def scanRows (p : Puzzle) : List Nat → Nat → List (Nat × Nat) → Option Nat
  | [], area, _ => some area
  | y :: ys, area, rest =>
    match scanRow p y (List.range p.width) false none area rest with
    | none => none
    | some (Sum.inl result) => some result
    | some (Sum.inr (area2, rest2)) => scanRows p ys area2 rest2

/-- `Puzzle::area_in_cycle`: drop the duplicated final position (asserting
it equals the first), sort the cycle row-major, then scan the grid row by
row.  `none` embeds the asserts, the expect and the unexpected-tile panic. -/
def Puzzle.area_in_cycle (p : Puzzle) (fuel : Nat) : Option Nat :=
  match p.get_cycle fuel with
  | none => none
  | some c =>
    match c.getLast? with
    | none => none
    | some last =>
      let cycle := c.dropLast
      if cycle.head? ≠ some last then none
      else
        match List.insertionSort posLe cycle with
        | [] => none
        | q :: qs => scanRows p (List.range p.height) 0 (q :: qs)

mutual

/-- Modelled from the claim: the crossing number of a leftward ray, given
the loop tiles strictly left of a cell in its row in increasing column
order: every NS tile is a crossing, and so is every corner pair SE..NW or
NE..SW with any number of EW tiles between the corners. -/
def crossingNumber : List Tile → Nat
  | [] => 0
  | Tile.NS :: r => crossingNumber r + 1
  | Tile.SE :: r => crossingFrom Tile.SE r
  | Tile.NE :: r => crossingFrom Tile.NE r
  | _ :: r => crossingNumber r
termination_by l => (l.length, 0)

/-- After an opening corner: skip EW tiles; a closing corner completes the
pair (crossing exactly for SE..NW and NE..SW); anything else abandons it. -/
def crossingFrom (opener : Tile) : List Tile → Nat
  | [] => 0
  | Tile.EW :: r => crossingFrom opener r
  | Tile.NW :: r => crossingNumber r + (if opener = Tile.SE then 1 else 0)
  | Tile.SW :: r => crossingNumber r + (if opener = Tile.NE then 1 else 0)
  | t :: r => crossingNumber (t :: r)
termination_by l => (l.length, 1)

end

/-- The loop tiles strictly left of column `x` in row `y`, in increasing
column order. -/
def rowTilesLeftOf (p : Puzzle) (C : List (Nat × Nat)) (y x : Nat) : List Tile :=
  ((List.range x).filter fun x2 => decide ((x2, y) ∈ C)).map fun x2 => p.tile_at x2 y

/-- A cell counts for the area iff it is off the loop and its leftward ray
crosses the loop an odd number of times. -/
def specCount (p : Puzzle) (C : List (Nat × Nat)) (y : Nat) (xs : List Nat) : Nat :=
  (xs.filter fun x =>
    decide ((x, y) ∉ C) && decide (Odd (crossingNumber (rowTilesLeftOf p C y x)))).length

/-- Modelled from the claim: the number of grid cells off the loop whose
leftward ray crosses the loop boundary an odd number of times. -/
def areaSpec (p : Puzzle) (C : List (Nat × Nat)) : Nat :=
  ((List.range p.height).map fun y => specCount p C y (List.range p.width)).sum

/-- A list of row tiles consisting of complete items: NS tiles and corner
pairs with EW tiles between them. -/
inductive Itemized : List Tile → Prop
  | nil : Itemized []
  | ns {r : List Tile} : Itemized r → Itemized (Tile.NS :: r)
  | pair {c1 c2 : Tile} {mid r : List Tile} :
      c1 = Tile.SE ∨ c1 = Tile.NE →
      (∀ t ∈ mid, t = Tile.EW) →
      c2 = Tile.NW ∨ c2 = Tile.SW →
      Itemized r →
      Itemized (c1 :: (mid ++ c2 :: r))

/-- Local pipe-loop conditions at one loop cell: its tile is a pipe, and
in every direction it connects, the adjacent cell exists, is on the loop,
and connects back. -/
def ConnOk (p : Puzzle) (C : List (Nat × Nat)) (q : Nat × Nat) : Prop :=
  (p.tile_at q.1 q.2).is_pipe = true ∧
  ((p.tile_at q.1 q.2).connects_right = true →
    (q.1 + 1, q.2) ∈ C ∧ (p.tile_at (q.1 + 1) q.2).connects_left = true) ∧
  ((p.tile_at q.1 q.2).connects_left = true →
    q.1 ≠ 0 ∧ (q.1 - 1, q.2) ∈ C ∧ (p.tile_at (q.1 - 1) q.2).connects_right = true) ∧
  ((p.tile_at q.1 q.2).connects_down = true →
    (q.1, q.2 + 1) ∈ C ∧ (p.tile_at q.1 (q.2 + 1)).connects_up = true) ∧
  ((p.tile_at q.1 q.2).connects_up = true →
    q.2 ≠ 0 ∧ (q.1, q.2 - 1) ∈ C ∧ (p.tile_at q.1 (q.2 - 1)).connects_down = true)

instance (p : Puzzle) (C : List (Nat × Nat)) (q : Nat × Nat) :
    Decidable (ConnOk p C q) := by
  unfold ConnOk
  infer_instance

/-- The hypothesis of claim C5, formalizing "the tiles form a single closed
pipe loop": the loop cells (the cycle without its duplicated endpoint) are
pairwise distinct, in bounds, and locally well-connected; the grid is
rectangular. -/
def LoopOk (p : Puzzle) (C : List (Nat × Nat)) : Prop :=
  C.Nodup ∧
  (∀ q ∈ C, q.1 < p.width ∧ q.2 < p.height) ∧
  (∀ q ∈ C, ConnOk p C q) ∧
  p.rows.length = p.height ∧ ∀ r ∈ p.rows, r.length = p.width

instance (p : Puzzle) (C : List (Nat × Nat)) : Decidable (LoopOk p C) := by
  unfold LoopOk
  infer_instance

/-- Row-scan invariant, state A (between items): the tiles read so far form
complete items, `inside` tracks their parity, and the current cell does not
continue a horizontal run. -/
def RowInvA (p : Puzzle) (L : List (Nat × Nat)) (y x0 : Nat) (inside : Bool) : Prop :=
  Itemized (rowTilesLeftOf p L y x0) ∧
  (inside = true ↔ Odd (crossingNumber (rowTilesLeftOf p L y x0))) ∧
  ((x0, y) ∈ L → (p.tile_at x0 y).connects_left = false)

/-- Row-scan invariant, state B (inside a horizontal run): the tiles read so
far are complete items followed by an opening corner and EW tiles,
`last_angle_read` holds the opener, and the current cell continues the run. -/
def RowInvB (p : Puzzle) (L : List (Nat × Nat)) (y x0 : Nat) (inside : Bool)
    (last_angle_read : Option Tile) : Prop :=
  ∃ items opener mids,
    rowTilesLeftOf p L y x0 = items ++ opener :: mids ∧
    Itemized items ∧
    (inside = true ↔ Odd (crossingNumber items)) ∧
    (opener = Tile.SE ∨ opener = Tile.NE) ∧
    (∀ t ∈ mids, t = Tile.EW) ∧
    last_angle_read = some opener ∧
    (x0, y) ∈ L ∧ (p.tile_at x0 y).connects_left = true

end Day10

/-- C8: `Config::build(args)` succeeds exactly on argument lists of length 3,
returning the second and third argument as the two file paths, and on every
other length fails with the error string "Not enough arguments". -/
theorem C8_config_build (args : List (List Char)) (c : Day1.Config) (e : String) :
    (Day1.Config.build args = .ok c ↔
      args.length = 3 ∧ c.file_path1 = args.getD 1 [] ∧ c.file_path2 = args.getD 2 []) ∧
    (Day1.Config.build args = .error e ↔ args.length ≠ 3 ∧ e = "Not enough arguments") := by
  unfold Day1.Config.build
  constructor
  · constructor
    · intro h
      split at h
      · cases h
      · rename_i hlen
        cases h
        exact ⟨by omega, rfl, rfl⟩
    · rintro ⟨hlen, h1, h2⟩
      rw [if_neg (by omega)]
      cases c
      simp_all
  · constructor
    · intro h
      split at h
      · cases h
        exact ⟨by assumption, rfl⟩
      · cases h
    · rintro ⟨hlen, he⟩
      rw [if_pos hlen, he]

/-- C7: on every input, the day 9 functions `part1` and `part2` parse with
the same function `Puzzle::from_input`: each errors exactly when that parse
errors (hence one errors iff the other does), and on success they differ
only in the `reverse` flag passed to the extrapolation: `part1` sums the
forward-extrapolated values, `part2` the backward-extrapolated ones. -/
theorem C7_day9_parts_share_parse (input : List Char) :
    ((Day9.part1 input).isSome ↔ (Day9.part2 input).isSome) ∧
    (Day9.part1 input = none ↔ Day9.Puzzle.from_input input = none) ∧
    (Day9.part2 input = none ↔ Day9.Puzzle.from_input input = none) ∧
    ∀ p, Day9.Puzzle.from_input input = some p →
      Day9.part1 input =
        some ((p.histories.map fun s => s.extrapolate_next_value false).sum) ∧
      Day9.part2 input =
        some ((p.histories.map fun s => s.extrapolate_next_value true).sum) := by
  refine ⟨?_, ?_, ?_, ?_⟩
  · simp [Day9.part1, Day9.part2]
  · simp [Day9.part1]
  · simp [Day9.part2]
  · intro p h
    constructor
    · simp [Day9.part1, h, Day9.Puzzle.sum_extrapolated_values]
    · simp [Day9.part2, h, Day9.Puzzle.sum_extrapolated_values]

/-- Witness for C7 at the concrete inputs "0 3 6 9 12 15" (which parses)
and "x" (which does not). -/
theorem C7_day9_parts_share_parse_witness :
    Day9.Puzzle.from_input "0 3 6 9 12 15".toList = some ⟨[⟨[0, 3, 6, 9, 12, 15]⟩]⟩ ∧
    ((Day9.part1 "0 3 6 9 12 15".toList).isSome ↔
      (Day9.part2 "0 3 6 9 12 15".toList).isSome) ∧
    Day9.Puzzle.from_input "x".toList = none ∧
    (Day9.part1 "x".toList = none ↔ Day9.Puzzle.from_input "x".toList = none) :=
  ⟨by decide, (C7_day9_parts_share_parse "0 3 6 9 12 15".toList).1, by decide,
    (C7_day9_parts_share_parse "x".toList).2.1⟩

/-- Helper for C10: fuel `n + 1` suffices for the fuel-indexed extrapolation
whenever the sequence has at most `n` elements. -/
theorem extrapolateFuel_sufficient (n : Nat) :
    ∀ (elems : List Int) (reverse : Bool), elems.length ≤ n →
      Day9.extrapolateFuel (n + 1) elems reverse =
        some (Day9.Sequence.extrapolate_next_value ⟨elems⟩ reverse) := by
  induction n with
  | zero =>
    intro elems reverse hlen
    have : elems = [] := List.length_eq_zero.mp (Nat.le_zero.mp hlen)
    subst this
    rw [Day9.extrapolateFuel, Day9.Sequence.extrapolate_next_value]
    simp
  | succ n ih =>
    intro elems reverse hlen
    rw [Day9.extrapolateFuel, Day9.Sequence.extrapolate_next_value]
    by_cases hz : elems.all (fun i => i == 0)
    · simp [hz]
    · have hne : elems ≠ [] := by
        intro hnil
        apply hz
        simp [hnil]
      have hpos := List.length_pos.mpr hne
      have hlt : (Day9.Sequence.from_differences ⟨elems⟩).elements.length ≤ n := by
        simp only [Day9.Sequence.from_differences]
        split
        · simp
        · simp only [List.length_map, List.length_zip, List.length_tail]
          omega
      rw [ih _ reverse hlt]
      simp [hz]

/-- C10: `Sequence::extrapolate_next_value` terminates on every finite
sequence and both flag values: the fuel-indexed version of the recursion
never runs out of fuel when given `length + 1` fuel, because each recursive
call is on the difference sequence (strictly shorter when the length is at
least 2, empty otherwise) and an all-zero sequence, in particular the empty
one, returns 0 without recursing. -/
theorem C10_extrapolate_terminates (elems : List Int) (reverse : Bool) :
    Day9.extrapolateFuel (elems.length + 1) elems reverse =
      some (Day9.Sequence.extrapolate_next_value ⟨elems⟩ reverse) :=
  extrapolateFuel_sufficient elems.length elems reverse (Nat.le_refl _)

/-- Helper: `tiltGo` is its accumulator-free companion appended to the
accumulator. -/
theorem tiltGo_eq (v : List Day14.Tile) :
    ∀ (tilted : List Day14.Tile) (seg os : Nat),
      Day14.tiltGo tilted v seg os = tilted ++ Day14.tiltSpecGo v seg os := by
  induction v with
  | nil =>
    intro t s o
    simp [Day14.tiltGo, Day14.tiltSpecGo, Day14.Puzzle.handle_end_of_segment]
  | cons hd tl ih =>
    intro t s o
    cases hd <;>
      simp [Day14.tiltGo, Day14.tiltSpecGo, ih, Day14.Puzzle.handle_end_of_segment]

/-- Helper: length of the tilted output. -/
theorem tiltSpecGo_length (v : List Day14.Tile) :
    ∀ seg os, os ≤ seg → (Day14.tiltSpecGo v seg os).length = seg + v.length := by
  induction v with
  | nil =>
    intro s o h
    simp only [Day14.tiltSpecGo, List.length_append, List.length_replicate, List.length_nil]
    omega
  | cons hd tl ih =>
    intro s o h
    cases hd with
    | O =>
      rw [Day14.tiltSpecGo, ih (s + 1) (o + 1) (by omega)]
      simp
      omega
    | Dot =>
      rw [Day14.tiltSpecGo, ih (s + 1) o (by omega)]
      simp
      omega
    | Hash =>
      rw [Day14.tiltSpecGo]
      simp only [List.length_append, List.length_replicate, List.length_cons,
        ih 0 0 (Nat.le_refl 0)]
      omega

/-- Helper: the `#`-mask of the tilted output is the input mask shifted past
the current segment. -/
theorem tiltSpecGo_mask (v : List Day14.Tile) :
    ∀ seg os, os ≤ seg →
      (Day14.tiltSpecGo v seg os).map (fun t => t == Day14.Tile.Hash)
        = List.replicate seg false ++ v.map (fun t => t == Day14.Tile.Hash) := by
  induction v with
  | nil =>
    intro s o h
    rw [Day14.tiltSpecGo]
    have hso : o + (s - o) = s := by omega
    simp only [List.map_append, List.map_replicate, List.map_nil, List.append_nil]
    have h1 : (Day14.Tile.O == Day14.Tile.Hash) = false := rfl
    have h2 : (Day14.Tile.Dot == Day14.Tile.Hash) = false := rfl
    rw [h1, h2, ← List.replicate_add, hso]
  | cons hd tl ih =>
    intro s o h
    cases hd with
    | O =>
      rw [Day14.tiltSpecGo, ih (s + 1) (o + 1) (by omega), List.replicate_succ']
      simp
    | Dot =>
      rw [Day14.tiltSpecGo, ih (s + 1) o (by omega), List.replicate_succ']
      simp
    | Hash =>
      rw [Day14.tiltSpecGo]
      have hso : o + (s - o) = s := by omega
      simp only [List.map_append, List.map_replicate, List.map_cons,
        ih 0 0 (Nat.le_refl 0), List.replicate_zero, List.nil_append]
      have h1 : (Day14.Tile.O == Day14.Tile.Hash) = false := rfl
      have h2 : (Day14.Tile.Dot == Day14.Tile.Hash) = false := rfl
      rw [h1, h2, ← List.replicate_add, hso]

/-- Helper: the number of `O` tiles in the tilted output. -/
theorem tiltSpecGo_count (v : List Day14.Tile) :
    ∀ seg os, os ≤ seg →
      (Day14.tiltSpecGo v seg os).count Day14.Tile.O = os + v.count Day14.Tile.O := by
  induction v with
  | nil =>
    intro s o h
    rw [Day14.tiltSpecGo]
    simp [List.count_append, List.count_replicate]
  | cons hd tl ih =>
    intro s o h
    cases hd with
    | O =>
      rw [Day14.tiltSpecGo, ih (s + 1) (o + 1) (by omega)]
      simp [List.count_cons]
      omega
    | Dot =>
      rw [Day14.tiltSpecGo, ih (s + 1) o (by omega)]
      simp [List.count_cons]
    | Hash =>
      rw [Day14.tiltSpecGo]
      simp [List.count_append, List.count_replicate, List.count_cons,
        ih 0 0 (Nat.le_refl 0)]

/-- Helper: `sortSeg` only depends on the `O`-count and the length. -/
theorem sortSeg_congr (s t : List Day14.Tile)
    (hc : s.count Day14.Tile.O = t.count Day14.Tile.O) (hl : s.length = t.length) :
    Day14.sortSeg s = Day14.sortSeg t := by
  unfold Day14.sortSeg
  rw [hc, hl]

/-- Helper: a block of `O`s followed by `.`s is a fixed point of `sortSeg`. -/
theorem sortSeg_pad (o d : Nat) :
    Day14.sortSeg (List.replicate o Day14.Tile.O ++ List.replicate d Day14.Tile.Dot)
      = List.replicate o Day14.Tile.O ++ List.replicate d Day14.Tile.Dot := by
  unfold Day14.sortSeg
  have hc : (List.replicate o Day14.Tile.O
      ++ List.replicate d Day14.Tile.Dot).count Day14.Tile.O = o := by
    simp [List.count_append, List.count_replicate]
  have hl : (List.replicate o Day14.Tile.O
      ++ List.replicate d Day14.Tile.Dot).length = o + d := by
    simp
  rw [hc, hl]
  have hd : o + d - o = d := by omega
  rw [hd]

/-- Helper: no tile of an `O`/`.` block is a `#`. -/
theorem pad_no_hash (o d : Nat) :
    ∀ x ∈ List.replicate o Day14.Tile.O ++ List.replicate d Day14.Tile.Dot,
      ¬((x == Day14.Tile.Hash) = true) := by
  intro x hx
  rcases List.mem_append.mp hx with h | h
  · rw [(List.eq_of_mem_replicate h)]
    decide
  · rw [(List.eq_of_mem_replicate h)]
    decide

/-- Helper: `splitOn` never returns the empty list of pieces. -/
theorem splitOn_ne_nil_tile (v : List Day14.Tile) :
    v.splitOn Day14.Tile.Hash ≠ [] := by
  unfold List.splitOn
  exact List.splitOnP_ne_nil _ v

/-- Helper: the maximal `#`-free segments of the tilted output are the
sorted segments of the input, with the partially consumed segment merged
into the first one. -/
theorem tiltSpecGo_splitOn (v : List Day14.Tile) :
    ∀ seg os, os ≤ seg →
      (Day14.tiltSpecGo v seg os).splitOn Day14.Tile.Hash
        = Day14.sortSeg (List.replicate os Day14.Tile.O
            ++ List.replicate (seg - os) Day14.Tile.Dot
            ++ ((v.splitOn Day14.Tile.Hash).headD []))
          :: ((v.splitOn Day14.Tile.Hash).tail.map Day14.sortSeg) := by
  induction v with
  | nil =>
    intro s o h
    rw [Day14.tiltSpecGo]
    rw [List.splitOn, List.splitOnP_eq_single _ _ (pad_no_hash o (s - o))]
    simp [sortSeg_pad]
  | cons hd tl ih =>
    intro s o h
    obtain ⟨h0, rest, heq⟩ := List.exists_cons_of_ne_nil (splitOn_ne_nil_tile tl)
    cases hd with
    | O =>
      rw [Day14.tiltSpecGo, ih (s + 1) (o + 1) (by omega)]
      have hsplit : (Day14.Tile.O :: tl).splitOn Day14.Tile.Hash
          = (Day14.Tile.O :: h0) :: rest := by
        rw [List.splitOn, List.splitOnP_cons]
        have : ((Day14.Tile.O == Day14.Tile.Hash) : Bool) = false := rfl
        rw [this]
        simp only [Bool.false_eq_true, if_false]
        rw [show tl.splitOnP (· == Day14.Tile.Hash) = h0 :: rest from heq]
        rfl
      rw [hsplit, heq]
      simp only [List.headD_cons, List.tail_cons]
      congr 1
      apply sortSeg_congr
      · simp [List.count_append, List.count_replicate, List.count_cons]
        omega
      · simp
        omega
    | Dot =>
      rw [Day14.tiltSpecGo, ih (s + 1) o (by omega)]
      have hsplit : (Day14.Tile.Dot :: tl).splitOn Day14.Tile.Hash
          = (Day14.Tile.Dot :: h0) :: rest := by
        rw [List.splitOn, List.splitOnP_cons]
        have : ((Day14.Tile.Dot == Day14.Tile.Hash) : Bool) = false := rfl
        rw [this]
        simp only [Bool.false_eq_true, if_false]
        rw [show tl.splitOnP (· == Day14.Tile.Hash) = h0 :: rest from heq]
        rfl
      rw [hsplit, heq]
      simp only [List.headD_cons, List.tail_cons]
      congr 1
      apply sortSeg_congr
      · simp [List.count_append, List.count_replicate, List.count_cons]
      · simp
        omega
    | Hash =>
      rw [Day14.tiltSpecGo]
      have hsplit : (Day14.Tile.Hash :: tl).splitOn Day14.Tile.Hash
          = [] :: tl.splitOn Day14.Tile.Hash := by
        rw [List.splitOn, List.splitOnP_cons]
        have : ((Day14.Tile.Hash == Day14.Tile.Hash) : Bool) = true := rfl
        rw [this]
        simp only [if_true]
        rfl
      rw [hsplit]
      rw [List.splitOn,
        List.splitOnP_first _ _ (pad_no_hash o (s - o)) Day14.Tile.Hash rfl]
      have hrec : (Day14.tiltSpecGo tl 0 0).splitOnP (· == Day14.Tile.Hash)
          = (Day14.tiltSpecGo tl 0 0).splitOn Day14.Tile.Hash := rfl
      rw [hrec, ih 0 0 (Nat.le_refl 0), heq]
      simp only [List.headD_cons, List.tail_cons, List.headD_nil, List.map_cons,
        List.append_nil, List.replicate_zero, List.nil_append, List.tail_nil]
      rw [sortSeg_pad]
      simp

/-- Helper: `sortSeg` preserves the `O`-count of a segment. -/
theorem sortSeg_count (s : List Day14.Tile) :
    (Day14.sortSeg s).count Day14.Tile.O = s.count Day14.Tile.O := by
  unfold Day14.sortSeg
  simp [List.count_append, List.count_replicate]

/-- C9: `Puzzle::tilt_vector` returns a vector of the same length, with `#`
tiles at exactly the positions of the input (expressed as equality of the
`#`-masks, which also forces equal length), the same total number of `O`
tiles, the number of `O` tiles in each maximal `#`-free segment unchanged,
and each segment of the output consisting of its `O` tiles at the front
followed by `.` tiles. -/
theorem C9_tilt_vector_invariants (v : List Day14.Tile) :
    (Day14.Puzzle.tilt_vector v).length = v.length ∧
    (Day14.Puzzle.tilt_vector v).map (fun t => t == Day14.Tile.Hash)
      = v.map (fun t => t == Day14.Tile.Hash) ∧
    (Day14.Puzzle.tilt_vector v).count Day14.Tile.O = v.count Day14.Tile.O ∧
    ((Day14.Puzzle.tilt_vector v).splitOn Day14.Tile.Hash).map
        (fun s => s.count Day14.Tile.O)
      = (v.splitOn Day14.Tile.Hash).map (fun s => s.count Day14.Tile.O) ∧
    (Day14.Puzzle.tilt_vector v).splitOn Day14.Tile.Hash
      = (v.splitOn Day14.Tile.Hash).map Day14.sortSeg := by
  have hchar : Day14.Puzzle.tilt_vector v = Day14.tiltSpecGo v 0 0 := by
    rw [Day14.Puzzle.tilt_vector, tiltGo_eq]
    simp
  have hsplit : (Day14.Puzzle.tilt_vector v).splitOn Day14.Tile.Hash
      = (v.splitOn Day14.Tile.Hash).map Day14.sortSeg := by
    rw [hchar, tiltSpecGo_splitOn v 0 0 (Nat.le_refl 0)]
    obtain ⟨h0, rest, heq⟩ := List.exists_cons_of_ne_nil (splitOn_ne_nil_tile v)
    rw [heq]
    simp
  refine ⟨?_, ?_, ?_, ?_, hsplit⟩
  · rw [hchar, tiltSpecGo_length v 0 0 (Nat.le_refl 0)]
    simp
  · rw [hchar, tiltSpecGo_mask v 0 0 (Nat.le_refl 0)]
    simp
  · rw [hchar, tiltSpecGo_count v 0 0 (Nat.le_refl 0)]
    simp
  · rw [hsplit, List.map_map]
    apply List.map_congr_left
    intro s _
    exact sortSeg_count s

/-- Helper: `applyN` splits over addition of iteration counts. -/
theorem applyN_add (a b : Nat) :
    ∀ p, Day14.applyN (a + b) p = (Day14.applyN a p).bind (Day14.applyN b) := by
  induction a with
  | zero =>
    intro p
    simp [Day14.applyN]
  | succ a ih =>
    intro p
    rw [Nat.succ_add]
    simp only [Day14.applyN]
    cases h : p.tilting_cycle with
    | none => simp
    | some q => simp [ih q]

/-- Helper: a state that returns to itself after `d` applications can have
its iteration count reduced modulo `d`. -/
theorem applyN_mod (d : Nat) (p : Day14.Puzzle) (hper : Day14.applyN d p = some p) :
    ∀ m, Day14.applyN m p = Day14.applyN (m % d) p := by
  intro m
  induction m using Nat.strong_induction_on with
  | _ m ih =>
    rcases Nat.lt_or_ge m d with hlt | hge
    · rw [Nat.mod_eq_of_lt hlt]
    · rcases Nat.eq_zero_or_pos d with hd0 | hdpos
      · subst hd0
        simp
      · have hm : m = d + (m - d) := by omega
        have h1 : Day14.applyN m p = Day14.applyN (m - d) p := by
          conv_lhs => rw [hm]
          rw [applyN_add, hper]
          simp
        rw [h1, ih (m - d) (by omega), Nat.mod_eq_sub_mod hge]

/-- Helper: a successful lookup in the seen-states list is sound. -/
theorem assocLookup_mem (seen : List (Day14.Puzzle × Nat)) (p : Day14.Puzzle) (j : Nat)
    (h : Day14.assocLookup seen p = some j) : (p, j) ∈ seen := by
  induction seen with
  | nil => cases h
  | cons hd tl ih =>
    obtain ⟨q, k⟩ := hd
    rw [Day14.assocLookup] at h
    split at h
    · rename_i hqp
      cases h
      subst hqp
      exact List.mem_cons_self _ _
    · exact List.mem_cons_of_mem _ (ih h)

/-- Helper: the cycle-detecting loop of day 14 `part2` computes exactly the
`N`-fold application of `tilting_cycle` to the initial state. -/
theorem part2Go_eq (N : Nat) (p0 : Day14.Puzzle) :
    ∀ (fuel i : Nat) (p : Day14.Puzzle) (seen : List (Day14.Puzzle × Nat)),
      fuel + i = N →
      Day14.applyN i p0 = some p →
      (∀ q j, (q, j) ∈ seen → j < i ∧ Day14.applyN (j + 1) p0 = some q) →
      Day14.part2Go N fuel i p seen = Day14.applyN N p0 := by
  intro fuel
  induction fuel with
  | zero =>
    intro i p seen hfi hp _
    have hiN : i = N := by omega
    subst hiN
    rw [Day14.part2Go, hp]
  | succ fuel ih =>
    intro i p seen hfi hp hseen
    have hiN : i < N := by omega
    rw [Day14.part2Go]
    cases hT : p.tilting_cycle with
    | none =>
      simp only []
      have h1 : Day14.applyN N p0 = Day14.applyN (N - i) p := by
        have hN : N = i + (N - i) := by omega
        conv_lhs => rw [hN]
        rw [applyN_add, hp]
        simp
      have h2 : Day14.applyN (N - i) p = none := by
        have hNi : N - i = (N - i - 1) + 1 := by omega
        rw [hNi]
        simp only [Day14.applyN]
        rw [hT]
        rfl
      rw [h1, h2]
    | some q =>
      have hq : Day14.applyN (i + 1) p0 = some q := by
        rw [applyN_add i 1 p0, hp]
        simp [Day14.applyN, hT]
      cases hL : Day14.assocLookup seen q with
      | none =>
        simp only [hL]
        apply ih (i + 1) q ((q, i) :: seen) (by omega) hq
        intro r j hj
        rcases List.mem_cons.mp hj with hj | hj
        · cases hj
          exact ⟨by omega, hq⟩
        · obtain ⟨hlt, happ⟩ := hseen r j hj
          exact ⟨by omega, happ⟩
      | some cs =>
        simp only [hL]
        obtain ⟨hcs_lt, hcs⟩ := hseen q cs (assocLookup_mem seen q cs hL)
        have hd : Day14.applyN (i - cs) q = some q := by
          have hsum : (cs + 1) + (i - cs) = i + 1 := by omega
          rw [← hsum, applyN_add, hcs] at hq
          simpa using hq
        have h1 : Day14.applyN N p0 = Day14.applyN (N - 1 - cs) q := by
          have hN : N = (cs + 1) + (N - 1 - cs) := by omega
          conv_lhs => rw [hN]
          rw [applyN_add, hcs]
          simp
        rw [h1, applyN_mod (i - cs) q hd (N - 1 - cs)]

/-- C4: on every parseable day-14 input, `part2` — cycle detection via the
seen-states map followed by skipping `(1000000000 - 1 - cycle_start) %
cycle_length` extra applications — returns the load of the grid obtained by
naively applying `tilting_cycle` exactly 1000000000 times to the parsed
grid. -/
theorem C4_day14_part2_cycle_skip (input : List Char) (p : Day14.Puzzle)
    (h : Day14.Puzzle.from_input input = some p) :
    Day14.part2 input = (Day14.applyN 1000000000 p).map Day14.Puzzle.load := by
  unfold Day14.part2
  rw [h]
  have hgo := part2Go_eq 1000000000 p 1000000000 0 p [] (by omega) rfl (by simp)
  simp only [Option.pure_def, Option.bind_eq_bind, Option.some_bind, hgo]
  cases Day14.applyN 1000000000 p <;> rfl

/-- Witness for C4 at the concrete input "#". -/
theorem C4_day14_part2_cycle_skip_witness :
    Day14.Puzzle.from_input "#".toList = some ⟨[[Day14.Tile.Hash]], 1⟩ ∧
    Day14.part2 "#".toList
      = (Day14.applyN 1000000000 ⟨[[Day14.Tile.Hash]], 1⟩).map Day14.Puzzle.load := by
  have h : Day14.Puzzle.from_input "#".toList = some ⟨[[Day14.Tile.Hash]], 1⟩ := by decide
  exact ⟨h, C4_day14_part2_cycle_skip _ _ h⟩

/-- Helper: whether day 17 parsing fails, and with which error, does not
depend on the `min_move`/`max_move` arguments. -/
theorem from_input_error_agnostic (input : List Char) (a b c d : Nat) (e : String) :
    Day17.Puzzle.from_input input a b = .error e ↔
      Day17.Puzzle.from_input input c d = .error e := by
  rw [Day17.Puzzle.from_input, Day17.Puzzle.from_input]
  cases Rust.lines input with
  | nil => exact Iff.rfl
  | cons first rest =>
    simp only []
    split
    · cases (first :: rest).mapM fun l => l.mapM Day17.to_digit <;> simp
    · exact Iff.rfl

/-- C3, counterexample: on the input "11" (which parses successfully),
the day 17 `part2` panics — `shortest_path` reaches its final panicking
branch (message: Goal unreachable) because no path with segments of length at least 4 exists in
a 2-by-1 grid — instead of returning an `Err` value. -/
theorem C3_counterexample_day17_part2_panics :
    Day17.part2 "11".toList = Day17.RunResult.panicked ∧
    Day17.Puzzle.from_input "11".toList 4 10 = .ok ⟨[[1, 1]], 2, 1, 4, 10⟩ := by
  constructor
  · decide
  · rfl

/-- C3 (amended): on every input on which day 17 parsing fails, `part1` and
`part2` return the error string; but the puzzles can panic on inputs that
parse — see the counterexample — so "no other failure behaviour" does not
hold. -/
theorem C3_amended_err_on_parse_failure (input : List Char) (e : String)
    (h : Day17.Puzzle.from_input input 4 10 = .error e) :
    Day17.part2 input = .err e ∧ Day17.part1 input = .err e := by
  constructor
  · rw [Day17.part2, h]
  · rw [Day17.part1, (from_input_error_agnostic input 1 3 4 10 e).mpr h]

/-- Witness for the amended C3 at the concrete input "1x". -/
theorem C3_amended_err_on_parse_failure_witness :
    Day17.Puzzle.from_input "1x".toList 4 10 = .error "Could not parse digit" ∧
    Day17.part2 "1x".toList = .err "Could not parse digit" := by
  have h : Day17.Puzzle.from_input "1x".toList 4 10
      = .error "Could not parse digit" := by rfl
  exact ⟨h, (C3_amended_err_on_parse_failure "1x".toList _ h).1⟩

/-- C2, counterexample: for the maps m1 (no entries) and m2 (mapping the
interval [0, 5) to [10, 15)), both with pairwise non-overlapping sources
and with matching types, `combine` succeeds but the combined map sends 0 to
0 while applying the maps in sequence sends 0 to 10: `fill_holes` leaves an
empty entry list empty, so the combined map is the identity. -/
theorem C2_counterexample_combine_empty_m1 :
    Day5.Map.sources_ok ⟨['a'], ['b'], []⟩ ∧
    Day5.Map.sources_ok ⟨['b'], ['c'], [⟨0, 5, 10⟩]⟩ ∧
    (Day5.Map.mk ['a'] ['b'] []).to_type = (Day5.Map.mk ['b'] ['c'] [⟨0, 5, 10⟩]).from_type ∧
    ((Day5.Map.mk ['a'] ['b'] []).combine ⟨['b'], ['c'], [⟨0, 5, 10⟩]⟩).map
        (fun m => m.apply 0) = some 0 ∧
    (Day5.Map.mk ['b'] ['c'] [⟨0, 5, 10⟩]).apply
        ((Day5.Map.mk ['a'] ['b'] []).apply 0) = 10 := by
  decide

/-- Helper: `Map.apply` is `applyEntries` on the entry list. -/
theorem Map_apply_eq_applyEntries (m : Day5.Map) (x : Nat) :
    m.apply x = Day5.applyEntries m.entries x := rfl

/-- Helper: unfolding of `IntervalMapping.contains`. -/
theorem contains_iff (e : Day5.IntervalMapping) (x : Nat) :
    e.contains x = true ↔ e.a ≤ x ∧ x < e.b := by
  unfold Day5.IntervalMapping.contains
  exact decide_eq_true_iff

/-- Helper: `apply` on a contained point, when the mapped image of the
interval stays below `2 ^ 64` so the `u64` addition does not wrap. -/
theorem apply_of_contains (e : Day5.IntervalMapping) (x : Nat)
    (h : e.contains x = true) (hbnd : e.dest + (e.b - e.a) ≤ 2 ^ 64) :
    e.apply x = some (e.dest + (x - e.a)) := by
  have hc := (contains_iff e x).mp h
  have hlt : e.dest + (x - e.a) < 2 ^ 64 := by omega
  unfold Day5.IntervalMapping.apply
  rw [h, Nat.mod_eq_of_lt hlt]
  rfl

/-- Helper: `apply` outside the source interval. -/
theorem apply_of_not_contains (e : Day5.IntervalMapping) (x : Nat)
    (h : ¬ e.contains x = true) : e.apply x = none := by
  unfold Day5.IntervalMapping.apply
  rw [Bool.not_eq_true] at h
  rw [h]
  rfl

/-- Helper: two intervals both containing a point overlap as sources. -/
theorem overlaps_of_mem_mem (i j : Day5.IntervalMapping) (x : Nat)
    (hi : i.contains x = true) (hj : j.contains x = true) :
    i.source_overlaps j = true := by
  rw [contains_iff] at hi hj
  unfold Day5.IntervalMapping.source_overlaps
  rcases Nat.le_total i.a j.a with h | h
  · have : i.contains j.a = true := by
      rw [contains_iff]
      omega
    simp [this]
  · have : j.contains i.a = true := by
      rw [contains_iff]
      omega
    simp [this]

/-- Helper: if no entry contains `x`, `applyEntries` is the identity. -/
theorem applyEntries_id (l : List Day5.IntervalMapping) (x : Nat)
    (h : ∀ e ∈ l, ¬ e.contains x = true) : Day5.applyEntries l x = x := by
  induction l with
  | nil => rfl
  | cons e rest ih =>
    unfold Day5.applyEntries
    rw [List.findSome?_cons]
    rw [apply_of_not_contains e x (h e (List.mem_cons_self e rest))]
    exact ih fun g hg => h g (List.mem_cons_of_mem e hg)

/-- Helper: with pairwise non-overlapping sources, `applyEntries` on a point
contained in a non-overflowing member entry computes that entry. -/
theorem applyEntries_of_mem (l : List Day5.IntervalMapping) (x : Nat)
    (hpw : l.Pairwise fun i j => ¬ i.source_overlaps j = true)
    (e : Day5.IntervalMapping) (he : e ∈ l) (hx : e.contains x = true)
    (hbnd : e.dest + (e.b - e.a) ≤ 2 ^ 64) :
    Day5.applyEntries l x = e.dest + (x - e.a) := by
  induction l with
  | nil => cases he
  | cons g rest ih =>
    rw [List.pairwise_cons] at hpw
    unfold Day5.applyEntries
    rw [List.findSome?_cons]
    rcases List.mem_cons.mp he with rfl | he2
    · rw [apply_of_contains e x hx hbnd]
    · have hng : ¬ g.contains x = true := by
        intro hgx
        exact hpw.1 e he2 (overlaps_of_mem_mem g e x hgx hx)
      rw [apply_of_not_contains g x hng]
      exact ih hpw.2 he2

/-- Helper: non-overlap of sources is a symmetric relation. -/
theorem not_overlaps_symm :
    Symmetric fun i j : Day5.IntervalMapping => ¬ i.source_overlaps j = true := by
  intro i j h hji
  apply h
  unfold Day5.IntervalMapping.source_overlaps at hji ⊢
  rw [Bool.or_comm]
  exact hji

/-- Helper: a sorted, pairwise non-overlapping mapping list is laid out left
to right: every earlier interval ends before a later one starts. -/
theorem pairwise_b_le_a (l : List Day5.IntervalMapping)
    (hs : l.Pairwise Day5.IntervalMapping.le)
    (hpw : l.Pairwise fun i j => ¬ i.source_overlaps j = true) :
    l.Pairwise fun i j => i.b ≤ j.a := by
  refine (hs.and hpw).imp ?_
  rintro i j ⟨hle, hno⟩
  unfold Day5.IntervalMapping.le at hle
  have h1 : ¬ i.contains j.a = true := by
    intro hc
    apply hno
    unfold Day5.IntervalMapping.source_overlaps
    simp [hc]
  rw [contains_iff] at h1
  omega

/-- Helper: in a left-to-right list with nonnegative spans, every interval
ends no later than the last one. -/
theorem b_le_getLast (l : List Day5.IntervalMapping)
    (hchain : l.Pairwise fun i j => i.b ≤ j.a)
    (hab : ∀ e ∈ l, e.a ≤ e.b) :
    ∀ e ∈ l, ∃ last, l.getLast? = some last ∧ e.b ≤ last.b := by
  induction l with
  | nil => intro e he; cases he
  | cons g rest ih =>
    intro e he
    rw [List.pairwise_cons] at hchain
    cases rest with
    | nil =>
      rcases List.mem_cons.mp he with rfl | h
      · exact ⟨e, rfl, Nat.le_refl _⟩
      · cases h
    | cons g2 rest2 =>
      have ihr := ih hchain.2 (fun x hx => hab x (List.mem_cons_of_mem g hx))
      rw [List.getLast?_cons_cons]
      rcases List.mem_cons.mp he with rfl | h
      · obtain ⟨last, hl, hb⟩ := ihr g2 (List.mem_cons_self g2 rest2)
        refine ⟨last, hl, ?_⟩
        have h1 : e.b ≤ g2.a := hchain.1 g2 (List.mem_cons_self g2 rest2)
        have h2 : g2.a ≤ g2.b := hab g2 (List.mem_cons_of_mem _ (List.mem_cons_self g2 rest2))
        omega
      · exact ihr e h

/-- Helper: the last element of a list is a member. -/
theorem getLast?_mem_of_eq_some (l : List Day5.IntervalMapping)
    (e : Day5.IntervalMapping) (h : l.getLast? = some e) : e ∈ l := by
  obtain ⟨hne, rfl⟩ := List.mem_getLast?_eq_getLast (show e ∈ l.getLast? from h)
  exact List.getLast_mem hne

/-- Helper: a contiguous list spans a nonnegative range. -/
theorem Contig_le (l : List Day5.IntervalMapping) :
    ∀ s t, Day5.Contig l s t → s ≤ t := by
  induction l with
  | nil =>
    intro s t h
    exact Nat.le_of_eq h
  | cons e rest ih =>
    intro s t h
    obtain ⟨ha, hsb, hc⟩ := h
    exact Nat.le_trans hsb (ih e.b t hc)

/-- Helper: contiguous lists concatenate. -/
theorem Contig_append (A : List Day5.IntervalMapping) :
    ∀ (B : List Day5.IntervalMapping) s m t,
      Day5.Contig A s m → Day5.Contig B m t → Day5.Contig (A ++ B) s t := by
  induction A with
  | nil =>
    intro B s m t hA hB
    cases hA
    exact hB
  | cons e rest ih =>
    intro B s m t hA hB
    obtain ⟨ha, hsb, hc⟩ := hA
    exact ⟨ha, hsb, ih B e.b m t hc hB⟩

/-- Helper: a contiguous list covers its span. -/
theorem Contig_cover (l : List Day5.IntervalMapping) :
    ∀ s t u, Day5.Contig l s t → s ≤ u → u < t → ∃ e ∈ l, e.contains u = true := by
  induction l with
  | nil =>
    intro s t u h hsu hut
    cases h
    omega
  | cons e rest ih =>
    intro s t u h hsu hut
    obtain ⟨ha, hsb, hc⟩ := h
    rcases Nat.lt_or_ge u e.b with hlt | hge
    · refine ⟨e, List.mem_cons_self e rest, ?_⟩
      rw [contains_iff]
      omega
    · obtain ⟨g, hg, hgc⟩ := ih e.b t u hc hge hut
      exact ⟨g, List.mem_cons_of_mem e hg, hgc⟩

/-- Helper: every member of a contiguous list lies within the span. -/
theorem Contig_mem_bounds (l : List Day5.IntervalMapping) :
    ∀ s t e, Day5.Contig l s t → e ∈ l → s ≤ e.a ∧ e.a ≤ e.b ∧ e.b ≤ t := by
  induction l with
  | nil =>
    intro s t e _ he
    cases he
  | cons g rest ih =>
    intro s t e h he
    obtain ⟨ha, hsb, hc⟩ := h
    rcases List.mem_cons.mp he with rfl | h2
    · have := Contig_le rest e.b t hc
      omega
    · have := ih g.b t e hc h2
      omega

/-- Helper: `fillGo` keeps the last mapping of a nonempty list. -/
theorem fillGo_getLast (l : List Day5.IntervalMapping) :
    ∀ a, (Day5.fillGo a l).getLast? = l.getLast? := by
  induction l with
  | nil => intro a; rfl
  | cons m rest ih =>
    intro a
    rw [Day5.fillGo]
    cases rest with
    | nil =>
      split
      · rfl
      · rfl
    | cons r rs =>
      have hne : Day5.fillGo m.b (r :: rs) ≠ [] := by
        rw [Day5.fillGo]
        split
        · exact List.cons_ne_nil _ _
        · exact List.cons_ne_nil _ _
      obtain ⟨x, xs, hx⟩ := List.exists_cons_of_ne_nil hne
      split
      · rw [List.getLast?_cons_cons, hx, List.getLast?_cons_cons, ← hx, ih m.b,
          List.getLast?_cons_cons]
      · rw [hx, List.getLast?_cons_cons, ← hx, ih m.b, List.getLast?_cons_cons]

/-- Helper: `fillGo` produces a contiguous list from `a` to the end of the
last input mapping. -/
theorem fillGo_contig (l : List Day5.IntervalMapping) :
    ∀ a, l.Pairwise (fun i j => i.b ≤ j.a) →
      (∀ m ∈ l, a ≤ m.a) → (∀ m ∈ l, m.a ≤ m.b) →
      Day5.Contig (Day5.fillGo a l) a ((l.getLastD ⟨a, a, a⟩).b) := by
  induction l with
  | nil =>
    intro a _ _ _
    exact rfl
  | cons m rest ih =>
    intro a hpw ha hab
    rw [List.pairwise_cons] at hpw
    have hrec := ih m.b hpw.2 (fun r hr => hpw.1 r hr)
      (fun r hr => hab r (List.mem_cons_of_mem m hr))
    have hend : ((rest.getLastD ⟨m.b, m.b, m.b⟩).b)
        = (((m :: rest).getLastD ⟨a, a, a⟩).b) := by
      cases rest with
      | nil => rfl
      | cons r rs => simp only [List.getLastD_cons]
    rw [hend] at hrec
    have hmab : m.a ≤ m.b := hab m (List.mem_cons_self m rest)
    have ham : a ≤ m.a := ha m (List.mem_cons_self m rest)
    rw [Day5.fillGo]
    split
    · exact ⟨rfl, show a ≤ m.a by omega, rfl, hmab, hrec⟩
    · rename_i hle
      have : m.a = a := by omega
      exact ⟨this, by omega, hrec⟩

/-- Helper: every mapping produced by `fillGo` is an input mapping or an
identity pad disjoint from all input mappings. -/
theorem fillGo_mem (l : List Day5.IntervalMapping) :
    ∀ a, l.Pairwise (fun i j => i.b ≤ j.a) →
      (∀ m ∈ l, a ≤ m.a) → (∀ m ∈ l, m.a ≤ m.b) →
      ∀ e ∈ Day5.fillGo a l,
        e ∈ l ∨ (e.dest = e.a ∧ e.a < e.b ∧ a ≤ e.a ∧
          ∀ g ∈ l, e.b ≤ g.a ∨ g.b ≤ e.a) := by
  induction l with
  | nil =>
    intro a _ _ _ e he
    cases he
  | cons m rest ih =>
    intro a hpw ha hab e he
    rw [List.pairwise_cons] at hpw
    have hmab : m.a ≤ m.b := hab m (List.mem_cons_self m rest)
    have ham : a ≤ m.a := ha m (List.mem_cons_self m rest)
    have ihr := ih m.b hpw.2 (fun r hr => hpw.1 r hr)
      (fun r hr => hab r (List.mem_cons_of_mem m hr))
    rw [Day5.fillGo] at he
    have hrest : ∀ x, x ∈ m :: Day5.fillGo m.b rest →
        x ∈ m :: rest ∨ (x.dest = x.a ∧ x.a < x.b ∧ a ≤ x.a ∧
          ∀ g ∈ m :: rest, x.b ≤ g.a ∨ g.b ≤ x.a) := by
      intro x hx
      rcases List.mem_cons.mp hx with rfl | hx2
      · exact Or.inl (List.mem_cons_self x rest)
      · rcases ihr x hx2 with hin | ⟨hd, hab2, hax, hdisj⟩
        · exact Or.inl (List.mem_cons_of_mem m hin)
        · refine Or.inr ⟨hd, hab2, by omega, ?_⟩
          intro g hg
          rcases List.mem_cons.mp hg with rfl | hg2
          · right
            omega
          · exact hdisj g hg2
    split at he
    · rename_i hgt
      rcases List.mem_cons.mp he with rfl | he2
      · refine Or.inr ⟨rfl, show a < m.a by omega, Nat.le_refl _, ?_⟩
        intro g hg
        rcases List.mem_cons.mp hg with rfl | hg2
        · left
          exact Nat.le_refl _
        · left
          exact Nat.le_trans hmab (hpw.1 g hg2)
      · exact hrest e he2
    · exact hrest e he

/-- Helper: the pieces of `Map.fill_holes` are input mappings or identity
pads disjoint from every input mapping. -/
theorem fill_holes_mem (l : List Day5.IntervalMapping) (mb : Nat)
    (hpw : l.Pairwise fun i j => i.b ≤ j.a)
    (hab : ∀ m ∈ l, m.a ≤ m.b) :
    ∀ e ∈ Day5.Map.fill_holes l mb,
      e ∈ l ∨ (e.dest = e.a ∧ e.a < e.b ∧
        ∀ g ∈ l, e.b ≤ g.a ∨ g.b ≤ e.a) := by
  intro e he
  simp only [Day5.Map.fill_holes] at he
  have hmem0 : ∀ x ∈ Day5.fillGo 0 l,
      x ∈ l ∨ (x.dest = x.a ∧ x.a < x.b ∧ ∀ g ∈ l, x.b ≤ g.a ∨ g.b ≤ x.a) := by
    intro x hx
    rcases fillGo_mem l 0 hpw (fun m _ => Nat.zero_le _) hab x hx with h | ⟨h1, h2, _, h4⟩
    · exact Or.inl h
    · exact Or.inr ⟨h1, h2, h4⟩
  rcases hlast : (Day5.fillGo 0 l).getLast? with _ | last
  · simp only [hlast] at he
    exact hmem0 e he
  · simp only [hlast] at he
    split at he
    · rename_i hltmb
      rcases List.mem_append.mp he with h | h
      · exact hmem0 e h
      · have : e = ⟨last.b, mb, last.b⟩ := List.mem_singleton.mp h
        subst this
        refine Or.inr ⟨rfl, by simpa using hltmb, ?_⟩
        intro g hg
        right
        rw [fillGo_getLast l 0] at hlast
        obtain ⟨last2, hl2, hble⟩ := b_le_getLast l hpw hab g hg
        rw [hl2] at hlast
        cases hlast
        exact hble
    · exact hmem0 e he

/-- Helper: every piece of `fill_holes` applied to the sorted entry list of
a non-overlapping map computes that map on its source interval. -/
theorem fill_good (entries : List Day5.IntervalMapping) (mb : Nat)
    (hpw : entries.Pairwise fun i j => ¬ i.source_overlaps j = true)
    (hab : ∀ m ∈ entries, m.a ≤ m.b)
    (hbnd : ∀ m ∈ entries, m.dest + (m.b - m.a) ≤ 2 ^ 64) :
    ∀ e ∈ Day5.Map.fill_holes (List.insertionSort Day5.IntervalMapping.le entries) mb,
      ∀ u, e.contains u = true →
        Day5.applyEntries entries u = e.dest + (u - e.a) := by
  have hperm : (List.insertionSort Day5.IntervalMapping.le entries).Perm entries :=
    List.perm_insertionSort _ _
  have hpws : (List.insertionSort Day5.IntervalMapping.le entries).Pairwise
      (fun i j => ¬ i.source_overlaps j = true) :=
    (hperm.pairwise_iff fun h => not_overlaps_symm h).mpr hpw
  have hs : (List.insertionSort Day5.IntervalMapping.le entries).Pairwise
      Day5.IntervalMapping.le := List.sorted_insertionSort _ _
  have hchain := pairwise_b_le_a _ hs hpws
  have habs : ∀ m ∈ List.insertionSort Day5.IntervalMapping.le entries, m.a ≤ m.b :=
    fun m hm => hab m (hperm.mem_iff.mp hm)
  intro e he u hu
  rcases fill_holes_mem _ mb hchain habs e he with hin | ⟨hd, hlt, hdisj⟩
  · exact applyEntries_of_mem entries u hpw e (hperm.mem_iff.mp hin) hu
      (hbnd e (hperm.mem_iff.mp hin))
  · rw [contains_iff] at hu
    have hid : Day5.applyEntries entries u = u := by
      apply applyEntries_id
      intro g hg hgc
      rw [contains_iff] at hgc
      rcases hdisj g (hperm.mem_iff.mpr hg) with h | h <;> omega
    rw [hid]
    omega

/-- Helper: `fill_holes` of a sorted nonempty entry list whose last piece
ends at or before `mb` is contiguous from 0 to `mb`. -/
theorem fill_holes_contig (l : List Day5.IntervalMapping) (mb : Nat)
    (hchain : l.Pairwise fun i j => i.b ≤ j.a)
    (hab : ∀ m ∈ l, m.a ≤ m.b)
    (hne : l ≠ [])
    (hmb : ∀ last, l.getLast? = some last → last.b ≤ mb) :
    Day5.Contig (Day5.Map.fill_holes l mb) 0 mb := by
  have hcont := fillGo_contig l 0 hchain (fun m _ => Nat.zero_le _) hab
  obtain ⟨last, hlast⟩ : ∃ last, l.getLast? = some last := by
    cases h : l.getLast? with
    | none => exact absurd (List.getLast?_eq_none_iff.mp h) hne
    | some x => exact ⟨x, rfl⟩
  have hgd : l.getLastD ⟨0, 0, 0⟩ = last := by
    rw [List.getLastD_eq_getLast?, hlast]
    rfl
  rw [hgd] at hcont
  simp only [Day5.Map.fill_holes]
  rw [fillGo_getLast l 0, hlast]
  simp only []
  split
  · rename_i hlt
    refine Contig_append _ _ 0 last.b mb hcont ⟨rfl, Nat.le_of_lt hlt, rfl⟩
  · rename_i hnlt
    have : last.b = mb := by
      have := hmb last hlast
      omega
    rw [← this]
    exact hcont

/-- Helper: the inner loop of `Map::combine` succeeds on a nonempty source
interval when every interval in sight ends at or below `mb ≤ 2 ^ 63` and
no mapped image overflows `u64` — so no addition wraps and the fuel bound
`f.b - a` decreases each step — and it emits contiguous, non-overflowing
mappings computing the composition with the other map. -/
theorem combineGo_spec (O m2e : List Day5.IntervalMapping) (mb : Nat)
    (hmb : mb ≤ 2 ^ 63)
    (hOgood : ∀ e ∈ O, ∀ u, e.contains u = true →
        Day5.applyEntries m2e u = e.dest + (u - e.a))
    (hObnd : ∀ e ∈ O, e.b ≤ mb ∧ e.dest + (e.b - e.a) ≤ 2 ^ 64)
    (hnone : ∀ fa, O.find? (fun g => g.contains fa) = none →
        ∀ u, fa ≤ u → Day5.applyEntries m2e u = u)
    (f : Day5.IntervalMapping) (hfb : f.b ≤ mb)
    (hfbnd : f.dest + (f.b - f.a) ≤ 2 ^ 64) :
    ∀ fuel a entries, f.b - a < fuel → f.a ≤ a → a < f.b →
      ∃ es, Day5.combineGo O f fuel a entries = some (entries ++ es) ∧
        Day5.Contig es a f.b ∧
        (∀ h ∈ es, h.dest + (h.b - h.a) ≤ 2 ^ 64) ∧
        ∀ h ∈ es, ∀ t, h.contains t = true →
          h.dest + (t - h.a) = Day5.applyEntries m2e (f.dest + (t - f.a)) := by
  have hpow : (2 : Nat) ^ 64 = 2 ^ 63 + 2 ^ 63 := by norm_num
  intro fuel
  induction fuel with
  | zero =>
    intro a entries hle hfa hafb
    omega
  | succ n ih =>
    intro a entries hle hfa hafb
    have hconta : f.contains a = true := by
      rw [contains_iff]
      omega
    rw [Day5.combineGo, apply_of_contains f a hconta hfbnd]
    simp only []
    split
    · rename_i g hfind
      have hgmem : g ∈ O := List.mem_of_find?_eq_some hfind
      have hgcont0 := List.find?_some hfind
      have hgcont : g.contains (f.dest + (a - f.a)) = true := hgcont0
      have hgbounds := (contains_iff _ _).mp hgcont
      have hgbnd := hObnd g hgmem
      rw [apply_of_contains g _ hgcont hgbnd.2]
      simp only []
      have hxlt : a + (g.b - (f.dest + (a - f.a))) < 2 ^ 64 := by
        omega
      rw [Nat.mod_eq_of_lt hxlt]
      split
      · rename_i hx
        obtain ⟨es2, heq, hcont2, hbnd2, hgood2⟩ :=
          ih (a + (g.b - (f.dest + (a - f.a))))
            (entries ++ [⟨a, a + (g.b - (f.dest + (a - f.a))),
              g.dest + (f.dest + (a - f.a) - g.a)⟩])
            (by omega) (by omega) hx
        refine ⟨⟨a, a + (g.b - (f.dest + (a - f.a))),
            g.dest + (f.dest + (a - f.a) - g.a)⟩ :: es2, ?_, ?_, ?_, ?_⟩
        · rw [heq, List.append_assoc, List.singleton_append]
        · exact ⟨rfl, show a ≤ a + (g.b - (f.dest + (a - f.a))) by omega, hcont2⟩
        · intro h hh
          rcases List.mem_cons.mp hh with rfl | hh2
          · simp only []
            omega
          · exact hbnd2 h hh2
        · intro h hh t ht
          rcases List.mem_cons.mp hh with rfl | hh2
          · rw [contains_iff] at ht
            simp only [] at ht ⊢
            have hgu : g.contains (f.dest + (t - f.a)) = true := by
              rw [contains_iff]
              omega
            rw [hOgood g hgmem _ hgu]
            omega
          · exact hgood2 h hh2 t ht
      · rename_i hx
        refine ⟨[⟨a, f.b, g.dest + (f.dest + (a - f.a) - g.a)⟩], rfl,
          ⟨rfl, Nat.le_of_lt hafb, rfl⟩, ?_, ?_⟩
        · intro h hh
          rcases List.mem_singleton.mp hh with rfl
          simp only []
          omega
        · intro h hh t ht
          rcases List.mem_singleton.mp hh with rfl
          rw [contains_iff] at ht
          simp only [] at ht ⊢
          have hgu : g.contains (f.dest + (t - f.a)) = true := by
            rw [contains_iff]
            omega
          rw [hOgood g hgmem _ hgu]
          omega
    · rename_i hfind
      refine ⟨[⟨a, f.b, f.dest + (a - f.a)⟩], rfl, ⟨rfl, Nat.le_of_lt hafb, rfl⟩,
        ?_, ?_⟩
      · intro h hh
        rcases List.mem_singleton.mp hh with rfl
        simp only []
        omega
      · intro h hh t ht
        rcases List.mem_singleton.mp hh with rfl
        rw [contains_iff] at ht
        simp only [] at ht
        have hu : Day5.applyEntries m2e (f.dest + (t - f.a))
            = f.dest + (t - f.a) := by
          apply hnone _ hfind
          omega
        rw [hu]
        simp only []
        omega

/-- Helper: the outer loop of `Map::combine` succeeds on a contiguous list
of nonempty, non-overflowing source intervals and emits the composed
mappings; the fuel `2 ^ 64 + 2` the inner loop is given never runs out,
because each inner iteration advances `a` below `f.b ≤ mb ≤ 2 ^ 63`. -/
theorem combineEntries_spec (O m1e m2e : List Day5.IntervalMapping) (mb : Nat)
    (hmb : mb ≤ 2 ^ 63)
    (hOgood : ∀ e ∈ O, ∀ u, e.contains u = true →
        Day5.applyEntries m2e u = e.dest + (u - e.a))
    (hObnd : ∀ e ∈ O, e.b ≤ mb ∧ e.dest + (e.b - e.a) ≤ 2 ^ 64)
    (hnone : ∀ fa, O.find? (fun g => g.contains fa) = none →
        ∀ u, fa ≤ u → Day5.applyEntries m2e u = u) :
    ∀ (S : List Day5.IntervalMapping) a entries,
      Day5.Contig S a mb →
      (∀ f ∈ S, f.a < f.b) →
      (∀ f ∈ S, f.dest + (f.b - f.a) ≤ 2 ^ 64) →
      (∀ f ∈ S, ∀ t, f.contains t = true →
        Day5.applyEntries m1e t = f.dest + (t - f.a)) →
      ∃ es, Day5.combineEntries O S a entries = some (entries ++ es) ∧
        Day5.Contig es a mb ∧
        (∀ h ∈ es, h.dest + (h.b - h.a) ≤ 2 ^ 64) ∧
        ∀ h ∈ es, ∀ t, h.contains t = true →
          h.dest + (t - h.a) = Day5.applyEntries m2e (Day5.applyEntries m1e t) := by
  have hpow : (2 : Nat) ^ 64 = 2 ^ 63 + 2 ^ 63 := by norm_num
  intro S
  induction S with
  | nil =>
    intro a entries hcontig _ _ _
    refine ⟨[], ?_, hcontig, ?_, ?_⟩
    · rw [Day5.combineEntries, List.append_nil]
    · intro h hh
      cases hh
    · intro h hh
      cases hh
  | cons f fs ih =>
    intro a entries hcontig hpos hbnds hgood
    obtain ⟨hfa, hab2, hcont_rest⟩ := hcontig
    have hfpos : f.a < f.b := hpos f (List.mem_cons_self f fs)
    have hfb : f.b ≤ mb := Contig_le fs f.b mb hcont_rest
    obtain ⟨es1, heq1, hcontig1, hbnd1, hgood1⟩ :=
      combineGo_spec O m2e mb hmb hOgood hObnd hnone f hfb
        (hbnds f (List.mem_cons_self f fs)) (2 ^ 64 + 2) a entries
        (by omega) (Nat.le_of_eq hfa) (by omega)
    obtain ⟨es2, heq2, hcontig2, hbnd2, hgood2⟩ :=
      ih f.b (entries ++ es1) hcont_rest
        (fun g hg => hpos g (List.mem_cons_of_mem f hg))
        (fun g hg => hbnds g (List.mem_cons_of_mem f hg))
        (fun g hg => hgood g (List.mem_cons_of_mem f hg))
    rw [Day5.combineEntries, if_pos hfa.symm, heq1]
    simp only []
    refine ⟨es1 ++ es2, ?_, ?_, ?_, ?_⟩
    · rw [heq2, List.append_assoc]
    · exact Contig_append es1 es2 a f.b mb hcontig1 hcontig2
    · intro h hh
      rcases List.mem_append.mp hh with hmem | hmem
      · exact hbnd1 h hmem
      · exact hbnd2 h hmem
    · intro h hh t htc
      rcases List.mem_append.mp hh with hmem | hmem
      · have hb := Contig_mem_bounds es1 a f.b h hcontig1 hmem
        have htb := (contains_iff _ _).mp htc
        have hft : f.contains t = true := by
          rw [contains_iff]
          omega
        rw [hgood1 h hmem t htc, hgood f (List.mem_cons_self f fs) t hft]
      · exact hgood2 h hmem t htc

/-- Helper: `applyEntries` over non-overflowing entries returns the common
value of the entries containing a covered point. -/
theorem applyEntries_eq_of_good (l : List Day5.IntervalMapping) (x V : Nat)
    (hgood : ∀ h ∈ l, h.contains x = true → h.dest + (x - h.a) = V)
    (hbnd : ∀ h ∈ l, h.dest + (h.b - h.a) ≤ 2 ^ 64)
    (hex : ∃ h ∈ l, h.contains x = true) :
    Day5.applyEntries l x = V := by
  induction l with
  | nil =>
    obtain ⟨h, hh, _⟩ := hex
    cases hh
  | cons g rest ih =>
    unfold Day5.applyEntries
    rw [List.findSome?_cons]
    cases hgc : g.contains x with
    | true =>
      rw [apply_of_contains g x hgc (hbnd g (List.mem_cons_self g rest))]
      exact hgood g (List.mem_cons_self g rest) hgc
    | false =>
      rw [apply_of_not_contains g x (by simp [hgc])]
      apply ih
      · intro h hh hc
        exact hgood h (List.mem_cons_of_mem g hh) hc
      · intro h hh
        exact hbnd h (List.mem_cons_of_mem g hh)
      · obtain ⟨h, hh, hc⟩ := hex
        rcases List.mem_cons.mp hh with rfl | hh2
        · rw [hgc] at hc
          cases hc
        · exact ⟨h, hh2, hc⟩

/-- C2 (amended): for maps m1 and m2 with pairwise non-overlapping source
intervals, m1 with at least one entry and all its source intervals
nonempty, m2 with well-formed intervals (start at most end), every interval
end and every mapped interval image of both maps at most `2 ^ 63` (so no
`u64` addition during `combine` wraps and its inner loop terminates), and
matching types, `combine` succeeds and the combined map applies like the
two maps in sequence, for every value. -/
theorem C2_combine_correct (m1 m2 : Day5.Map) (x : Nat)
    (h1 : m1.sources_ok) (h2 : m2.sources_ok)
    (hne : m1.entries ≠ [])
    (hpos : ∀ e ∈ m1.entries, e.a < e.b)
    (hab2 : ∀ e ∈ m2.entries, e.a ≤ e.b)
    (hb1 : ∀ e ∈ m1.entries, e.b ≤ 2 ^ 63 ∧ e.dest + (e.b - e.a) ≤ 2 ^ 63)
    (hb2 : ∀ e ∈ m2.entries, e.b ≤ 2 ^ 63 ∧ e.dest + (e.b - e.a) ≤ 2 ^ 63)
    (ht : m1.to_type = m2.from_type) :
    (m1.combine m2).map (fun m => m.apply x) = some (m2.apply (m1.apply x)) := by
  unfold Day5.Map.sources_ok at h1 h2
  set s1 := List.insertionSort Day5.IntervalMapping.le m1.entries with hs1
  set s2 := List.insertionSort Day5.IntervalMapping.le m2.entries with hs2
  set mb := max
      (((s1.getLast?).map fun i => i.b).getD 0)
      (((s2.getLast?).map fun i => i.b).getD 0) with hmb
  set S := Day5.Map.fill_holes s1 mb with hS
  set O := Day5.Map.fill_holes s2 mb with hO
  have hperm1 : s1.Perm m1.entries := List.perm_insertionSort _ _
  have hperm2 : s2.Perm m2.entries := List.perm_insertionSort _ _
  have hpw1 : s1.Pairwise (fun i j => ¬ i.source_overlaps j = true) :=
    (hperm1.pairwise_iff fun h => not_overlaps_symm h).mpr h1
  have hpw2 : s2.Pairwise (fun i j => ¬ i.source_overlaps j = true) :=
    (hperm2.pairwise_iff fun h => not_overlaps_symm h).mpr h2
  have hchain1 := pairwise_b_le_a s1 (List.sorted_insertionSort _ _) hpw1
  have hchain2 := pairwise_b_le_a s2 (List.sorted_insertionSort _ _) hpw2
  have habs1 : ∀ m ∈ s1, m.a ≤ m.b :=
    fun m hm => Nat.le_of_lt (hpos m (hperm1.mem_iff.mp hm))
  have habs2 : ∀ m ∈ s2, m.a ≤ m.b :=
    fun m hm => hab2 m (hperm2.mem_iff.mp hm)
  have hs1ne : s1 ≠ [] := fun h => hne (List.Perm.eq_nil ((h ▸ hperm1).symm))
  have hmb1 : ∀ last, s1.getLast? = some last → last.b ≤ mb := by
    intro last hlast
    rw [hmb, hlast]
    exact Nat.le_max_left _ _
  have hmb2 : ∀ last, s2.getLast? = some last → last.b ≤ mb := by
    intro last hlast
    rw [hmb, hlast]
    exact Nat.le_max_right _ _
  have hbound1 : ∀ g ∈ m1.entries, g.b ≤ mb := by
    intro g hg
    obtain ⟨last, hlast, hble⟩ := b_le_getLast s1 hchain1 habs1 g (hperm1.mem_iff.mpr hg)
    exact Nat.le_trans hble (hmb1 last hlast)
  have hbound2 : ∀ g ∈ m2.entries, g.b ≤ mb := by
    intro g hg
    obtain ⟨last, hlast, hble⟩ := b_le_getLast s2 hchain2 habs2 g (hperm2.mem_iff.mpr hg)
    exact Nat.le_trans hble (hmb2 last hlast)
  have hpow : (2 : Nat) ^ 64 = 2 ^ 63 + 2 ^ 63 := by norm_num
  have hmble : mb ≤ 2 ^ 63 := by
    have hle1 : (((s1.getLast?).map fun i => i.b).getD 0) ≤ 2 ^ 63 := by
      cases hl : s1.getLast? with
      | none => simp
      | some last =>
        have hmem : last ∈ m1.entries :=
          hperm1.mem_iff.mp (getLast?_mem_of_eq_some s1 last hl)
        simpa using (hb1 last hmem).1
    have hle2 : (((s2.getLast?).map fun i => i.b).getD 0) ≤ 2 ^ 63 := by
      cases hl : s2.getLast? with
      | none => simp
      | some last =>
        have hmem : last ∈ m2.entries :=
          hperm2.mem_iff.mp (getLast?_mem_of_eq_some s2 last hl)
        simpa using (hb2 last hmem).1
    rw [hmb]
    exact Nat.max_le.mpr ⟨hle1, hle2⟩
  have hb1' : ∀ e ∈ m1.entries, e.dest + (e.b - e.a) ≤ 2 ^ 64 := by
    intro e he
    have := (hb1 e he).2
    omega
  have hb2' : ∀ e ∈ m2.entries, e.dest + (e.b - e.a) ≤ 2 ^ 64 := by
    intro e he
    have := (hb2 e he).2
    omega
  have hOgood : ∀ e ∈ O, ∀ u, e.contains u = true →
      Day5.applyEntries m2.entries u = e.dest + (u - e.a) := by
    rw [hO, hs2]
    exact fill_good m2.entries mb h2 hab2 hb2'
  have hScontig : Day5.Contig S 0 mb := by
    rw [hS]
    exact fill_holes_contig s1 mb hchain1 habs1 hs1ne hmb1
  have hSpos : ∀ f ∈ S, f.a < f.b := by
    intro f hf
    rw [hS] at hf
    rcases fill_holes_mem s1 mb hchain1 habs1 f hf with hin | ⟨_, hlt, _⟩
    · exact hpos f (hperm1.mem_iff.mp hin)
    · exact hlt
  have hSgood : ∀ f ∈ S, ∀ t, f.contains t = true →
      Day5.applyEntries m1.entries t = f.dest + (t - f.a) := by
    rw [hS, hs1]
    exact fill_good m1.entries mb h1 (fun e he => Nat.le_of_lt (hpos e he)) hb1'
  have hOcontig : s2 ≠ [] → Day5.Contig O 0 mb := by
    intro hs2ne
    rw [hO]
    exact fill_holes_contig s2 mb hchain2 habs2 hs2ne hmb2
  have hObnd : ∀ e ∈ O, e.b ≤ mb ∧ e.dest + (e.b - e.a) ≤ 2 ^ 64 := by
    intro e he
    have hs2ne : s2 ≠ [] := by
      intro hnil
      have hz : Day5.Map.fill_holes s2 mb = [] := by
        rw [hnil]
        rfl
      rw [hO, hz] at he
      exact List.not_mem_nil e he
    have hbmb : e.b ≤ mb := (Contig_mem_bounds O 0 mb e (hOcontig hs2ne) he).2.2
    have he2 : e ∈ Day5.Map.fill_holes s2 mb := by
      rw [← hO]
      exact he
    rcases fill_holes_mem s2 mb hchain2 habs2 e he2 with hin | ⟨hd, hlt, _⟩
    · exact ⟨hbmb, hb2' e (hperm2.mem_iff.mp hin)⟩
    · refine ⟨hbmb, ?_⟩
      omega
  have hSbnd : ∀ f ∈ S, f.dest + (f.b - f.a) ≤ 2 ^ 64 := by
    intro e he
    have hbmb : e.b ≤ mb := (Contig_mem_bounds S 0 mb e hScontig he).2.2
    have he2 : e ∈ Day5.Map.fill_holes s1 mb := by
      rw [← hS]
      exact he
    rcases fill_holes_mem s1 mb hchain1 habs1 e he2 with hin | ⟨hd, hlt, _⟩
    · exact hb1' e (hperm1.mem_iff.mp hin)
    · omega
  have hnone : ∀ fa, O.find? (fun g => g.contains fa) = none →
      ∀ u, fa ≤ u → Day5.applyEntries m2.entries u = u := by
    intro fa hfind u hu
    apply applyEntries_id
    intro g hg hgc
    have hgc2 := (contains_iff _ _).mp hgc
    have humb : u < mb := Nat.lt_of_lt_of_le hgc2.2 (hbound2 g hg)
    have hs2ne : s2 ≠ [] := by
      intro h
      rw [h] at hperm2
      have hem : m2.entries = [] := List.Perm.eq_nil hperm2.symm
      rw [hem] at hg
      exact List.not_mem_nil g hg
    obtain ⟨e, he, hec⟩ := Contig_cover O 0 mb fa (hOcontig hs2ne) (Nat.zero_le _) (by omega)
    have hcontra := List.find?_eq_none.mp hfind e he
    simp [hec] at hcontra
  obtain ⟨es, heq, hEcontig, hEbnd, hEgood⟩ :=
    combineEntries_spec O m1.entries m2.entries mb hmble hOgood hObnd hnone S 0 []
      hScontig hSpos hSbnd hSgood
  have hcombine : m1.combine m2 = some ⟨m1.from_type, m2.to_type, es⟩ := by
    rw [Day5.Map.combine, if_neg (not_not_intro ht)]
    simp only [← hs1, ← hs2, ← hmb, ← hS, ← hO]
    rw [heq]
    rw [List.nil_append]
    rfl
  rw [hcombine]
  rw [Option.map_some']
  congr 1
  rw [Map_apply_eq_applyEntries, Map_apply_eq_applyEntries, Map_apply_eq_applyEntries]
  show Day5.applyEntries es x
      = Day5.applyEntries m2.entries (Day5.applyEntries m1.entries x)
  rcases Nat.lt_or_ge x mb with hxmb | hxmb
  · obtain ⟨h, hh, hhc⟩ := Contig_cover es 0 mb x hEcontig (Nat.zero_le _) hxmb
    exact applyEntries_eq_of_good es x _
      (fun g hg hgc => hEgood g hg x hgc) hEbnd ⟨h, hh, hhc⟩
  · have hid1 : Day5.applyEntries m1.entries x = x := by
      apply applyEntries_id
      intro g hg hgc
      have := (contains_iff _ _).mp hgc
      have := hbound1 g hg
      omega
    have hid2 : Day5.applyEntries m2.entries x = x := by
      apply applyEntries_id
      intro g hg hgc
      have := (contains_iff _ _).mp hgc
      have := hbound2 g hg
      omega
    have hides : Day5.applyEntries es x = x := by
      apply applyEntries_id
      intro g hg hgc
      have := (contains_iff _ _).mp hgc
      have := Contig_mem_bounds es 0 mb g hEcontig hg
      omega
    rw [hid1, hid2, hides]

/-- Witness for the amended C2 at concrete maps and the value 3. -/
theorem C2_combine_correct_witness :
    Day5.Map.sources_ok ⟨['a'], ['b'], [⟨2, 4, 10⟩]⟩ ∧
    ((Day5.Map.mk ['a'] ['b'] [⟨2, 4, 10⟩]).combine
        ⟨['b'], ['c'], [⟨10, 12, 100⟩]⟩).map (fun m => m.apply 3)
      = some ((Day5.Map.mk ['b'] ['c'] [⟨10, 12, 100⟩]).apply
          ((Day5.Map.mk ['a'] ['b'] [⟨2, 4, 10⟩]).apply 3)) :=
  ⟨by decide,
    C2_combine_correct ⟨['a'], ['b'], [⟨2, 4, 10⟩]⟩ ⟨['b'], ['c'], [⟨10, 12, 100⟩]⟩ 3
      (by decide) (by decide) (by decide) (by decide) (by decide) (by decide)
      (by decide) rfl⟩

/-- Helper: the crossing contribution of one complete corner pair. -/
theorem crossingFrom_run (mid : List Day10.Tile) :
    ∀ (c1 c2 : Day10.Tile) (r : List Day10.Tile),
      (∀ t ∈ mid, t = Day10.Tile.EW) →
      (c2 = Day10.Tile.NW ∨ c2 = Day10.Tile.SW) →
      Day10.crossingFrom c1 (mid ++ c2 :: r)
        = Day10.crossingNumber r
          + (if c1 = Day10.Tile.SE ∧ c2 = Day10.Tile.NW
              ∨ c1 = Day10.Tile.NE ∧ c2 = Day10.Tile.SW then 1 else 0) := by
  induction mid with
  | nil =>
    intro c1 c2 r _ hc2
    rcases hc2 with rfl | rfl
    · rw [List.nil_append]
      rw [Day10.crossingFrom]
      by_cases h : c1 = Day10.Tile.SE
      · simp [h]
      · simp [h]
    · rw [List.nil_append]
      rw [Day10.crossingFrom]
      by_cases h : c1 = Day10.Tile.NE
      · simp [h]
      · simp [h]
  | cons t mid ih =>
    intro c1 c2 r hmid hc2
    have ht : t = Day10.Tile.EW := hmid t (List.mem_cons_self t mid)
    subst ht
    rw [List.cons_append, Day10.crossingFrom]
    exact ih c1 c2 r (fun u hu => hmid u (List.mem_cons_of_mem _ hu)) hc2

/-- Helper: crossings of an itemized list compose with concatenation. -/
theorem crossing_append_itemized (l : List Day10.Tile) (hl : Day10.Itemized l) :
    ∀ r, Day10.crossingNumber (l ++ r)
      = Day10.crossingNumber l + Day10.crossingNumber r := by
  induction hl with
  | nil =>
    intro r
    simp [Day10.crossingNumber]
  | ns h ih =>
    intro r
    rw [List.cons_append, Day10.crossingNumber, Day10.crossingNumber, ih r]
    omega
  | pair hc1 hmid hc2 h ih =>
    intro r
    rename_i c1 c2 mid rest
    have harr : (c1 :: (mid ++ c2 :: rest)) ++ r = c1 :: (mid ++ c2 :: (rest ++ r)) := by
      simp
    rw [harr]
    rcases hc1 with rfl | rfl
    · rw [Day10.crossingNumber, Day10.crossingNumber,
        crossingFrom_run mid _ c2 _ hmid hc2, crossingFrom_run mid _ c2 _ hmid hc2, ih r]
      omega
    · rw [Day10.crossingNumber, Day10.crossingNumber,
        crossingFrom_run mid _ c2 _ hmid hc2, crossingFrom_run mid _ c2 _ hmid hc2, ih r]
      omega

/-- Helper: a row without downward-connecting tiles has no crossings. -/
theorem crossing_no_down (l : List Day10.Tile)
    (h : ∀ t ∈ l, t = Day10.Tile.EW ∨ t = Day10.Tile.NE ∨ t = Day10.Tile.NW) :
    Day10.crossingNumber l = 0 ∧ Day10.crossingFrom Day10.Tile.NE l = 0 := by
  induction l with
  | nil => exact ⟨by simp [Day10.crossingNumber], by simp [Day10.crossingFrom]⟩
  | cons t r ih =>
    have ihr := ih fun u hu => h u (List.mem_cons_of_mem t hu)
    rcases h t (List.mem_cons_self t r) with rfl | rfl | rfl
    · constructor
      · simp [Day10.crossingNumber, ihr.1]
      · simp [Day10.crossingFrom, ihr.2]
    · constructor
      · simp [Day10.crossingNumber, ihr.2]
      · simp [Day10.crossingFrom, Day10.crossingNumber, ihr.2]
    · constructor
      · simp [Day10.crossingNumber, ihr.1]
      · simp [Day10.crossingFrom, ihr.1]

/-- Helper: itemized lists concatenate. -/
theorem Itemized_append (a : List Day10.Tile) (ha : Day10.Itemized a) :
    ∀ b, Day10.Itemized b → Day10.Itemized (a ++ b) := by
  induction ha with
  | nil =>
    intro b hb
    exact hb
  | ns h ih =>
    intro b hb
    exact Day10.Itemized.ns (ih b hb)
  | pair hc1 hmid hc2 h ih =>
    intro b hb
    rename_i c1 c2 mid rest
    have harr : (c1 :: (mid ++ c2 :: rest)) ++ b = c1 :: (mid ++ c2 :: (rest ++ b)) := by
      simp
    rw [harr]
    exact Day10.Itemized.pair hc1 hmid hc2 (ih b hb)

/-- Helper: pipe tiles not connecting left. -/
theorem pipe_not_left (t : Day10.Tile) (hp : t.is_pipe = true)
    (hl : t.connects_left = false) :
    t = Day10.Tile.NS ∨ t = Day10.Tile.NE ∨ t = Day10.Tile.SE := by
  cases t <;> simp_all [Day10.Tile.is_pipe, Day10.Tile.connects_left]

/-- Helper: pipe tiles connecting left. -/
theorem pipe_left (t : Day10.Tile) (hl : t.connects_left = true) :
    t = Day10.Tile.EW ∨ t = Day10.Tile.NW ∨ t = Day10.Tile.SW := by
  cases t <;> simp_all [Day10.Tile.connects_left]

/-- Helper: pipe tiles not connecting down. -/
theorem pipe_not_down (t : Day10.Tile) (hp : t.is_pipe = true)
    (hd : t.connects_down = false) :
    t = Day10.Tile.EW ∨ t = Day10.Tile.NE ∨ t = Day10.Tile.NW := by
  cases t <;> simp_all [Day10.Tile.is_pipe, Day10.Tile.connects_down]

/-- Helper: the cycle returned by `get_cycle` starts and ends at the start
position and has at least two entries. -/
theorem get_cycle_shape (p : Day10.Puzzle) (fuel : Nat) (c : List (Nat × Nat))
    (hc : p.get_cycle fuel = some c) :
    c.head? = some (p.start_col, p.start_row) ∧
    c.getLast? = some (p.start_col, p.start_row) ∧ 2 ≤ c.length := by
  have key : ∀ n cur prev acc, Day10.getCycleGo p n cur prev acc = some c →
      (∃ ext, c = acc ++ ext ∧ ext ≠ []) ∧
        c.getLast? = some (p.start_col, p.start_row) := by
    intro n
    induction n with
    | zero =>
      intro cur prev acc h
      cases h
    | succ n ih =>
      intro cur prev acc h
      rw [Day10.getCycleGo] at h
      rcases hn : (p.tile_at cur.1 cur.2).neighbors cur with _ | ⟨n0, n1⟩
      · rw [hn] at h
        cases h
      · rw [hn] at h
        simp only [] at h
        by_cases hst : (if n0 = prev then n1 else n0) = (p.start_col, p.start_row)
        · rw [if_pos hst] at h
          cases h
          refine ⟨⟨[if n0 = prev then n1 else n0], rfl, by simp⟩, ?_⟩
          rw [List.getLast?_concat, hst]
        · rw [if_neg hst] at h
          rcases ih _ _ _ h with ⟨⟨ext, hext, hne⟩, hlast⟩
          exact ⟨⟨(if n0 = prev then n1 else n0) :: ext, by rw [hext]; simp, by simp⟩, hlast⟩
  rcases key fuel _ _ _ hc with ⟨⟨ext, hext, hne⟩, hlast⟩
  subst hext
  refine ⟨rfl, hlast, ?_⟩
  simp only [List.length_append, List.length_cons, List.length_nil]
  have := List.length_pos.mpr hne
  omega

/-- Helper: extending the left-of-tiles list by one column. -/
theorem rowTilesLeftOf_succ (p : Day10.Puzzle) (C : List (Nat × Nat)) (y x : Nat) :
    Day10.rowTilesLeftOf p C y (x + 1)
      = Day10.rowTilesLeftOf p C y x
        ++ (if (x, y) ∈ C then [p.tile_at x y] else []) := by
  unfold Day10.rowTilesLeftOf
  rw [List.range_succ, List.filter_append, List.map_append]
  congr 1
  by_cases h : (x, y) ∈ C
  · simp [h]
  · simp [h]

/-- Helper: one cell of the specification count. -/
theorem specCount_cons (p : Day10.Puzzle) (C : List (Nat × Nat)) (y x : Nat)
    (xs : List Nat) :
    Day10.specCount p C y (x :: xs)
      = (if (x, y) ∉ C ∧ Odd (Day10.crossingNumber (Day10.rowTilesLeftOf p C y x))
          then 1 else 0) + Day10.specCount p C y xs := by
  unfold Day10.specCount
  rw [List.filter_cons]
  by_cases h1 : (x, y) ∈ C
  · simp [h1]
  · by_cases h2 : Odd (Day10.crossingNumber (Day10.rowTilesLeftOf p C y x))
    · simp [h1, h2]
      omega
    · simp [h1, h2]

/-- Helper: the specification counts nothing on cells that are on the loop
or have even crossing number. -/
theorem specCount_zero (p : Day10.Puzzle) (C : List (Nat × Nat)) (y : Nat)
    (xs : List Nat)
    (h : ∀ x ∈ xs, (x, y) ∈ C ∨
      ¬ Odd (Day10.crossingNumber (Day10.rowTilesLeftOf p C y x))) :
    Day10.specCount p C y xs = 0 := by
  induction xs with
  | nil => rfl
  | cons x xs ih =>
    rw [specCount_cons, ih fun u hu => h u (List.mem_cons_of_mem x hu)]
    rcases h x (List.mem_cons_self x xs) with h1 | h1
    · simp [h1]
    · simp [h1]

/-- Helper: sorting distinct positions row-major gives a strictly
increasing list. -/
theorem sorted_strict_rm (L : List (Nat × Nat)) (hnd : L.Nodup) :
    (List.insertionSort Day10.posLe L).Pairwise Day10.rmLt := by
  have hperm := List.perm_insertionSort Day10.posLe L
  have hs : (List.insertionSort Day10.posLe L).Pairwise Day10.posLe :=
    List.sorted_insertionSort _ _
  have hnd2 : (List.insertionSort Day10.posLe L).Nodup := hperm.nodup_iff.mpr hnd
  refine (hs.and hnd2).imp ?_
  rintro a b ⟨hle, hne⟩
  unfold Day10.posLe at hle
  unfold Day10.rmLt
  have hcomp : a.1 ≠ b.1 ∨ a.2 ≠ b.2 := by
    by_contra hcon
    push_neg at hcon
    exact hne (Prod.ext hcon.1 hcon.2)
  omega

/-- Helper: a pipe tile is one of the six pipe shapes. -/
theorem pipe_cases (t : Day10.Tile) (hp : t.is_pipe = true) :
    t = Day10.Tile.NS ∨ t = Day10.Tile.EW ∨ t = Day10.Tile.NE ∨
    t = Day10.Tile.NW ∨ t = Day10.Tile.SW ∨ t = Day10.Tile.SE := by
  cases t <;> simp_all [Day10.Tile.is_pipe]

/-- Helper: advancing the row-major bound past a skipped position. -/
theorem rm_step (q : Nat × Nat) (x0 y : Nat) (hle : Day10.rmLe (x0, y) q)
    (hne : q ≠ (x0, y)) : Day10.rmLe (x0 + 1, y) q := by
  have hcomp : q.1 ≠ x0 ∨ q.2 ≠ y := by
    by_contra hcon
    push_neg at hcon
    exact hne (Prod.ext hcon.1 hcon.2)
  unfold Day10.rmLe at hle ⊢
  omega

/-- Helper: advancing the row-major bound past a strictly smaller
position. -/
theorem rm_step_lt (q : Nat × Nat) (x0 y : Nat) (hlt : Day10.rmLt (x0, y) q) :
    Day10.rmLe (x0 + 1, y) q := by
  unfold Day10.rmLt at hlt
  unfold Day10.rmLe
  omega

/-- Helper: elements of the left-of-tiles list come from loop cells of the
row. -/
theorem rowTilesLeftOf_mem (p : Day10.Puzzle) (C : List (Nat × Nat)) (y x : Nat)
    (t : Day10.Tile) (ht : t ∈ Day10.rowTilesLeftOf p C y x) :
    ∃ x2, x2 < x ∧ (x2, y) ∈ C ∧ t = p.tile_at x2 y := by
  unfold Day10.rowTilesLeftOf at ht
  obtain ⟨x2, hx2, rfl⟩ := List.mem_map.mp ht
  have := List.mem_filter.mp hx2
  refine ⟨x2, List.mem_range.mp this.1, ?_, rfl⟩
  have h2 := this.2
  simpa using h2

/-- Helper: the clause of invariant A at the next column holds whenever the
current tile does not connect right. -/
theorem next_no_left (p : Day10.Puzzle) (L : List (Nat × Nat)) (y x0 : Nat)
    (hconn : ∀ q ∈ L, Day10.ConnOk p L q)
    (hr : (p.tile_at x0 y).connects_right = false) :
    (x0 + 1, y) ∈ L → (p.tile_at (x0 + 1) y).connects_left = false := by
  intro hmem2
  by_contra hleft
  have hleft2 : (p.tile_at (x0 + 1) y).connects_left = true := by
    simp at hleft
    exact hleft
  have hc := (hconn _ hmem2).2.2.1 hleft2
  have hx : x0 + 1 - 1 = x0 := by omega
  rw [hx] at hc
  rw [hr] at hc
  exact absurd hc.2.2 (by simp)

/-- Helper: row-scan step on an NS tile. -/
theorem step_NS (p : Day10.Puzzle) (L : List (Nat × Nat)) (y x0 : Nat) (inside : Bool)
    (hconn : ∀ q ∈ L, Day10.ConnOk p L q) (hmem : (x0, y) ∈ L)
    (htile : p.tile_at x0 y = Day10.Tile.NS)
    (hinv : Day10.RowInvA p L y x0 inside) :
    Day10.RowInvA p L y (x0 + 1) (!inside) := by
  obtain ⟨hit, hpar, _⟩ := hinv
  have hP : Day10.rowTilesLeftOf p L y (x0 + 1)
      = Day10.rowTilesLeftOf p L y x0 ++ [Day10.Tile.NS] := by
    rw [rowTilesLeftOf_succ, if_pos hmem, htile]
  refine ⟨?_, ?_, ?_⟩
  · rw [hP]
    exact Itemized_append _ hit _ (Day10.Itemized.ns Day10.Itemized.nil)
  · rw [hP, crossing_append_itemized _ hit]
    have h1 : Day10.crossingNumber [Day10.Tile.NS] = 1 := by
      simp [Day10.crossingNumber]
    rw [h1, Nat.odd_add_one]
    cases inside <;> simp_all
  · exact next_no_left p L y x0 hconn (by rw [htile]; rfl)

/-- Helper: row-scan step on an opening corner (SE or NE). -/
theorem step_open (p : Day10.Puzzle) (L : List (Nat × Nat)) (y x0 : Nat) (inside : Bool)
    (hconn : ∀ q ∈ L, Day10.ConnOk p L q) (hmem : (x0, y) ∈ L)
    (hcorner : p.tile_at x0 y = Day10.Tile.SE ∨ p.tile_at x0 y = Day10.Tile.NE)
    (hinv : Day10.RowInvA p L y x0 inside) :
    Day10.RowInvB p L y (x0 + 1) inside (some (p.tile_at x0 y)) := by
  obtain ⟨hit, hpar, _⟩ := hinv
  have hr : (p.tile_at x0 y).connects_right = true := by
    rcases hcorner with h | h <;> rw [h] <;> rfl
  have hnext := (hconn _ hmem).2.1 hr
  refine ⟨Day10.rowTilesLeftOf p L y x0, p.tile_at x0 y, [], ?_, hit, hpar, hcorner,
    by simp, rfl, hnext.1, hnext.2⟩
  rw [rowTilesLeftOf_succ, if_pos hmem]

/-- Helper: row-scan step on an EW tile inside a run. -/
theorem step_EW (p : Day10.Puzzle) (L : List (Nat × Nat)) (y x0 : Nat) (inside : Bool)
    (la : Option Day10.Tile)
    (hconn : ∀ q ∈ L, Day10.ConnOk p L q)
    (htile : p.tile_at x0 y = Day10.Tile.EW)
    (hB : Day10.RowInvB p L y x0 inside la) :
    Day10.RowInvB p L y (x0 + 1) inside la := by
  obtain ⟨items, opener, mids, hP, hit, hpar, hop, hmids, hlast, hmemL, hleft⟩ := hB
  have hr : (p.tile_at x0 y).connects_right = true := by rw [htile]; rfl
  have hnext := (hconn _ hmemL).2.1 hr
  refine ⟨items, opener, mids ++ [Day10.Tile.EW], ?_, hit, hpar, hop, ?_, hlast,
    hnext.1, hnext.2⟩
  · rw [rowTilesLeftOf_succ, if_pos hmemL, hP, htile]
    simp
  · intro t ht
    rcases List.mem_append.mp ht with h | h
    · exact hmids t h
    · simpa using h

/-- Helper: row-scan step on a closing NW corner. -/
theorem step_close_NW (p : Day10.Puzzle) (L : List (Nat × Nat)) (y x0 : Nat)
    (inside : Bool) (la : Option Day10.Tile)
    (hconn : ∀ q ∈ L, Day10.ConnOk p L q)
    (htile : p.tile_at x0 y = Day10.Tile.NW)
    (hB : Day10.RowInvB p L y x0 inside la) :
    Day10.RowInvA p L y (x0 + 1)
      (if la = some Day10.Tile.SE then !inside else inside) := by
  obtain ⟨items, opener, mids, hP, hit, hpar, hop, hmids, hlast, hmemL, hleft⟩ := hB
  have hP2 : Day10.rowTilesLeftOf p L y (x0 + 1)
      = items ++ (opener :: (mids ++ Day10.Tile.NW :: [])) := by
    rw [rowTilesLeftOf_succ, if_pos hmemL, hP, htile]
    simp
  refine ⟨?_, ?_, ?_⟩
  · rw [hP2]
    exact Itemized_append _ hit _
      (Day10.Itemized.pair hop hmids (Or.inl rfl) Day10.Itemized.nil)
  · rw [hP2, crossing_append_itemized _ hit]
    subst hlast
    rcases hop with rfl | rfl
    · rw [if_pos rfl]
      have hcr : Day10.crossingNumber
          (Day10.Tile.SE :: (mids ++ Day10.Tile.NW :: [])) = 1 := by
        rw [Day10.crossingNumber, crossingFrom_run mids _ _ _ hmids (Or.inl rfl)]
        simp [Day10.crossingNumber]
      rw [hcr, Nat.odd_add_one]
      cases inside <;> simp_all
    · rw [if_neg (by simp)]
      have hcr : Day10.crossingNumber
          (Day10.Tile.NE :: (mids ++ Day10.Tile.NW :: [])) = 0 := by
        rw [Day10.crossingNumber, crossingFrom_run mids _ _ _ hmids (Or.inl rfl)]
        simp [Day10.crossingNumber]
      rw [hcr]
      simpa using hpar
  · exact next_no_left p L y x0 hconn (by rw [htile]; rfl)

/-- Helper: row-scan step on a closing SW corner. -/
theorem step_close_SW (p : Day10.Puzzle) (L : List (Nat × Nat)) (y x0 : Nat)
    (inside : Bool) (la : Option Day10.Tile)
    (hconn : ∀ q ∈ L, Day10.ConnOk p L q)
    (htile : p.tile_at x0 y = Day10.Tile.SW)
    (hB : Day10.RowInvB p L y x0 inside la) :
    Day10.RowInvA p L y (x0 + 1)
      (if la = some Day10.Tile.NE then !inside else inside) := by
  obtain ⟨items, opener, mids, hP, hit, hpar, hop, hmids, hlast, hmemL, hleft⟩ := hB
  have hP2 : Day10.rowTilesLeftOf p L y (x0 + 1)
      = items ++ (opener :: (mids ++ Day10.Tile.SW :: [])) := by
    rw [rowTilesLeftOf_succ, if_pos hmemL, hP, htile]
    simp
  refine ⟨?_, ?_, ?_⟩
  · rw [hP2]
    exact Itemized_append _ hit _
      (Day10.Itemized.pair hop hmids (Or.inr rfl) Day10.Itemized.nil)
  · rw [hP2, crossing_append_itemized _ hit]
    subst hlast
    rcases hop with rfl | rfl
    · rw [if_neg (by simp)]
      have hcr : Day10.crossingNumber
          (Day10.Tile.SE :: (mids ++ Day10.Tile.SW :: [])) = 0 := by
        rw [Day10.crossingNumber, crossingFrom_run mids _ _ _ hmids (Or.inr rfl)]
        simp [Day10.crossingNumber]
      rw [hcr]
      simpa using hpar
    · rw [if_pos rfl]
      have hcr : Day10.crossingNumber
          (Day10.Tile.NE :: (mids ++ Day10.Tile.SW :: [])) = 1 := by
        rw [Day10.crossingNumber, crossingFrom_run mids _ _ _ hmids (Or.inr rfl)]
        simp [Day10.crossingNumber]
      rw [hcr, Nat.odd_add_one]
      cases inside <;> simp_all
  · exact next_no_left p L y x0 hconn (by rw [htile]; rfl)

/-- Helper: widening the strict row-major bound by one column. -/
theorem rm_widen (q : Nat × Nat) (x0 y : Nat) (h : Day10.rmLt q (x0, y)) :
    Day10.rmLt q (x0 + 1, y) := by
  unfold Day10.rmLt at h ⊢
  omega

/-- Helper: the main row-scan induction.  Scanning the columns from `x0` with
the invariant either completes the row with the area advanced by the
specification count of the scanned cells, or returns early having passed the
last loop cell. -/
theorem scanRow_spec (p : Day10.Puzzle) (L S : List (Nat × Nat))
    (hSp : S.Pairwise Day10.rmLt)
    (hSL : ∀ q : Nat × Nat, q ∈ S ↔ q ∈ L)
    (hbounds : ∀ q ∈ L, q.1 < p.width ∧ q.2 < p.height)
    (hconn : ∀ q ∈ L, Day10.ConnOk p L q)
    (y : Nat) :
    ∀ (n x0 : Nat) (inside : Bool) (la : Option Day10.Tile) (area : Nat)
      (done rest : List (Nat × Nat)),
      x0 + n = p.width →
      S = done ++ rest →
      (∀ q ∈ done, Day10.rmLt q (x0, y)) →
      (∀ q ∈ rest, Day10.rmLe (x0, y) q) →
      (Day10.RowInvA p L y x0 inside ∨ Day10.RowInvB p L y x0 inside la) →
      (∃ area2 rest2 done2,
        Day10.scanRow p y (List.range' x0 n) inside la area rest
          = some (Sum.inr (area2, rest2)) ∧
        area2 = area + Day10.specCount p L y (List.range' x0 n) ∧
        S = done2 ++ rest2 ∧
        (∀ q ∈ done2, Day10.rmLt q (0, y + 1)) ∧
        (∀ q ∈ rest2, Day10.rmLe (0, y + 1) q)) ∨
      (∃ res,
        Day10.scanRow p y (List.range' x0 n) inside la area rest
          = some (Sum.inl res) ∧
        res = area + Day10.specCount p L y (List.range' x0 n) ∧
        (∀ q ∈ L, q.2 ≤ y)) := by
  intro n
  induction n with
  | zero =>
    intro x0 inside la area done rest hw hsplit hdone hrest _
    left
    refine ⟨area, rest, done, rfl, by simp [Day10.specCount], hsplit, ?_, ?_⟩
    · intro q hq
      have h1 := hdone q hq
      unfold Day10.rmLt at h1 ⊢
      omega
    · intro q hq
      have h1 := hrest q hq
      have hqL : q ∈ L := by
        refine (hSL q).mp ?_
        rw [hsplit]
        exact List.mem_append_right done hq
      have h2 := (hbounds q hqL).1
      unfold Day10.rmLe at h1 ⊢
      omega
  | succ n ih =>
    intro x0 inside la area done rest hw hsplit hdone hrest hinv
    have hmemiff : rest.head? = some (x0, y) ↔ (x0, y) ∈ L := by
      constructor
      · intro hh
        have hmemr : (x0, y) ∈ rest := by
          cases rest with
          | nil => cases hh
          | cons r rs =>
            have : r = (x0, y) := by simpa using hh
            rw [this]
            exact List.mem_cons_self _ _
        refine (hSL _).mp ?_
        rw [hsplit]
        exact List.mem_append_right done hmemr
      · intro hL
        have hin : (x0, y) ∈ S := (hSL _).mpr hL
        rw [hsplit] at hin
        rcases List.mem_append.mp hin with hd | hr
        · have := hdone _ hd
          unfold Day10.rmLt at this
          omega
        · cases rest with
          | nil => cases hr
          | cons r rs =>
            rcases List.mem_cons.mp hr with he | htail
            · rw [← he]
              rfl
            · have hpw2 : (r :: rs).Pairwise Day10.rmLt := by
                have hSp2 := hSp
                rw [hsplit] at hSp2
                exact (List.pairwise_append.mp hSp2).2.1
              have hlt : Day10.rmLt r (x0, y) := by
                exact (List.pairwise_cons.mp hpw2).1 _ htail
              have hle := hrest r (List.mem_cons_self r rs)
              unfold Day10.rmLt at hlt
              unfold Day10.rmLe at hle
              omega
    rw [List.range'_succ]
    by_cases hhead : rest.head? = some (x0, y)
    · -- the current cell is on the loop
      have hmemL : (x0, y) ∈ L := hmemiff.mp hhead
      obtain ⟨r0, rest1, rfl⟩ : ∃ r0 rs, rest = r0 :: rs := by
        cases rest with
        | nil => cases hhead
        | cons a b => exact ⟨a, b, rfl⟩
      have hr0 : r0 = (x0, y) := by simpa using hhead
      subst hr0
      have hck := hconn _ hmemL
      have hpipe : (p.tile_at x0 y).is_pipe = true := hck.1
      have htail_lt : ∀ q ∈ rest1, Day10.rmLt (x0, y) q := by
        have hSp2 := hSp
        rw [hsplit] at hSp2
        have hpw : ((x0, y) :: rest1).Pairwise Day10.rmLt :=
          (List.pairwise_append.mp hSp2).2.1
        exact fun q hq => (List.pairwise_cons.mp hpw).1 q hq
      cases rest1 with
      | nil =>
        -- early return: the loop is exhausted
        right
        have hallL : ∀ q ∈ L, Day10.rmLe q (x0, y) := by
          intro q hq
          have hqS : q ∈ S := (hSL q).mpr hq
          rw [hsplit] at hqS
          rcases List.mem_append.mp hqS with h | h
          · have := hdone q h
            unfold Day10.rmLt at this
            unfold Day10.rmLe
            omega
          · rcases List.mem_cons.mp h with he | h2
            · rw [he]
              unfold Day10.rmLe
              omega
            · cases h2
        have hylev : ∀ q ∈ L, q.2 ≤ y := by
          intro q hq
          have := hallL q hq
          unfold Day10.rmLe at this
          omega
        have hzero : Day10.specCount p L y (List.range' (x0 + 1) n) = 0 := by
          apply specCount_zero
          intro x2 _
          right
          have hct : ∀ t ∈ Day10.rowTilesLeftOf p L y x2,
              t = Day10.Tile.EW ∨ t = Day10.Tile.NE ∨ t = Day10.Tile.NW := by
            intro t ht
            obtain ⟨x3, _, hmem3, rfl⟩ := rowTilesLeftOf_mem p L y x2 t ht
            have hc3 := hconn _ hmem3
            apply pipe_not_down _ hc3.1
            by_contra hdn
            have hdn2 : (p.tile_at x3 y).connects_down = true := by
              simp at hdn
              exact hdn
            have hdown := (hc3.2.2.2.1 hdn2).1
            have := hylev _ hdown
            simp at this
          rw [(crossing_no_down _ hct).1]
          decide
        have harea : area
            = area + Day10.specCount p L y (x0 :: List.range' (x0 + 1) n) := by
          rw [specCount_cons, hzero]
          simp [hmemL]
        refine ⟨area, ?_, harea, hylev⟩
        rcases pipe_cases _ hpipe with htile | htile | htile | htile | htile | htile <;>
          simp [Day10.scanRow, htile]
      | cons r2 rs2 =>
        -- a later loop cell remains: take one scan step and recurse
        have hw2 : (x0 + 1) + n = p.width := by omega
        have hsplit2 : S = (done ++ [(x0, y)]) ++ (r2 :: rs2) := by
          rw [hsplit]
          simp
        have hdone2 : ∀ q ∈ done ++ [(x0, y)], Day10.rmLt q (x0 + 1, y) := by
          intro q hq
          rcases List.mem_append.mp hq with h | h
          · exact rm_widen q x0 y (hdone q h)
          · have he : q = (x0, y) := by simpa using h
            rw [he]
            unfold Day10.rmLt
            omega
        have hrest2 : ∀ q ∈ r2 :: rs2, Day10.rmLe (x0 + 1, y) q :=
          fun q hq => rm_step_lt q x0 y (htail_lt q hq)
        have main : ∀ (inside2 : Bool) (la2 : Option Day10.Tile),
            (Day10.RowInvA p L y (x0 + 1) inside2 ∨
              Day10.RowInvB p L y (x0 + 1) inside2 la2) →
            Day10.scanRow p y (x0 :: List.range' (x0 + 1) n) inside la area
                ((x0, y) :: r2 :: rs2)
              = Day10.scanRow p y (List.range' (x0 + 1) n) inside2 la2 area
                (r2 :: rs2) →
            (∃ area2 rest2 done2,
              Day10.scanRow p y (x0 :: List.range' (x0 + 1) n) inside la area
                  ((x0, y) :: r2 :: rs2)
                = some (Sum.inr (area2, rest2)) ∧
              area2 = area
                + Day10.specCount p L y (x0 :: List.range' (x0 + 1) n) ∧
              S = done2 ++ rest2 ∧
              (∀ q ∈ done2, Day10.rmLt q (0, y + 1)) ∧
              (∀ q ∈ rest2, Day10.rmLe (0, y + 1) q)) ∨
            (∃ res,
              Day10.scanRow p y (x0 :: List.range' (x0 + 1) n) inside la area
                  ((x0, y) :: r2 :: rs2)
                = some (Sum.inl res) ∧
              res = area + Day10.specCount p L y (x0 :: List.range' (x0 + 1) n) ∧
              (∀ q ∈ L, q.2 ≤ y)) := by
          intro inside2 la2 hinv2 heq
          rcases ih (x0 + 1) inside2 la2 area (done ++ [(x0, y)]) (r2 :: rs2)
              hw2 hsplit2 hdone2 hrest2 hinv2 with
            ⟨area2, rest2, done2, hrun, harea, hs2, hd2, hr2⟩ |
            ⟨res, hrun, hres, hlev⟩
          · left
            refine ⟨area2, rest2, done2, ?_, ?_, hs2, hd2, hr2⟩
            · rw [heq]
              exact hrun
            · rw [harea, specCount_cons]
              simp [hmemL]
          · right
            refine ⟨res, ?_, ?_, hlev⟩
            · rw [heq]
              exact hrun
            · rw [hres, specCount_cons]
              simp [hmemL]
        rcases pipe_cases _ hpipe with htile | htile | htile | htile | htile | htile
        · -- NS
          have hA : Day10.RowInvA p L y x0 inside := by
            rcases hinv with hA | hB
            · exact hA
            · obtain ⟨_, _, _, _, _, _, _, _, _, _, hleft⟩ := hB
              rw [htile] at hleft
              cases hleft
          exact main (!inside) la (Or.inl (step_NS p L y x0 inside hconn hmemL htile hA))
            (by simp [Day10.scanRow, htile])
        · -- EW
          have hB : Day10.RowInvB p L y x0 inside la := by
            rcases hinv with hA | hB
            · have := hA.2.2 hmemL
              rw [htile] at this
              cases this
            · exact hB
          exact main inside la (Or.inr (step_EW p L y x0 inside la hconn htile hB))
            (by simp [Day10.scanRow, htile])
        · -- NE
          have hA : Day10.RowInvA p L y x0 inside := by
            rcases hinv with hA | hB
            · exact hA
            · obtain ⟨_, _, _, _, _, _, _, _, _, _, hleft⟩ := hB
              rw [htile] at hleft
              cases hleft
          have hstep := step_open p L y x0 inside hconn hmemL (Or.inr htile) hA
          rw [htile] at hstep
          exact main inside (some Day10.Tile.NE) (Or.inr hstep)
            (by simp [Day10.scanRow, htile])
        · -- NW
          have hB : Day10.RowInvB p L y x0 inside la := by
            rcases hinv with hA | hB
            · have := hA.2.2 hmemL
              rw [htile] at this
              cases this
            · exact hB
          exact main (if la = some Day10.Tile.SE then !inside else inside)
            (some Day10.Tile.NW)
            (Or.inl (step_close_NW p L y x0 inside la hconn htile hB))
            (by simp [Day10.scanRow, htile])
        · -- SW
          have hB : Day10.RowInvB p L y x0 inside la := by
            rcases hinv with hA | hB
            · have := hA.2.2 hmemL
              rw [htile] at this
              cases this
            · exact hB
          exact main (if la = some Day10.Tile.NE then !inside else inside)
            (some Day10.Tile.SW)
            (Or.inl (step_close_SW p L y x0 inside la hconn htile hB))
            (by simp [Day10.scanRow, htile])
        · -- SE
          have hA : Day10.RowInvA p L y x0 inside := by
            rcases hinv with hA | hB
            · exact hA
            · obtain ⟨_, _, _, _, _, _, _, _, _, _, hleft⟩ := hB
              rw [htile] at hleft
              cases hleft
          have hstep := step_open p L y x0 inside hconn hmemL (Or.inl htile) hA
          rw [htile] at hstep
          exact main inside (some Day10.Tile.SE) (Or.inr hstep)
            (by simp [Day10.scanRow, htile])
    · -- the current cell is off the loop
      have hnotL : (x0, y) ∉ L := fun h => hhead (hmemiff.mpr h)
      have hA : Day10.RowInvA p L y x0 inside := by
        rcases hinv with hA | hB
        · exact hA
        · obtain ⟨_, _, _, _, _, _, _, _, _, hmemB, _⟩ := hB
          exact absurd hmemB hnotL
      obtain ⟨hit, hpar, _⟩ := hA
      have hP : Day10.rowTilesLeftOf p L y (x0 + 1)
          = Day10.rowTilesLeftOf p L y x0 := by
        rw [rowTilesLeftOf_succ, if_neg hnotL, List.append_nil]
      have hA2 : Day10.RowInvA p L y (x0 + 1) inside := by
        refine ⟨by rw [hP]; exact hit, by rw [hP]; exact hpar, ?_⟩
        intro hmem2
        by_contra hleft
        have hleft2 : (p.tile_at (x0 + 1) y).connects_left = true := by
          simp at hleft
          exact hleft
        have hc := (hconn _ hmem2).2.2.1 hleft2
        have hx : x0 + 1 - 1 = x0 := by omega
        rw [hx] at hc
        exact hnotL hc.2.1
      have hdone2 : ∀ q ∈ done, Day10.rmLt q (x0 + 1, y) :=
        fun q hq => rm_widen q x0 y (hdone q hq)
      have hrest2 : ∀ q ∈ rest, Day10.rmLe (x0 + 1, y) q := by
        intro q hq
        refine rm_step q x0 y (hrest q hq) ?_
        intro he
        apply hnotL
        rw [← he]
        refine (hSL q).mp ?_
        rw [hsplit]
        exact List.mem_append_right done hq
      have heq : Day10.scanRow p y (x0 :: List.range' (x0 + 1) n) inside la area rest
          = Day10.scanRow p y (List.range' (x0 + 1) n) inside la
            (if inside then area + 1 else area) rest := by
        simp [Day10.scanRow, hhead]
      rcases ih (x0 + 1) inside la (if inside then area + 1 else area) done rest
          (by omega) hsplit hdone2 hrest2 (Or.inl hA2) with
        ⟨area2, rest2, done2, hrun, harea, hs2, hd2, hr2⟩ | ⟨res, hrun, hres, hlev⟩
      · left
        refine ⟨area2, rest2, done2, ?_, ?_, hs2, hd2, hr2⟩
        · rw [heq]
          exact hrun
        · rw [harea, specCount_cons]
          by_cases hi : inside = true
          · have hodd := hpar.mp hi
            simp [hi, hnotL, hodd]
            omega
          · have hodd : ¬ Odd (Day10.crossingNumber (Day10.rowTilesLeftOf p L y x0)) :=
              fun ho => hi (hpar.mpr ho)
            simp [hi, hodd]
      · right
        refine ⟨res, ?_, ?_, hlev⟩
        · rw [heq]
          exact hrun
        · rw [hres, specCount_cons]
          by_cases hi : inside = true
          · have hodd := hpar.mp hi
            simp [hi, hnotL, hodd]
            omega
          · have hodd : ¬ Odd (Day10.crossingNumber (Day10.rowTilesLeftOf p L y x0)) :=
              fun ho => hi (hpar.mpr ho)
            simp [hi, hodd]

/-- Helper: a row containing no loop cell contributes nothing to the
specification count. -/
theorem specCount_no_loop (p : Day10.Puzzle) (L : List (Nat × Nat)) (y : Nat)
    (xs : List Nat) (h : ∀ q ∈ L, q.2 ≠ y) :
    Day10.specCount p L y xs = 0 := by
  apply specCount_zero
  intro x _
  right
  have hrt : Day10.rowTilesLeftOf p L y x = [] := by
    unfold Day10.rowTilesLeftOf
    have hf : (List.range x).filter (fun x2 => decide ((x2, y) ∈ L)) = [] := by
      apply List.filter_eq_nil_iff.mpr
      intro a _
      simp only [decide_eq_true_eq]
      intro hmem
      exact absurd rfl (h _ hmem)
    rw [hf]
    rfl
  rw [hrt]
  have h0 : Day10.crossingNumber [] = 0 := by simp [Day10.crossingNumber]
  rw [h0]
  simp [Nat.odd_iff]

/-- Helper: the grid scan over the rows from `y0` yields the accumulated
area plus the specification count of every remaining row. -/
theorem scanRows_spec (p : Day10.Puzzle) (L S : List (Nat × Nat))
    (hSp : S.Pairwise Day10.rmLt)
    (hSL : ∀ q : Nat × Nat, q ∈ S ↔ q ∈ L)
    (hbounds : ∀ q ∈ L, q.1 < p.width ∧ q.2 < p.height)
    (hconn : ∀ q ∈ L, Day10.ConnOk p L q) :
    ∀ (m y0 area : Nat) (done rest : List (Nat × Nat)),
      S = done ++ rest →
      (∀ q ∈ done, Day10.rmLt q (0, y0)) →
      (∀ q ∈ rest, Day10.rmLe (0, y0) q) →
      Day10.scanRows p (List.range' y0 m) area rest
        = some (area + ((List.range' y0 m).map fun y =>
            Day10.specCount p L y (List.range p.width)).sum) := by
  intro m
  induction m with
  | zero =>
    intro y0 area done rest _ _ _
    simp [Day10.scanRows]
  | succ m ih =>
    intro y0 area done rest hsplit hdone hrest
    have hA0 : Day10.RowInvA p L y0 0 false := by
      have hrt : Day10.rowTilesLeftOf p L y0 0 = [] := rfl
      refine ⟨?_, ?_, ?_⟩
      · rw [hrt]
        exact Day10.Itemized.nil
      · rw [hrt]
        have h0 : Day10.crossingNumber [] = 0 := by simp [Day10.crossingNumber]
        rw [h0]
        simp [Nat.odd_iff]
      · intro hmem
        by_contra hleft
        have hleft2 : (p.tile_at 0 y0).connects_left = true := by
          simp at hleft
          exact hleft
        have hc := (hconn _ hmem).2.2.1 hleft2
        exact absurd rfl hc.1
    have hrow := scanRow_spec p L S hSp hSL hbounds hconn y0 p.width 0 false none
      area done rest (by omega) hsplit hdone hrest (Or.inl hA0)
    rw [← List.range_eq_range'] at hrow
    rw [List.range'_succ]
    rcases hrow with ⟨area2, rest2, done2, hrun, harea, hs2, hd2, hr2⟩ |
      ⟨res, hrun, hres, hlev⟩
    · simp only [Day10.scanRows, hrun]
      rw [ih (y0 + 1) area2 done2 rest2 hs2 hd2 hr2]
      rw [harea]
      rw [List.map_cons, List.sum_cons, Nat.add_assoc]
    · simp only [Day10.scanRows, hrun]
      have hzero : ((List.range' (y0 + 1) m).map fun y =>
          Day10.specCount p L y (List.range p.width)).sum = 0 := by
        apply List.sum_eq_zero
        intro v hv
        obtain ⟨y2, hy2, rfl⟩ := List.mem_map.mp hv
        have hy2b := (List.mem_range'_1.mp hy2).1
        apply specCount_no_loop
        intro q hq
        have := hlev q hq
        omega
      rw [hres, List.map_cons, List.sum_cons, hzero]
      simp

/-- C5: for every day-10 puzzle whose tiles form a single closed pipe loop
through the start position (the cycle found by `get_cycle`, with its
duplicated endpoint dropped, consists of pairwise distinct, in-bounds,
locally well-connected cells of a rectangular grid), `area_in_cycle`
returns exactly the number of grid cells that are not on the loop and whose
leftward ray crosses the loop an odd number of times, counting NS tiles and
the corner pairs SE..NW and NE..SW (with any number of EW tiles between the
corners) as crossings. -/
theorem C5_area_in_cycle (p : Day10.Puzzle) (fuel : Nat) (c : List (Nat × Nat))
    (hc : p.get_cycle fuel = some c)
    (hloop : Day10.LoopOk p c.dropLast) :
    p.area_in_cycle fuel = some (Day10.areaSpec p c.dropLast) := by
  obtain ⟨hhead, hlast, hlen⟩ := get_cycle_shape p fuel c hc
  obtain ⟨hnd, hbounds, hconn, _, _⟩ := hloop
  obtain ⟨a, b, t, rfl⟩ : ∃ a b t, c = a :: b :: t := by
    cases c with
    | nil => cases hhead
    | cons a cs =>
      cases cs with
      | nil => simp at hlen
      | cons b t => exact ⟨a, b, t, rfl⟩
  have ha : a = (p.start_col, p.start_row) := by simpa using hhead
  subst ha
  simp only [Day10.Puzzle.area_in_cycle, hc, hlast]
  have hdl : ((p.start_col, p.start_row) :: b :: t).dropLast
      = (p.start_col, p.start_row) :: (b :: t).dropLast := rfl
  have hcond : ¬(((p.start_col, p.start_row) :: b :: t).dropLast.head?
      ≠ some (p.start_col, p.start_row)) := by
    rw [hdl]
    simp
  rw [if_neg hcond]
  rcases hS : List.insertionSort Day10.posLe
      ((p.start_col, p.start_row) :: b :: t).dropLast with _ | ⟨q, qs⟩
  · have hp2 := List.perm_insertionSort Day10.posLe
      ((p.start_col, p.start_row) :: b :: t).dropLast
    rw [hS] at hp2
    have := hp2.symm.eq_nil
    rw [hdl] at this
    cases this
  · have hSp : (q :: qs).Pairwise Day10.rmLt := by
      rw [← hS]
      exact sorted_strict_rm _ hnd
    have hSL : ∀ q2 : Nat × Nat, q2 ∈ q :: qs ↔
        q2 ∈ ((p.start_col, p.start_row) :: b :: t).dropLast := by
      intro q2
      rw [← hS]
      exact (List.perm_insertionSort Day10.posLe _).mem_iff
    have hrun := scanRows_spec p (((p.start_col, p.start_row) :: b :: t).dropLast)
      (q :: qs) hSp hSL hbounds hconn p.height 0 0 [] (q :: qs) rfl
      (by intro q3 hq3; cases hq3)
      (by intro q3 _; unfold Day10.rmLe; omega)
    rw [← List.range_eq_range'] at hrun
    refine hrun.trans ?_
    simp [Day10.areaSpec]

/-- Witness for C5: a 3x3 grid whose border is a single closed loop; the
hypotheses hold and the theorem applies. -/
theorem C5_area_in_cycle_witness :
    (Day10.Puzzle.mk 3 3
        [[Day10.Tile.SE, Day10.Tile.EW, Day10.Tile.SW],
         [Day10.Tile.NS, Day10.Tile.Ground, Day10.Tile.NS],
         [Day10.Tile.NE, Day10.Tile.EW, Day10.Tile.NW]] 0 0).get_cycle 20
      = some [(0, 0), (1, 0), (2, 0), (2, 1), (2, 2), (1, 2), (0, 2), (0, 1), (0, 0)] ∧
    Day10.LoopOk
      (Day10.Puzzle.mk 3 3
        [[Day10.Tile.SE, Day10.Tile.EW, Day10.Tile.SW],
         [Day10.Tile.NS, Day10.Tile.Ground, Day10.Tile.NS],
         [Day10.Tile.NE, Day10.Tile.EW, Day10.Tile.NW]] 0 0)
      ([(0, 0), (1, 0), (2, 0), (2, 1), (2, 2), (1, 2), (0, 2), (0, 1), (0, 0)]
        : List (Nat × Nat)).dropLast ∧
    (Day10.Puzzle.mk 3 3
        [[Day10.Tile.SE, Day10.Tile.EW, Day10.Tile.SW],
         [Day10.Tile.NS, Day10.Tile.Ground, Day10.Tile.NS],
         [Day10.Tile.NE, Day10.Tile.EW, Day10.Tile.NW]] 0 0).area_in_cycle 20
      = some (Day10.areaSpec
          (Day10.Puzzle.mk 3 3
            [[Day10.Tile.SE, Day10.Tile.EW, Day10.Tile.SW],
             [Day10.Tile.NS, Day10.Tile.Ground, Day10.Tile.NS],
             [Day10.Tile.NE, Day10.Tile.EW, Day10.Tile.NW]] 0 0)
          ([(0, 0), (1, 0), (2, 0), (2, 1), (2, 2), (1, 2), (0, 2), (0, 1), (0, 0)]
            : List (Nat × Nat)).dropLast) :=
  ⟨rfl, by decide, C5_area_in_cycle _ 20 _ rfl (by decide)⟩

/-- Helper: reading a list after writing a different index. -/
theorem getD_set_ne {α : Type} (l : List α) (i j : Nat) (a dflt : α) (h : i ≠ j) :
    (l.set i a).getD j dflt = l.getD j dflt := by
  rw [List.getD_eq_getElem?_getD, List.getD_eq_getElem?_getD, List.getElem?_set_ne h]

/-- Helper: reading a list after writing the same in-bounds index. -/
theorem getD_set_same {α : Type} (l : List α) (i : Nat) (a dflt : α)
    (h : i < l.length) :
    (l.set i a).getD i dflt = a := by
  rw [List.getD_eq_getElem?_getD, List.getElem?_set_self (by exact h)]
  rfl

/-- Helper: a distance-table read after a write at the same position. -/
theorem getDist_set_same (d : List (List (Option Nat))) (x y v : Nat)
    (hy : y < d.length) (hx : x < (d.getD y []).length) :
    Day17.getDist (Day17.setDist d x y v) x y = some v := by
  unfold Day17.getDist Day17.setDist
  rw [getD_set_same _ _ _ _ hy, getD_set_same _ _ _ _ hx]

/-- Helper: a distance-table read after a write at a different position. -/
theorem getDist_set_ne (d : List (List (Option Nat))) (x y v a b : Nat)
    (hne : ¬(a = x ∧ b = y)) :
    Day17.getDist (Day17.setDist d x y v) a b = Day17.getDist d a b := by
  unfold Day17.getDist Day17.setDist
  by_cases hby : b = y
  · subst hby
    have hax : a ≠ x := fun h => hne ⟨h, rfl⟩
    by_cases hyl : b < d.length
    · rw [getD_set_same _ _ _ _ hyl, getD_set_ne _ _ _ _ _ (fun h => hax h.symm)]
    · rw [List.set_eq_of_length_le (by omega)]
  · rw [getD_set_ne _ _ _ _ _ (fun h => hby h.symm)]


/-- Helper: `setDist` preserves the table shape. -/
theorem setDist_shape (d : List (List (Option Nat))) (x y v : Nat) (H W : Nat)
    (h1 : d.length = H) (h2 : ∀ r ∈ d, r.length = W) (hy : y < H) :
    (Day17.setDist d x y v).length = H ∧
      ∀ r ∈ Day17.setDist d x y v, r.length = W := by
  unfold Day17.setDist
  refine ⟨by rw [List.length_set]; exact h1, ?_⟩
  intro r hr
  rcases List.mem_or_eq_of_mem_set hr with h | h
  · exact h2 r h
  · rw [h, List.length_set]
    have hyd : y < d.length := by omega
    rw [List.getD_eq_getElem d [] hyd]
    exact h2 _ (List.getElem_mem hyd)

/-- Helper: summing a per-element weight after a list write. -/
theorem listSum_set {α : Type} (g : α → Nat) (dflt : α) :
    ∀ (l : List α) (i : Nat) (a : α), i < l.length →
      ((l.set i a).map g).sum + g (l.getD i dflt) = (l.map g).sum + g a := by
  intro l
  induction l with
  | nil =>
    intro i a h
    simp at h
  | cons x xs ih =>
    intro i a h
    cases i with
    | zero => simp [List.set]; omega
    | succ i =>
      simp only [List.set, List.map_cons, List.sum_cons, List.getD_cons_succ]
      have := ih i a (by simpa using h)
      omega

/-- Helper: a table weight sum after a write. -/
theorem tableSum_set (f : Option Nat → Nat) (d : List (List (Option Nat)))
    (x y v : Nat) (hy : y < d.length) (hx : x < (d.getD y []).length) :
    Day17.tableSum f (Day17.setDist d x y v) + f (Day17.getDist d x y)
      = Day17.tableSum f d + f (some v) := by
  unfold Day17.tableSum Day17.setDist Day17.getDist
  have houter : ((d.set y ((d.getD y []).set x (some v))).map
        fun r => (r.map f).sum).sum + ((d.getD y []).map f).sum
      = (d.map fun r => (r.map f).sum).sum
        + (((d.getD y []).set x (some v)).map f).sum :=
    listSum_set (fun r => (r.map f).sum) ([] : List (Option Nat)) d y
      ((d.getD y []).set x (some v)) hy
  have hinner := listSum_set f (none : Option Nat) (d.getD y []) x (some v) hx
  omega

/-- Helper: reading the blank table. -/
theorem getDist_replicate (H W x y : Nat) :
    Day17.getDist (List.replicate H (List.replicate W (none : Option Nat))) x y
      = none := by
  unfold Day17.getDist
  by_cases hy : y < H
  · have h1 : (List.replicate H (List.replicate W (none : Option Nat))).getD y []
        = List.replicate W none := by
      rw [List.getD_eq_getElem?_getD, List.getElem?_replicate, if_pos hy]
      rfl
    rw [h1, List.getD_eq_getElem?_getD, List.getElem?_replicate]
    by_cases hx : x < W
    · rw [if_pos hx]
      rfl
    · rw [if_neg hx]
      rfl
  · have h1 : (List.replicate H (List.replicate W (none : Option Nat))).getD y []
        = [] := by
      rw [List.getD_eq_getElem?_getD, List.getElem?_replicate, if_neg hy]
      rfl
    rw [h1]
    rfl

/-- Helper: the weight sum of the blank table. -/
theorem tableSum_replicate (f : Option Nat → Nat) (H W : Nat) :
    Day17.tableSum f (List.replicate H (List.replicate W (none : Option Nat)))
      = H * (W * f none) := by
  unfold Day17.tableSum
  rw [List.map_replicate, List.sum_replicate, List.map_replicate,
    List.sum_replicate, smul_eq_mul, smul_eq_mul]

/-- Helper: the reached-entry count is at most the table size. -/
theorem countSome_le (d : List (List (Option Nat))) (H W : Nat)
    (h1 : d.length = H) (h2 : ∀ r ∈ d, r.length = W) :
    Day17.countSome d ≤ H * W := by
  unfold Day17.countSome Day17.tableSum
  calc (d.map fun r => (r.map fun e =>
        match e with | none => 0 | some _ => 1).sum).sum
      ≤ (d.map fun r => (r.map fun e =>
        match e with | none => 0 | some _ => 1).sum).length * W := by
        apply List.sum_le_card_nsmul _ W ?_ |>.trans
        · rw [smul_eq_mul]
        · intro s hs
          obtain ⟨r, hr, rfl⟩ := List.mem_map.mp hs
          have := List.sum_le_card_nsmul (r.map fun e =>
            match e with | none => 0 | some _ => 1) 1 ?_
          · rw [smul_eq_mul, mul_one, List.length_map] at this
            rw [h2 r hr] at this
            exact this
          · intro u hu
            obtain ⟨e, _, rfl⟩ := List.mem_map.mp hu
            cases e <;> simp
    _ = H * W := by rw [List.length_map, h1]

/-- Helper: a table with an unreached in-bounds entry has fewer reached
entries than positions. -/
theorem countSome_lt (d : List (List (Option Nat))) (H W x y : Nat)
    (h1 : d.length = H) (h2 : ∀ r ∈ d, r.length = W)
    (hx : x < W) (hy : y < H) (hnone : Day17.getDist d x y = none) :
    Day17.countSome d < H * W := by
  have hyd : y < d.length := by omega
  have hxd : x < (d.getD y []).length := by
    rw [List.getD_eq_getElem d [] hyd, h2 _ (List.getElem_mem hyd)]
    exact hx
  have hset := tableSum_set (fun e => match e with | none => 0 | some _ => 1)
    d x y 0 hyd hxd
  rw [hnone] at hset
  simp at hset
  have hle := countSome_le (Day17.setDist d x y 0) H W
    (setDist_shape d x y 0 H W h1 h2 hy).1 (setDist_shape d x y 0 H W h1 h2 hy).2
  unfold Day17.countSome at hle ⊢
  omega

/-- Helper: the state comparison is reflexively `eq`. -/
theorem State_cmp_self (s : Day17.State) : Day17.State.cmp s s = Ordering.eq := by
  unfold Day17.State.cmp
  rw [show compare s.cost s.cost = Ordering.eq from compare_eq_iff_eq.mpr rfl]
  rw [show compare s.x s.x = Ordering.eq from compare_eq_iff_eq.mpr rfl]
  rw [show compare s.y s.y = Ordering.eq from compare_eq_iff_eq.mpr rfl]
  rw [show compare s.vertical s.vertical = Ordering.eq from compare_eq_iff_eq.mpr rfl]
  rfl

/-- Helper: a `cmp`-smaller state has at least the cost of the larger. -/
theorem cmp_lt_cost (s m : Day17.State)
    (h : Day17.State.cmp s m = Ordering.lt) : m.cost ≤ s.cost := by
  unfold Day17.State.cmp at h
  rcases hc : compare m.cost s.cost with _ | _ | _
  · exact le_of_lt (compare_lt_iff_lt.mp hc)
  · exact le_of_eq (compare_eq_iff_eq.mp hc)
  · rw [hc] at h
    cases h

/-- Helper: a state not `cmp`-below another has at most its cost. -/
theorem cmp_not_lt_cost (s m : Day17.State)
    (h : ¬ Day17.State.cmp s m = Ordering.lt) : s.cost ≤ m.cost := by
  by_contra hgt
  apply h
  unfold Day17.State.cmp
  have : compare m.cost s.cost = Ordering.lt := compare_lt_iff_lt.mpr (by omega)
  rw [this]
  rfl

/-- Helper: `popMax` never fails on a nonempty heap. -/
theorem popMax_cons_ne (s : Day17.State) (rest : List Day17.State) :
    Day17.popMax (s :: rest) ≠ none := by
  rw [Day17.popMax]
  rcases h : Day17.popMax rest with _ | ⟨m, l⟩
  · simp
  · by_cases hc : Day17.State.cmp s m = Ordering.lt <;> simp [hc]

/-- Helper: `popMax` removes one element of minimum cost. -/
theorem popMax_spec (l : List Day17.State) :
    ∀ r rest, Day17.popMax l = some (r, rest) →
      l.Perm (r :: rest) ∧ ∀ u ∈ l, r.cost ≤ u.cost := by
  induction l with
  | nil =>
    intro r rest h
    cases h
  | cons s t ih =>
    intro r rest h
    rw [Day17.popMax] at h
    rcases hpm : Day17.popMax t with _ | ⟨m, l2⟩
    · rw [hpm] at h
      have h2 : some (s, ([] : List Day17.State)) = some (r, rest) := h
      cases h2
      have ht : t = [] := by
        cases t with
        | nil => rfl
        | cons a b => exact absurd hpm (popMax_cons_ne a b)
      subst ht
      refine ⟨List.Perm.refl _, ?_⟩
      intro u hu
      rcases List.mem_cons.mp hu with rfl | h2
      · exact le_refl _
      · cases h2
    · rw [hpm] at h
      have h2 : (if Day17.State.cmp s m = Ordering.lt then some (m, s :: l2)
          else some (s, t)) = some (r, rest) := h
      obtain ⟨hperm, hmax⟩ := ih m l2 hpm
      by_cases hc : Day17.State.cmp s m = Ordering.lt
      · rw [if_pos hc] at h2
        cases h2
        constructor
        · exact (hperm.cons s).trans (List.Perm.swap r s l2)
        · intro u hu
          rcases List.mem_cons.mp hu with rfl | hut
          · exact cmp_lt_cost u r hc
          · exact hmax u hut
      · rw [if_neg hc] at h2
        cases h2
        refine ⟨List.Perm.refl _, ?_⟩
        intro u hu
        rcases List.mem_cons.mp hu with rfl | hut
        · exact le_refl _
        · exact le_trans (cmp_not_lt_cost s m hc) (hmax u hut)

/-- Helper: valid paths stay on the grid. -/
theorem PathTo_bounds (p : Day17.Puzzle) (hw : 0 < p.w) (hh : 0 < p.h) :
    ∀ x y v c, Day17.PathTo p x y v c → x < p.w ∧ y < p.h := by
  intro x y v c hp
  induction hp with
  | init v => exact ⟨hw, hh⟩
  | stepH x2 hp hcond ih =>
    rcases hcond with ⟨h1, _, _⟩ | ⟨h1, _, _, h4⟩ <;> omega
  | stepV y2 hp hcond ih =>
    rcases hcond with ⟨h1, _, _⟩ | ⟨h1, _, _, h4⟩ <;> omega

/-- Helper: peeling the first distance off an accumulated segment sum. -/
theorem sumSplit (g : Nat → Nat) (d dist : Nat) (h : d ≤ dist) :
    ((List.range' d (dist + 1 - d)).map g).sum
      = g d + ((List.range' (d + 1) (dist + 1 - (d + 1))).map g).sum := by
  have h2 : dist + 1 - d = (dist + 1 - (d + 1)) + 1 := by omega
  rw [h2, List.range'_succ, List.map_cons, List.sum_cons]

/-- Helper: membership in the leftward edge scan of `edges_h`. -/
theorem edgesGoLeft_mem (p : Day17.Puzzle) (x y : Nat) :
    ∀ (n d cost0 : Nat) (e : Day17.Edge),
      (e ∈ p.edgesGoLeft x y n d cost0 ↔
        ∃ dist, d ≤ dist ∧ dist < d + n ∧ dist ≤ x ∧ p.min_move ≤ dist ∧
          e = ⟨x - dist, y,
            cost0 + ((List.range' d (dist + 1 - d)).map fun i =>
              p.row_get (x - i) y).sum⟩) := by
  intro n
  induction n with
  | zero =>
    intro d cost0 e
    simp only [Day17.Puzzle.edgesGoLeft, List.not_mem_nil, false_iff]
    rintro ⟨dist, h1, h2, -, -, -⟩
    omega
  | succ n ih =>
    intro d cost0 e
    simp only [Day17.Puzzle.edgesGoLeft]
    by_cases hdx : d > x
    · rw [if_pos hdx]
      simp only [List.not_mem_nil, false_iff]
      rintro ⟨dist, h1, -, h3, -, -⟩
      omega
    · rw [if_neg hdx]
      by_cases hmin : p.min_move ≤ d
      · rw [if_pos hmin, List.mem_cons]
        constructor
        · rintro (rfl | hrest)
          · refine ⟨d, le_refl d, by omega, by omega, hmin, ?_⟩
            have h1 : d + 1 - d = 1 := by omega
            rw [h1]
            simp [List.range']
          · rcases (ih (d + 1) (cost0 + p.row_get (x - d) y) e).mp hrest with
              ⟨dist, hd1, hd2, hd3, hd4, hd5⟩
            refine ⟨dist, by omega, by omega, hd3, hd4, ?_⟩
            rw [hd5, sumSplit (fun i => p.row_get (x - i) y) d dist (by omega)]
            congr 1
            omega
        · rintro ⟨dist, hd1, hd2, hd3, hd4, rfl⟩
          by_cases hdd : dist = d
          · subst hdd
            left
            have h1 : dist + 1 - dist = 1 := by omega
            rw [h1]
            simp [List.range']
          · right
            rw [ih (d + 1) (cost0 + p.row_get (x - d) y)]
            refine ⟨dist, by omega, by omega, hd3, hd4, ?_⟩
            rw [sumSplit (fun i => p.row_get (x - i) y) d dist (by omega)]
            congr 1
            omega
      · rw [if_neg hmin, ih (d + 1) (cost0 + p.row_get (x - d) y)]
        constructor
        · rintro ⟨dist, hd1, hd2, hd3, hd4, rfl⟩
          refine ⟨dist, by omega, by omega, hd3, hd4, ?_⟩
          rw [sumSplit (fun i => p.row_get (x - i) y) d dist (by omega)]
          congr 1
          omega
        · rintro ⟨dist, hd1, hd2, hd3, hd4, rfl⟩
          refine ⟨dist, by omega, by omega, hd3, hd4, ?_⟩
          rw [sumSplit (fun i => p.row_get (x - i) y) d dist (by omega)]
          congr 1
          omega

/-- Helper: membership in the rightward edge scan of `edges_h`. -/
theorem edgesGoRight_mem (p : Day17.Puzzle) (x y : Nat) :
    ∀ (n d cost0 : Nat) (e : Day17.Edge),
      (e ∈ p.edgesGoRight x y n d cost0 ↔
        ∃ dist, d ≤ dist ∧ dist < d + n ∧ x + dist < p.w ∧ p.min_move ≤ dist ∧
          e = ⟨x + dist, y,
            cost0 + ((List.range' d (dist + 1 - d)).map fun i =>
              p.row_get (x + i) y).sum⟩) := by
  intro n
  induction n with
  | zero =>
    intro d cost0 e
    simp only [Day17.Puzzle.edgesGoRight, List.not_mem_nil, false_iff]
    rintro ⟨dist, h1, h2, -, -, -⟩
    omega
  | succ n ih =>
    intro d cost0 e
    simp only [Day17.Puzzle.edgesGoRight]
    by_cases hdx : x + d ≥ p.w
    · rw [if_pos hdx]
      simp only [List.not_mem_nil, false_iff]
      rintro ⟨dist, h1, -, h3, -, -⟩
      omega
    · rw [if_neg hdx]
      by_cases hmin : p.min_move ≤ d
      · rw [if_pos hmin, List.mem_cons]
        constructor
        · rintro (rfl | hrest)
          · refine ⟨d, le_refl d, by omega, by omega, hmin, ?_⟩
            have h1 : d + 1 - d = 1 := by omega
            rw [h1]
            simp [List.range']
          · rcases (ih (d + 1) (cost0 + p.row_get (x + d) y) e).mp hrest with
              ⟨dist, hd1, hd2, hd3, hd4, hd5⟩
            refine ⟨dist, by omega, by omega, hd3, hd4, ?_⟩
            rw [hd5, sumSplit (fun i => p.row_get (x + i) y) d dist (by omega)]
            congr 1
            omega
        · rintro ⟨dist, hd1, hd2, hd3, hd4, rfl⟩
          by_cases hdd : dist = d
          · subst hdd
            left
            have h1 : dist + 1 - dist = 1 := by omega
            rw [h1]
            simp [List.range']
          · right
            rw [ih (d + 1) (cost0 + p.row_get (x + d) y)]
            refine ⟨dist, by omega, by omega, hd3, hd4, ?_⟩
            rw [sumSplit (fun i => p.row_get (x + i) y) d dist (by omega)]
            congr 1
            omega
      · rw [if_neg hmin, ih (d + 1) (cost0 + p.row_get (x + d) y)]
        constructor
        · rintro ⟨dist, hd1, hd2, hd3, hd4, rfl⟩
          refine ⟨dist, by omega, by omega, hd3, hd4, ?_⟩
          rw [sumSplit (fun i => p.row_get (x + i) y) d dist (by omega)]
          congr 1
          omega
        · rintro ⟨dist, hd1, hd2, hd3, hd4, rfl⟩
          refine ⟨dist, by omega, by omega, hd3, hd4, ?_⟩
          rw [sumSplit (fun i => p.row_get (x + i) y) d dist (by omega)]
          congr 1
          omega

/-- Helper: membership in the upward edge scan of `edges_v`. -/
theorem edgesGoUp_mem (p : Day17.Puzzle) (x y : Nat) :
    ∀ (n d cost0 : Nat) (e : Day17.Edge),
      (e ∈ p.edgesGoUp x y n d cost0 ↔
        ∃ dist, d ≤ dist ∧ dist < d + n ∧ dist ≤ y ∧ p.min_move ≤ dist ∧
          e = ⟨x, y - dist,
            cost0 + ((List.range' d (dist + 1 - d)).map fun i =>
              p.row_get x (y - i)).sum⟩) := by
  intro n
  induction n with
  | zero =>
    intro d cost0 e
    simp only [Day17.Puzzle.edgesGoUp, List.not_mem_nil, false_iff]
    rintro ⟨dist, h1, h2, -, -, -⟩
    omega
  | succ n ih =>
    intro d cost0 e
    simp only [Day17.Puzzle.edgesGoUp]
    by_cases hdx : d > y
    · rw [if_pos hdx]
      simp only [List.not_mem_nil, false_iff]
      rintro ⟨dist, h1, -, h3, -, -⟩
      omega
    · rw [if_neg hdx]
      by_cases hmin : p.min_move ≤ d
      · rw [if_pos hmin, List.mem_cons]
        constructor
        · rintro (rfl | hrest)
          · refine ⟨d, le_refl d, by omega, by omega, hmin, ?_⟩
            have h1 : d + 1 - d = 1 := by omega
            rw [h1]
            simp [List.range']
          · rcases (ih (d + 1) (cost0 + p.row_get x (y - d)) e).mp hrest with
              ⟨dist, hd1, hd2, hd3, hd4, hd5⟩
            refine ⟨dist, by omega, by omega, hd3, hd4, ?_⟩
            rw [hd5, sumSplit (fun i => p.row_get x (y - i)) d dist (by omega)]
            congr 1
            omega
        · rintro ⟨dist, hd1, hd2, hd3, hd4, rfl⟩
          by_cases hdd : dist = d
          · subst hdd
            left
            have h1 : dist + 1 - dist = 1 := by omega
            rw [h1]
            simp [List.range']
          · right
            rw [ih (d + 1) (cost0 + p.row_get x (y - d))]
            refine ⟨dist, by omega, by omega, hd3, hd4, ?_⟩
            rw [sumSplit (fun i => p.row_get x (y - i)) d dist (by omega)]
            congr 1
            omega
      · rw [if_neg hmin, ih (d + 1) (cost0 + p.row_get x (y - d))]
        constructor
        · rintro ⟨dist, hd1, hd2, hd3, hd4, rfl⟩
          refine ⟨dist, by omega, by omega, hd3, hd4, ?_⟩
          rw [sumSplit (fun i => p.row_get x (y - i)) d dist (by omega)]
          congr 1
          omega
        · rintro ⟨dist, hd1, hd2, hd3, hd4, rfl⟩
          refine ⟨dist, by omega, by omega, hd3, hd4, ?_⟩
          rw [sumSplit (fun i => p.row_get x (y - i)) d dist (by omega)]
          congr 1
          omega

/-- Helper: membership in the downward edge scan of `edges_v`. -/
theorem edgesGoDown_mem (p : Day17.Puzzle) (x y : Nat) :
    ∀ (n d cost0 : Nat) (e : Day17.Edge),
      (e ∈ p.edgesGoDown x y n d cost0 ↔
        ∃ dist, d ≤ dist ∧ dist < d + n ∧ y + dist < p.h ∧ p.min_move ≤ dist ∧
          e = ⟨x, y + dist,
            cost0 + ((List.range' d (dist + 1 - d)).map fun i =>
              p.row_get x (y + i)).sum⟩) := by
  intro n
  induction n with
  | zero =>
    intro d cost0 e
    simp only [Day17.Puzzle.edgesGoDown, List.not_mem_nil, false_iff]
    rintro ⟨dist, h1, h2, -, -, -⟩
    omega
  | succ n ih =>
    intro d cost0 e
    simp only [Day17.Puzzle.edgesGoDown]
    by_cases hdx : y + d ≥ p.h
    · rw [if_pos hdx]
      simp only [List.not_mem_nil, false_iff]
      rintro ⟨dist, h1, -, h3, -, -⟩
      omega
    · rw [if_neg hdx]
      by_cases hmin : p.min_move ≤ d
      · rw [if_pos hmin, List.mem_cons]
        constructor
        · rintro (rfl | hrest)
          · refine ⟨d, le_refl d, by omega, by omega, hmin, ?_⟩
            have h1 : d + 1 - d = 1 := by omega
            rw [h1]
            simp [List.range']
          · rcases (ih (d + 1) (cost0 + p.row_get x (y + d)) e).mp hrest with
              ⟨dist, hd1, hd2, hd3, hd4, hd5⟩
            refine ⟨dist, by omega, by omega, hd3, hd4, ?_⟩
            rw [hd5, sumSplit (fun i => p.row_get x (y + i)) d dist (by omega)]
            congr 1
            omega
        · rintro ⟨dist, hd1, hd2, hd3, hd4, rfl⟩
          by_cases hdd : dist = d
          · subst hdd
            left
            have h1 : dist + 1 - dist = 1 := by omega
            rw [h1]
            simp [List.range']
          · right
            rw [ih (d + 1) (cost0 + p.row_get x (y + d))]
            refine ⟨dist, by omega, by omega, hd3, hd4, ?_⟩
            rw [sumSplit (fun i => p.row_get x (y + i)) d dist (by omega)]
            congr 1
            omega
      · rw [if_neg hmin, ih (d + 1) (cost0 + p.row_get x (y + d))]
        constructor
        · rintro ⟨dist, hd1, hd2, hd3, hd4, rfl⟩
          refine ⟨dist, by omega, by omega, hd3, hd4, ?_⟩
          rw [sumSplit (fun i => p.row_get x (y + i)) d dist (by omega)]
          congr 1
          omega
        · rintro ⟨dist, hd1, hd2, hd3, hd4, rfl⟩
          refine ⟨dist, by omega, by omega, hd3, hd4, ?_⟩
          rw [sumSplit (fun i => p.row_get x (y + i)) d dist (by omega)]
          congr 1
          omega

/-- Helper: reindexing a leftward digit sum to increasing cell order. -/
theorem sum_reindex_left (g : Nat → Nat) (x : Nat) :
    ∀ dist, dist ≤ x →
      ((List.range' 1 dist).map fun i => g (x - i)).sum
        = ((List.range' (x - dist) dist).map g).sum := by
  intro dist
  induction dist with
  | zero => intro _; rfl
  | succ n ih =>
    intro h
    rw [List.range'_concat, List.map_append, List.sum_append]
    have h3 : x - (n + 1) + 1 = x - n := by omega
    rw [List.range'_succ, h3, List.map_cons, List.sum_cons, ih (by omega)]
    simp only [List.map_cons, List.map_nil, List.sum_cons, List.sum_nil, one_mul]
    have h4 : 1 + n = n + 1 := by omega
    rw [h4]
    omega

/-- Helper: reindexing a rightward digit sum. -/
theorem sum_reindex_right (g : Nat → Nat) (x : Nat) (dist : Nat) :
    ((List.range' 1 dist).map fun i => g (x + i)).sum
      = ((List.range' (x + 1) dist).map g).sum := by
  have h1 : ((List.range' 1 dist).map fun i => x + i) = List.range' (x + 1) dist := by
    simp
  rw [← h1, List.map_map]
  rfl

/-- Helper: the scanned leftward cost equals the claim's segment cost. -/
theorem hSegCost_left (p : Day17.Puzzle) (x y dist : Nat)
    (h1 : 1 ≤ dist) (h3 : dist ≤ x) :
    0 + ((List.range' 1 (dist + 1 - 1)).map fun i => p.row_get (x - i) y).sum
      = Day17.hSegCost p x (x - dist) y := by
  have h2 : dist + 1 - 1 = dist := by omega
  rw [h2, sum_reindex_left (fun t => p.row_get t y) x dist h3]
  unfold Day17.hSegCost
  rw [if_neg (by omega)]
  have h4 : x - (x - dist) = dist := by omega
  rw [h4]
  omega

/-- Helper: the scanned rightward cost equals the claim's segment cost. -/
theorem hSegCost_right (p : Day17.Puzzle) (x y dist : Nat) :
    0 + ((List.range' 1 (dist + 1 - 1)).map fun i => p.row_get (x + i) y).sum
      = Day17.hSegCost p x (x + dist) y := by
  have h2 : dist + 1 - 1 = dist := by omega
  rw [h2, sum_reindex_right (fun t => p.row_get t y) x dist]
  unfold Day17.hSegCost
  rw [if_pos (by omega)]
  have h4 : x + dist - x = dist := by omega
  rw [h4]
  omega

/-- Helper: the scanned upward cost equals the claim's segment cost. -/
theorem vSegCost_up (p : Day17.Puzzle) (x y dist : Nat)
    (h1 : 1 ≤ dist) (h3 : dist ≤ y) :
    0 + ((List.range' 1 (dist + 1 - 1)).map fun i => p.row_get x (y - i)).sum
      = Day17.vSegCost p y (y - dist) x := by
  have h2 : dist + 1 - 1 = dist := by omega
  rw [h2, sum_reindex_left (fun t => p.row_get x t) y dist h3]
  unfold Day17.vSegCost
  rw [if_neg (by omega)]
  have h4 : y - (y - dist) = dist := by omega
  rw [h4]
  omega

/-- Helper: the scanned downward cost equals the claim's segment cost. -/
theorem vSegCost_down (p : Day17.Puzzle) (x y dist : Nat) :
    0 + ((List.range' 1 (dist + 1 - 1)).map fun i => p.row_get x (y + i)).sum
      = Day17.vSegCost p y (y + dist) x := by
  have h2 : dist + 1 - 1 = dist := by omega
  rw [h2, sum_reindex_right (fun t => p.row_get x t) y dist]
  unfold Day17.vSegCost
  rw [if_pos (by omega)]
  have h4 : y + dist - y = dist := by omega
  rw [h4]
  omega

/-- Helper: membership in `edges_h` matches the claim's horizontal
segments. -/
theorem edges_h_mem (p : Day17.Puzzle) (x y : Nat) (e : Day17.Edge) :
    e ∈ p.edges_h x y ↔
      ∃ x2, (x2 < x ∧ p.min_move ≤ x - x2 ∧ x - x2 ≤ p.max_move ∨
          x < x2 ∧ p.min_move ≤ x2 - x ∧ x2 - x ≤ p.max_move ∧ x2 < p.w) ∧
        e = ⟨x2, y, Day17.hSegCost p x x2 y⟩ := by
  unfold Day17.Puzzle.edges_h
  rw [List.mem_append, edgesGoLeft_mem, edgesGoRight_mem]
  constructor
  · rintro (⟨dist, h1, h2, h3, h4, rfl⟩ | ⟨dist, h1, h2, h3, h4, rfl⟩)
    · refine ⟨x - dist, Or.inl ⟨by omega, by omega, by omega⟩, ?_⟩
      rw [hSegCost_left p x y dist (by omega) h3]
    · refine ⟨x + dist, Or.inr ⟨by omega, by omega, by omega, h3⟩, ?_⟩
      rw [hSegCost_right p x y dist]
  · rintro ⟨x2, hcond | hcond, rfl⟩
    · left
      refine ⟨x - x2, by omega, by omega, by omega, by omega, ?_⟩
      rw [hSegCost_left p x y (x - x2) (by omega) (by omega)]
      have h4 : x - (x - x2) = x2 := by omega
      rw [h4]
    · right
      refine ⟨x2 - x, by omega, by omega, by omega, by omega, ?_⟩
      rw [hSegCost_right p x y (x2 - x)]
      have h4 : x + (x2 - x) = x2 := by omega
      rw [h4]

/-- Helper: membership in `edges_v` matches the claim's vertical
segments. -/
theorem edges_v_mem (p : Day17.Puzzle) (x y : Nat) (e : Day17.Edge) :
    e ∈ p.edges_v x y ↔
      ∃ y2, (y2 < y ∧ p.min_move ≤ y - y2 ∧ y - y2 ≤ p.max_move ∨
          y < y2 ∧ p.min_move ≤ y2 - y ∧ y2 - y ≤ p.max_move ∧ y2 < p.h) ∧
        e = ⟨x, y2, Day17.vSegCost p y y2 x⟩ := by
  unfold Day17.Puzzle.edges_v
  rw [List.mem_append, edgesGoUp_mem, edgesGoDown_mem]
  constructor
  · rintro (⟨dist, h1, h2, h3, h4, rfl⟩ | ⟨dist, h1, h2, h3, h4, rfl⟩)
    · refine ⟨y - dist, Or.inl ⟨by omega, by omega, by omega⟩, ?_⟩
      rw [vSegCost_up p x y dist (by omega) h3]
    · refine ⟨y + dist, Or.inr ⟨by omega, by omega, by omega, h3⟩, ?_⟩
      rw [vSegCost_down p x y dist]
  · rintro ⟨y2, hcond | hcond, rfl⟩
    · left
      refine ⟨y - y2, by omega, by omega, by omega, by omega, ?_⟩
      rw [vSegCost_up p x y (y - y2) (by omega) (by omega)]
      have h4 : y - (y - y2) = y2 := by omega
      rw [h4]
    · right
      refine ⟨y2 - y, by omega, by omega, by omega, by omega, ?_⟩
      rw [vSegCost_down p x y (y2 - y)]
      have h4 : y + (y2 - y) = y2 := by omega
      rw [h4]

/-- Helper: reading a list out of bounds gives the default. -/
theorem getD_oob {α : Type} (l : List α) (n : Nat) (d : α) (h : l.length ≤ n) :
    l.getD n d = d := by
  rw [List.getD_eq_getElem?_getD, List.getElem?_eq_none (by omega)]
  rfl

/-- Helper: every grid read is a digit value at most 9. -/
theorem row_get_le9 (p : Day17.Puzzle)
    (hdig : ∀ r ∈ p.rows, ∀ v ∈ r, v ≤ 9) (x y : Nat) :
    p.row_get x y ≤ 9 := by
  unfold Day17.Puzzle.row_get
  by_cases hx : x < (p.rows.getD y []).length
  · rw [List.getD_eq_getElem _ 0 hx]
    by_cases hy : y < p.rows.length
    · refine hdig _ ?_ _ (List.getElem_mem hx)
      rw [List.getD_eq_getElem p.rows [] hy]
      exact List.getElem_mem hy
    · have hempty : p.rows.getD y [] = [] := getD_oob _ _ _ (by omega)
      rw [hempty] at hx
      simp at hx
  · rw [getD_oob _ _ _ (by omega)]
    omega

/-- Helper: a horizontal segment of length at most `max_move` costs at most
`9 * max_move`. -/
theorem hSegCost_le (p : Day17.Puzzle)
    (hdig : ∀ r ∈ p.rows, ∀ v ∈ r, v ≤ 9) (x x2 y : Nat)
    (h : (x2 < x ∧ x - x2 ≤ p.max_move) ∨ (x ≤ x2 ∧ x2 - x ≤ p.max_move)) :
    Day17.hSegCost p x x2 y ≤ 9 * p.max_move := by
  unfold Day17.hSegCost
  by_cases hle : x ≤ x2
  · rw [if_pos hle]
    calc ((List.range' (x + 1) (x2 - x)).map fun t => p.row_get t y).sum
        ≤ ((List.range' (x + 1) (x2 - x)).map fun t => p.row_get t y).length * 9 := by
          have h9 := List.sum_le_card_nsmul
            ((List.range' (x + 1) (x2 - x)).map fun t => p.row_get t y) 9 ?_
          · rw [smul_eq_mul] at h9
            exact h9
          · intro u hu
            obtain ⟨t, _, rfl⟩ := List.mem_map.mp hu
            exact row_get_le9 p hdig t y
      _ ≤ 9 * p.max_move := by
          rw [List.length_map, List.length_range']
          rcases h with ⟨h1, _⟩ | ⟨_, h2⟩
          · omega
          · omega
  · rw [if_neg hle]
    calc ((List.range' x2 (x - x2)).map fun t => p.row_get t y).sum
        ≤ ((List.range' x2 (x - x2)).map fun t => p.row_get t y).length * 9 := by
          have h9 := List.sum_le_card_nsmul
            ((List.range' x2 (x - x2)).map fun t => p.row_get t y) 9 ?_
          · rw [smul_eq_mul] at h9
            exact h9
          · intro u hu
            obtain ⟨t, _, rfl⟩ := List.mem_map.mp hu
            exact row_get_le9 p hdig t y
      _ ≤ 9 * p.max_move := by
          rw [List.length_map, List.length_range']
          rcases h with ⟨_, h1⟩ | ⟨h2, _⟩
          · omega
          · omega

/-- Helper: a vertical segment of length at most `max_move` costs at most
`9 * max_move`. -/
theorem vSegCost_le (p : Day17.Puzzle)
    (hdig : ∀ r ∈ p.rows, ∀ v ∈ r, v ≤ 9) (y y2 x : Nat)
    (h : (y2 < y ∧ y - y2 ≤ p.max_move) ∨ (y ≤ y2 ∧ y2 - y ≤ p.max_move)) :
    Day17.vSegCost p y y2 x ≤ 9 * p.max_move := by
  unfold Day17.vSegCost
  by_cases hle : y ≤ y2
  · rw [if_pos hle]
    calc ((List.range' (y + 1) (y2 - y)).map fun t => p.row_get x t).sum
        ≤ ((List.range' (y + 1) (y2 - y)).map fun t => p.row_get x t).length * 9 := by
          have h9 := List.sum_le_card_nsmul
            ((List.range' (y + 1) (y2 - y)).map fun t => p.row_get x t) 9 ?_
          · rw [smul_eq_mul] at h9
            exact h9
          · intro u hu
            obtain ⟨t, _, rfl⟩ := List.mem_map.mp hu
            exact row_get_le9 p hdig x t
      _ ≤ 9 * p.max_move := by
          rw [List.length_map, List.length_range']
          rcases h with ⟨h1, _⟩ | ⟨_, h2⟩
          · omega
          · omega
  · rw [if_neg hle]
    calc ((List.range' y2 (y - y2)).map fun t => p.row_get x t).sum
        ≤ ((List.range' y2 (y - y2)).map fun t => p.row_get x t).length * 9 := by
          have h9 := List.sum_le_card_nsmul
            ((List.range' y2 (y - y2)).map fun t => p.row_get x t) 9 ?_
          · rw [smul_eq_mul] at h9
            exact h9
          · intro u hu
            obtain ⟨t, _, rfl⟩ := List.mem_map.mp hu
            exact row_get_le9 p hdig x t
      _ ≤ 9 * p.max_move := by
          rw [List.length_map, List.length_range']
          rcases h with ⟨_, h1⟩ | ⟨h2, _⟩
          · omega
          · omega

/-- Helper: one improving step of the relaxation fold. -/
theorem relax_cons_true (p : Day17.Puzzle) (vf : Bool) (C : Nat)
    (e : Day17.Edge) (es : List Day17.Edge) (dist : List (List (Option Nat)))
    (heap : List Day17.State)
    (hg : Day17.ltDist (C + e.cost) (Day17.getDist dist e.x e.y) = true) :
    Day17.relax (e :: es) vf C dist heap
      = Day17.relax es vf C (Day17.setDist dist e.x e.y (C + e.cost))
          (⟨e.x, e.y, C + e.cost, vf⟩ :: heap) := by
  unfold Day17.relax
  rw [List.foldl_cons]
  congr 1
  simp [hg]

/-- Helper: one non-improving step of the relaxation fold. -/
theorem relax_cons_false (p : Day17.Puzzle) (vf : Bool) (C : Nat)
    (e : Day17.Edge) (es : List Day17.Edge) (dist : List (List (Option Nat)))
    (heap : List Day17.State)
    (hg : Day17.ltDist (C + e.cost) (Day17.getDist dist e.x e.y) = false) :
    Day17.relax (e :: es) vf C dist heap = Day17.relax es vf C dist heap := by
  unfold Day17.relax
  rw [List.foldl_cons]
  congr 1
  simp [hg]

/-- Helper: a table write can only increase the reached-entry count. -/
theorem countSome_set_ge (d : List (List (Option Nat))) (x y v : Nat)
    (hy : y < d.length) (hx : x < (d.getD y []).length) :
    Day17.countSome d ≤ Day17.countSome (Day17.setDist d x y v) := by
  have h := tableSum_set (fun e => match e with | none => 0 | some _ => 1) d x y v hy hx
  unfold Day17.countSome
  rcases hold : Day17.getDist d x y with _ | c0 <;> rw [hold] at h <;> simp at h <;> omega

/-- Helper: a table write on an unreached entry increments the count. -/
theorem countSome_set_none (d : List (List (Option Nat))) (x y v : Nat)
    (hy : y < d.length) (hx : x < (d.getD y []).length)
    (hold : Day17.getDist d x y = none) :
    Day17.countSome (Day17.setDist d x y v) = Day17.countSome d + 1 := by
  have h := tableSum_set (fun e => match e with | none => 0 | some _ => 1) d x y v hy hx
  rw [hold] at h
  unfold Day17.countSome
  simp at h
  omega


/-- Helper: the potential after a table write. -/
theorem phiTable_set (M : Nat) (d : List (List (Option Nat))) (x y v : Nat)
    (hy : y < d.length) (hx : x < (d.getD y []).length) :
    Day17.phiTable M (Day17.setDist d x y v)
        + (match Day17.getDist d x y with | none => M + 2 | some c => c + 1)
      = Day17.phiTable M d + (v + 1) := by
  unfold Day17.phiTable
  exact tableSum_set (fun en => match en with | none => M + 2 | some c => c + 1)
    d x y v hy hx

/-- Helper: an improving write of a value within the bound strictly drops
the potential. -/
theorem phi_drop (M : Nat) (d : List (List (Option Nat))) (x y v : Nat)
    (hy : y < d.length) (hx : x < (d.getD y []).length) (hvM : v ≤ M)
    (hguard : Day17.ltDist v (Day17.getDist d x y) = true) :
    Day17.phiTable M (Day17.setDist d x y v) + 1 ≤ Day17.phiTable M d := by
  have hts := phiTable_set M d x y v hy hx
  rcases h0 : Day17.getDist d x y with _ | c0 <;> rw [h0] at hts
  · have hts2 : Day17.phiTable M (Day17.setDist d x y v) + (M + 2)
        = Day17.phiTable M d + (v + 1) := hts
    omega
  · have hts2 : Day17.phiTable M (Day17.setDist d x y v) + (c0 + 1)
        = Day17.phiTable M d + (v + 1) := hts
    rw [h0] at hguard
    unfold Day17.ltDist at hguard
    simp at hguard
    omega

/-- Helper: full specification of the relaxation loop: shape preservation,
provenance of every entry, monotone decrease, heap growth, relaxedness of
every edge, the potential accounting and the value bounds. -/
theorem relax_spec (p : Day17.Puzzle) (vf : Bool) (C : Nat) (J : Nat)
    (hJ : J ≤ p.w * p.h) :
    ∀ (edges : List Day17.Edge) (dist : List (List (Option Nat)))
      (heap : List Day17.State),
      dist.length = p.h → (∀ r ∈ dist, r.length = p.w) →
      (∀ e ∈ edges, e.x < p.w ∧ e.y < p.h ∧ e.cost ≤ 9 * p.max_move) →
      C ≤ 9 * p.max_move * (Day17.countSome dist + J) →
      (∀ a b c, Day17.getDist dist a b = some c →
        c ≤ 9 * p.max_move * (Day17.countSome dist + J)) →
      ∀ rd rh, Day17.relax edges vf C dist heap = (rd, rh) →
      (rd.length = p.h ∧ ∀ r ∈ rd, r.length = p.w) ∧
      (∀ a b c, Day17.getDist rd a b = some c →
        Day17.getDist dist a b = some c ∨
        (∃ e ∈ edges, a = e.x ∧ b = e.y ∧ c = C + e.cost ∧
          (⟨e.x, e.y, C + e.cost, vf⟩ : Day17.State) ∈ rh)) ∧
      (∀ a b c0, Day17.getDist dist a b = some c0 →
        ∃ c1, Day17.getDist rd a b = some c1 ∧ c1 ≤ c0) ∧
      (∀ s ∈ heap, s ∈ rh) ∧
      (∀ s ∈ rh, s ∈ heap ∨ ∃ e ∈ edges, s = ⟨e.x, e.y, C + e.cost, vf⟩) ∧
      (∀ e ∈ edges, ∃ c2, Day17.getDist rd e.x e.y = some c2 ∧ c2 ≤ C + e.cost) ∧
      (Day17.phiTable (9 * p.max_move * (2 * p.w * p.h)) rd + rh.length
        ≤ Day17.phiTable (9 * p.max_move * (2 * p.w * p.h)) dist + heap.length) ∧
      (Day17.countSome dist ≤ Day17.countSome rd) ∧
      (∀ a b c, Day17.getDist rd a b = some c →
        c ≤ 9 * p.max_move * (Day17.countSome rd + J)) ∧
      (∀ s ∈ rh, s ∈ heap ∨ s.cost ≤ 9 * p.max_move * (2 * p.w * p.h)) := by
  intro edges
  induction edges with
  | nil =>
    intro dist heap hsh1 hsh2 hedges hC hvalb rd rh heq
    have heq2 : (dist, heap) = (rd, rh) := heq
    cases heq2
    refine ⟨⟨hsh1, hsh2⟩, ?_, ?_, ?_, ?_, ?_, le_refl _, le_refl _, hvalb, ?_⟩
    · intro a b c h
      exact Or.inl h
    · intro a b c0 h
      exact ⟨c0, h, le_refl c0⟩
    · intro s hs
      exact hs
    · intro s hs
      exact Or.inl hs
    · intro e he
      cases he
    · intro s hs
      exact Or.inl hs
  | cons e es ih =>
    intro dist heap hsh1 hsh2 hedges hC hvalb rd rh heq
    have he0 := hedges e (List.mem_cons_self e es)
    have hyd : e.y < dist.length := by omega
    have hxd : e.x < (dist.getD e.y []).length := by
      rw [List.getD_eq_getElem dist [] hyd]
      rw [hsh2 _ (List.getElem_mem hyd)]
      exact he0.1
    rcases hguard : Day17.ltDist (C + e.cost) (Day17.getDist dist e.x e.y) with _ | _
    · -- non-improving: the entry is already at most the candidate
      rw [relax_cons_false p vf C e es dist heap hguard] at heq
      have hold : ∃ c0, Day17.getDist dist e.x e.y = some c0 ∧ c0 ≤ C + e.cost := by
        rcases h0 : Day17.getDist dist e.x e.y with _ | c0
        · rw [h0] at hguard
          cases hguard
        · rw [h0] at hguard
          refine ⟨c0, rfl, ?_⟩
          unfold Day17.ltDist at hguard
          simp at hguard
          exact hguard
      obtain ⟨R1, R2, R3, R4, R5, R6, R7, R8, R9, R10⟩ :=
        ih dist heap hsh1 hsh2
          (fun u hu => hedges u (List.mem_cons_of_mem e hu)) hC hvalb rd rh heq
      refine ⟨R1, ?_, R3, R4, ?_, ?_, R7, R8, R9, R10⟩
      · intro a b c h
        rcases R2 a b c h with h1 | ⟨e2, he2, h2⟩
        · exact Or.inl h1
        · exact Or.inr ⟨e2, List.mem_cons_of_mem e he2, h2⟩
      · intro s hs
        rcases R5 s hs with h1 | ⟨e2, he2, h2⟩
        · exact Or.inl h1
        · exact Or.inr ⟨e2, List.mem_cons_of_mem e he2, h2⟩
      · intro e2 he2
        rcases List.mem_cons.mp he2 with rfl | h2
        · obtain ⟨c0, hc0, hc0le⟩ := hold
          obtain ⟨c1, hc1, hc1le⟩ := R3 e2.x e2.y c0 hc0
          exact ⟨c1, hc1, le_trans hc1le hc0le⟩
        · exact R6 e2 h2
    · -- improving: set the entry and push the state
      rw [relax_cons_true p vf C e es dist heap hguard] at heq
      have hcntwh : Day17.countSome dist ≤ p.w * p.h := by
        rw [Nat.mul_comm]
        exact countSome_le dist p.h p.w hsh1 hsh2
      have h2wh : 2 * p.w * p.h = p.w * p.h + p.w * p.h := by ring
      have hvM : C + e.cost ≤ 9 * p.max_move * (2 * p.w * p.h) := by
        rcases h0 : Day17.getDist dist e.x e.y with _ | c0
        · have hlt := countSome_lt dist p.h p.w e.x e.y hsh1 hsh2 he0.1
            (by omega) h0
          rw [Nat.mul_comm p.h p.w] at hlt
          have hstep : C + e.cost ≤ 9 * p.max_move * (Day17.countSome dist + J)
              + 9 * p.max_move := by omega
          have hr : 9 * p.max_move * (Day17.countSome dist + J) + 9 * p.max_move
              = 9 * p.max_move * (Day17.countSome dist + J + 1) := by ring
          rw [hr] at hstep
          refine le_trans hstep (Nat.mul_le_mul_left _ ?_)
          rw [h2wh]
          omega
        · rw [h0] at hguard
          unfold Day17.ltDist at hguard
          simp at hguard
          have hb := hvalb e.x e.y c0 h0
          have hmono : 9 * p.max_move * (Day17.countSome dist + J)
              ≤ 9 * p.max_move * (2 * p.w * p.h) := by
            refine Nat.mul_le_mul_left _ ?_
            rw [h2wh]
            omega
          omega
      have hshape1 := setDist_shape dist e.x e.y (C + e.cost) p.h p.w hsh1 hsh2
        (by omega)
      have hcntge := countSome_set_ge dist e.x e.y (C + e.cost) hyd hxd
      have hvalb1 : ∀ a b c,
          Day17.getDist (Day17.setDist dist e.x e.y (C + e.cost)) a b = some c →
          c ≤ 9 * p.max_move
            * (Day17.countSome (Day17.setDist dist e.x e.y (C + e.cost)) + J) := by
        intro a b c h
        by_cases hab : a = e.x ∧ b = e.y
        · rw [hab.1, hab.2, getDist_set_same dist e.x e.y (C + e.cost) hyd hxd] at h
          cases h
          rcases h0 : Day17.getDist dist e.x e.y with _ | c0
          · have hcnt1 := countSome_set_none dist e.x e.y (C + e.cost) hyd hxd h0
            have hstep : C + e.cost ≤ 9 * p.max_move * (Day17.countSome dist + J)
                + 9 * p.max_move := by omega
            have hr : 9 * p.max_move * (Day17.countSome dist + J) + 9 * p.max_move
                = 9 * p.max_move * (Day17.countSome dist + 1 + J) := by ring
            rw [hr] at hstep
            rw [hcnt1]
            exact hstep
          · rw [h0] at hguard
            unfold Day17.ltDist at hguard
            simp at hguard
            have hb := hvalb e.x e.y c0 h0
            have hmono : 9 * p.max_move * (Day17.countSome dist + J)
                ≤ 9 * p.max_move
                  * (Day17.countSome (Day17.setDist dist e.x e.y (C + e.cost)) + J) := by
              refine Nat.mul_le_mul_left _ ?_
              omega
            omega
        · rw [getDist_set_ne dist e.x e.y (C + e.cost) a b hab] at h
          have hb := hvalb a b c h
          have hmono : 9 * p.max_move * (Day17.countSome dist + J)
              ≤ 9 * p.max_move
                * (Day17.countSome (Day17.setDist dist e.x e.y (C + e.cost)) + J) := by
            refine Nat.mul_le_mul_left _ ?_
            omega
          omega
      obtain ⟨R1, R2, R3, R4, R5, R6, R7, R8, R9, R10⟩ :=
        ih (Day17.setDist dist e.x e.y (C + e.cost))
          (⟨e.x, e.y, C + e.cost, vf⟩ :: heap) hshape1.1 hshape1.2
          (fun u hu => hedges u (List.mem_cons_of_mem e hu))
          (le_trans hC (Nat.mul_le_mul_left _ (by omega))) hvalb1 rd rh heq
      have hphi1 : Day17.phiTable (9 * p.max_move * (2 * p.w * p.h))
            (Day17.setDist dist e.x e.y (C + e.cost))
            + (⟨e.x, e.y, C + e.cost, vf⟩ :: heap).length
          ≤ Day17.phiTable (9 * p.max_move * (2 * p.w * p.h)) dist
            + heap.length := by
        have hd := phi_drop (9 * p.max_move * (2 * p.w * p.h)) dist e.x e.y
          (C + e.cost) hyd hxd hvM hguard
        simp only [List.length_cons]
        omega
      refine ⟨R1, ?_, ?_, ?_, ?_, ?_, le_trans R7 hphi1, le_trans hcntge R8, R9, ?_⟩
      · intro a b c h
        rcases R2 a b c h with h1 | ⟨e2, he2, h2⟩
        · by_cases hab : a = e.x ∧ b = e.y
          · rw [hab.1, hab.2, getDist_set_same dist e.x e.y (C + e.cost) hyd hxd] at h1
            cases h1
            refine Or.inr ⟨e, List.mem_cons_self e es, hab.1, hab.2, rfl, ?_⟩
            exact R4 _ (List.mem_cons_self _ _)
          · rw [getDist_set_ne dist e.x e.y (C + e.cost) a b hab] at h1
            exact Or.inl h1
        · exact Or.inr ⟨e2, List.mem_cons_of_mem e he2, h2⟩
      · intro a b c0 h
        by_cases hab : a = e.x ∧ b = e.y
        · rw [hab.1, hab.2] at h
          rcases h1 : Day17.getDist dist e.x e.y with _ | c1
          · rw [h1] at h
            cases h
          · rw [h1] at h
            cases h
            rw [h1] at hguard
            unfold Day17.ltDist at hguard
            simp at hguard
            obtain ⟨c2, hc2, hc2le⟩ := R3 e.x e.y (C + e.cost)
              (getDist_set_same dist e.x e.y (C + e.cost) hyd hxd)
            refine ⟨c2, ?_, by omega⟩
            rw [hab.1, hab.2]
            exact hc2
        · obtain ⟨c2, hc2, hc2le⟩ := R3 a b c0
            (by rw [getDist_set_ne dist e.x e.y (C + e.cost) a b hab]; exact h)
          exact ⟨c2, hc2, hc2le⟩
      · intro s hs
        exact R4 s (List.mem_cons_of_mem _ hs)
      · intro s hs
        rcases R5 s hs with h1 | ⟨e2, he2, h2⟩
        · rcases List.mem_cons.mp h1 with rfl | h3
          · exact Or.inr ⟨e, List.mem_cons_self e es, rfl⟩
          · exact Or.inl h3
        · exact Or.inr ⟨e2, List.mem_cons_of_mem e he2, h2⟩
      · intro e2 he2
        rcases List.mem_cons.mp he2 with rfl | h2
        · obtain ⟨c2, hc2, hc2le⟩ := R3 e2.x e2.y (C + e2.cost)
            (getDist_set_same dist e2.x e2.y (C + e2.cost) hyd hxd)
          exact ⟨c2, hc2, hc2le⟩
        · exact R6 e2 h2
      · intro s hs
        rcases R10 s hs with h1 | h2
        · rcases List.mem_cons.mp h1 with rfl | h3
          · exact Or.inr hvM
          · exact Or.inl h3
        · exact Or.inr h2

/-- Helper: along any valid path, either the heap holds a state no costlier
than the path, or the endpoint entry is at most the path cost. -/
theorem path_frontier (p : Day17.Puzzle) (dist_h dist_v : List (List (Option Nat)))
    (heap : List Day17.State) (hInv : Day17.Inv p dist_h dist_v heap) :
    ∀ x y (vert : Bool) c, Day17.PathTo p x y vert c →
      (∃ s ∈ heap, s.cost ≤ c) ∨
      (∃ cv, Day17.getDist (if vert then dist_v else dist_h) x y = some cv ∧
        cv ≤ c) := by
  intro x y vert c hp
  induction hp with
  | init vert =>
    right
    cases vert
    · exact ⟨0, hInv.origin_h, le_refl 0⟩
    · exact ⟨0, hInv.origin_v, le_refl 0⟩
  | @stepH x y c x2 hp hcond ih =>
    rcases ih with ⟨s, hs, hle⟩ | ⟨cv, hcv, hcvle⟩
    · exact Or.inl ⟨s, hs, le_trans hle (Nat.le_add_right _ _)⟩
    · rcases hInv.entry_live true x y cv hcv with
        ⟨s, hs, hsx, hsy, hsv, hsc⟩ | ⟨-, hexp⟩
      · refine Or.inl ⟨s, hs, ?_⟩
        rw [hsc]
        exact le_trans hcvle (Nat.le_add_right _ _)
      · have hmem : (⟨x2, y, Day17.hSegCost p x x2 y⟩ : Day17.Edge)
            ∈ p.edges_h x y := (edges_h_mem p x y _).mpr ⟨x2, hcond, rfl⟩
        obtain ⟨c2, hc2, hc2le⟩ := hexp _ hmem
        right
        refine ⟨c2, hc2, ?_⟩
        have hc2le2 : c2 ≤ cv + Day17.hSegCost p x x2 y := hc2le
        omega
  | @stepV x y c y2 hp hcond ih =>
    rcases ih with ⟨s, hs, hle⟩ | ⟨cv, hcv, hcvle⟩
    · exact Or.inl ⟨s, hs, le_trans hle (Nat.le_add_right _ _)⟩
    · rcases hInv.entry_live false x y cv hcv with
        ⟨s, hs, hsx, hsy, hsv, hsc⟩ | ⟨-, hexp⟩
      · refine Or.inl ⟨s, hs, ?_⟩
        rw [hsc]
        exact le_trans hcvle (Nat.le_add_right _ _)
      · have hmem : (⟨x, y2, Day17.vSegCost p y y2 x⟩ : Day17.Edge)
            ∈ p.edges_v x y := (edges_v_mem p x y _).mpr ⟨y2, hcond, rfl⟩
        obtain ⟨c2, hc2, hc2le⟩ := hexp _ hmem
        right
        refine ⟨c2, hc2, ?_⟩
        have hc2le2 : c2 ≤ cv + Day17.vSegCost p y y2 x := hc2le
        omega

/-- Helper: with the invariant, any valid path to the goal cell has a heap
state at most its cost. -/
theorem goal_frontier (p : Day17.Puzzle)
    (dist_h dist_v : List (List (Option Nat))) (heap : List Day17.State)
    (hInv : Day17.Inv p dist_h dist_v heap)
    (vg : Bool) (cg : Nat)
    (hg : Day17.PathTo p (p.w - 1) (p.h - 1) vg cg) :
    ∃ s ∈ heap, s.cost ≤ cg := by
  rcases path_frontier p dist_h dist_v heap hInv _ _ vg cg hg with
    ⟨s, hs, hle⟩ | ⟨cv, hcv, hcvle⟩
  · exact ⟨s, hs, hle⟩
  · rcases hInv.entry_live vg _ _ cv hcv with
      ⟨s, hs, hsx, hsy, hsv, hsc⟩ | ⟨hng, -⟩
    · exact ⟨s, hs, by omega⟩
    · exact absurd ⟨rfl, rfl⟩ hng

/-- Helper: processing a popped vertically entered non-goal state (relaxing
its horizontal edges into the horizontal table) preserves the invariant and
decreases the potential-plus-heap measure. -/
theorem step_preserve_v (p : Day17.Puzzle) (hw : 0 < p.w) (hh : 0 < p.h)
    (hdig : ∀ r ∈ p.rows, ∀ v ∈ r, v ≤ 9)
    (s : Day17.State) (heap heap2 : List Day17.State)
    (dist_h dist_v : List (List (Option Nat)))
    (hInv : Day17.Inv p dist_h dist_v heap) (hperm : heap.Perm (s :: heap2))
    (hvert : s.vertical = true)
    (hnotgoal : ¬(s.x = p.w - 1 ∧ s.y = p.h - 1))
    (hc : Day17.getDist dist_v s.x s.y = some s.cost)
    (rd : List (List (Option Nat))) (rh : List Day17.State)
    (hrel : Day17.relax (p.edges_h s.x s.y) false s.cost dist_h heap2
      = (rd, rh)) :
    Day17.Inv p rd dist_v rh ∧
      Day17.phiTable (9 * p.max_move * (2 * p.w * p.h)) rd + rh.length
        ≤ Day17.phiTable (9 * p.max_move * (2 * p.w * p.h)) dist_h
          + heap2.length := by
  have hsheap : s ∈ heap := hperm.mem_iff.mpr (List.mem_cons_self _ _)
  have hmem2 : ∀ u ∈ heap2, u ∈ heap :=
    fun u hu => hperm.mem_iff.mpr (List.mem_cons_of_mem _ hu)
  have hpath_s : Day17.PathTo p s.x s.y true s.cost := by
    have h0 := hInv.heap_sound s hsheap
    rw [hvert] at h0
    exact h0
  have hsb := PathTo_bounds p hw hh s.x s.y true s.cost hpath_s
  have hedgef : ∀ e ∈ p.edges_h s.x s.y,
      e.x < p.w ∧ e.y < p.h ∧ e.cost ≤ 9 * p.max_move ∧
        Day17.PathTo p e.x e.y false (s.cost + e.cost) := by
    intro e he
    obtain ⟨x2, hcond, rfl⟩ := (edges_h_mem p s.x s.y e).mp he
    refine ⟨?_, ?_, ?_, ?_⟩
    · show x2 < p.w
      rcases hcond with ⟨h1, -, -⟩ | ⟨-, -, -, h4⟩
      · omega
      · exact h4
    · exact hsb.2
    · refine hSegCost_le p hdig s.x x2 s.y ?_
      rcases hcond with ⟨h1, h2, h3⟩ | ⟨h1, h2, h3, h4⟩
      · exact Or.inl ⟨h1, h3⟩
      · exact Or.inr ⟨by omega, h3⟩
    · exact Day17.PathTo.stepH x2 hpath_s hcond
  have hJ : Day17.countSome dist_v ≤ p.w * p.h := by
    rw [Nat.mul_comm]
    exact countSome_le dist_v p.h p.w hInv.shape_v.1 hInv.shape_v.2
  have hC : s.cost ≤ 9 * p.max_move
      * (Day17.countSome dist_h + Day17.countSome dist_v) :=
    hInv.val_bound true s.x s.y s.cost hc
  obtain ⟨R1, R2, R3, R4, R5, R6, R7, R8, R9, R10⟩ :=
    relax_spec p false s.cost (Day17.countSome dist_v) hJ (p.edges_h s.x s.y)
      dist_h heap2 hInv.shape_h.1 hInv.shape_h.2
      (fun e he => ⟨(hedgef e he).1, (hedgef e he).2.1, (hedgef e he).2.2.1⟩)
      hC (fun a b c h => hInv.val_bound false a b c h) rd rh hrel
  refine ⟨?_, R7⟩
  refine ⟨R1, hInv.shape_v, ?_, hInv.origin_v, ?_, hInv.sound_v, ?_, ?_, ?_, ?_, ?_⟩
  · -- origin_h
    obtain ⟨c1, hc1, hle⟩ := R3 0 0 0 hInv.origin_h
    have hc10 : c1 = 0 := by omega
    rw [hc10] at hc1
    exact hc1
  · -- sound_h
    intro a b c h0
    rcases R2 a b c h0 with h1 | ⟨e, he, ha, hb, hcc, -⟩
    · exact hInv.sound_h a b c h1
    · rw [ha, hb, hcc]
      exact (hedgef e he).2.2.2
  · -- heap_sound
    intro s1 hs1
    rcases R5 s1 hs1 with h1 | ⟨e, he, rfl⟩
    · exact hInv.heap_sound s1 (hmem2 s1 h1)
    · exact (hedgef e he).2.2.2
  · -- heap_dist
    intro s1 hs1
    rcases R5 s1 hs1 with h1 | ⟨e, he, rfl⟩
    · obtain ⟨c0, hc0, hc0le⟩ := hInv.heap_dist s1 (hmem2 s1 h1)
      by_cases hsv : s1.vertical = true
      · have hc0b : Day17.getDist dist_v s1.x s1.y = some c0 := by
          rw [hsv] at hc0
          exact hc0
        refine ⟨c0, ?_, hc0le⟩
        rw [hsv]
        exact hc0b
      · have hsv2 : s1.vertical = false := by
          cases h2 : s1.vertical
          · rfl
          · exact absurd h2 hsv
        have hc0b : Day17.getDist dist_h s1.x s1.y = some c0 := by
          rw [hsv2] at hc0
          exact hc0
        obtain ⟨c1, hc1, hc1le⟩ := R3 s1.x s1.y c0 hc0b
        refine ⟨c1, ?_, by omega⟩
        rw [hsv2]
        exact hc1
    · obtain ⟨c2, hc2, hc2le⟩ := R6 e he
      exact ⟨c2, hc2, hc2le⟩
  · -- entry_live
    intro vert0 x0 y0 c0 hentry
    cases vert0 with
    | true =>
      rcases hInv.entry_live true x0 y0 c0 hentry with
        ⟨s1, hs1, hs1x, hs1y, hs1v, hs1c⟩ | ⟨hng, hexp⟩
      · by_cases hss : s1 = s
        · -- the popped entry itself: justify by relaxedness
          right
          have hx0 : x0 = s.x := by rw [← hs1x, hss]
          have hy0 : y0 = s.y := by rw [← hs1y, hss]
          have hc0 : c0 = s.cost := by rw [← hs1c, hss]
          refine ⟨by rw [hx0, hy0]; exact hnotgoal, ?_⟩
          intro e he
          rw [hx0, hy0] at he
          obtain ⟨c2, hc2, hc2le⟩ := R6 e he
          exact ⟨c2, hc2, by omega⟩
        · left
          have hs1m : s1 ∈ heap2 := by
            have h2 := hperm.mem_iff.mp hs1
            rcases List.mem_cons.mp h2 with h3 | h3
            · exact absurd h3 hss
            · exact h3
          exact ⟨s1, R4 s1 hs1m, hs1x, hs1y, hs1v, hs1c⟩
      · right
        refine ⟨hng, ?_⟩
        intro e he
        obtain ⟨c2, hc2, hc2le⟩ := hexp e he
        obtain ⟨c3, hc3, hc3le⟩ := R3 e.x e.y c2 hc2
        exact ⟨c3, hc3, by omega⟩
    | false =>
      rcases R2 x0 y0 c0 hentry with h1 | ⟨e, he, ha, hb, hcc, hst⟩
      · rcases hInv.entry_live false x0 y0 c0 h1 with
          ⟨s1, hs1, hs1x, hs1y, hs1v, hs1c⟩ | ⟨hng, hexp⟩
        · left
          have hss : s1 ≠ s := by
            intro h2
            rw [h2] at hs1v
            rw [hvert] at hs1v
            cases hs1v
          have hs1m : s1 ∈ heap2 := by
            have h2 := hperm.mem_iff.mp hs1
            rcases List.mem_cons.mp h2 with h3 | h3
            · exact absurd h3 hss
            · exact h3
          exact ⟨s1, R4 s1 hs1m, hs1x, hs1y, hs1v, hs1c⟩
        · right
          exact ⟨hng, hexp⟩
      · left
        refine ⟨⟨e.x, e.y, s.cost + e.cost, false⟩, hst, ?_, ?_, rfl, ?_⟩
        · rw [ha]
        · rw [hb]
        · rw [hcc]
  · -- val_bound
    intro vert0 x0 y0 c0 hentry
    cases vert0 with
    | true =>
      have hb := hInv.val_bound true x0 y0 c0 hentry
      have hmono : 9 * p.max_move
            * (Day17.countSome dist_h + Day17.countSome dist_v)
          ≤ 9 * p.max_move * (Day17.countSome rd + Day17.countSome dist_v) := by
        refine Nat.mul_le_mul_left _ ?_
        omega
      omega
    | false =>
      exact R9 x0 y0 c0 hentry
  · -- heap_bound
    intro s1 hs1
    rcases R10 s1 hs1 with h1 | h2
    · exact hInv.heap_bound s1 (hmem2 s1 h1)
    · exact h2

/-- Helper: processing a popped horizontally entered non-goal state
(relaxing its vertical edges into the vertical table) preserves the
invariant and decreases the potential-plus-heap measure. -/
theorem step_preserve_h (p : Day17.Puzzle) (hw : 0 < p.w) (hh : 0 < p.h)
    (hdig : ∀ r ∈ p.rows, ∀ v ∈ r, v ≤ 9)
    (s : Day17.State) (heap heap2 : List Day17.State)
    (dist_h dist_v : List (List (Option Nat)))
    (hInv : Day17.Inv p dist_h dist_v heap) (hperm : heap.Perm (s :: heap2))
    (hvert : s.vertical = false)
    (hnotgoal : ¬(s.x = p.w - 1 ∧ s.y = p.h - 1))
    (hc : Day17.getDist dist_h s.x s.y = some s.cost)
    (rd : List (List (Option Nat))) (rh : List Day17.State)
    (hrel : Day17.relax (p.edges_v s.x s.y) true s.cost dist_v heap2
      = (rd, rh)) :
    Day17.Inv p dist_h rd rh ∧
      Day17.phiTable (9 * p.max_move * (2 * p.w * p.h)) rd + rh.length
        ≤ Day17.phiTable (9 * p.max_move * (2 * p.w * p.h)) dist_v
          + heap2.length := by
  have hsheap : s ∈ heap := hperm.mem_iff.mpr (List.mem_cons_self _ _)
  have hmem2 : ∀ u ∈ heap2, u ∈ heap :=
    fun u hu => hperm.mem_iff.mpr (List.mem_cons_of_mem _ hu)
  have hpath_s : Day17.PathTo p s.x s.y false s.cost := by
    have h0 := hInv.heap_sound s hsheap
    rw [hvert] at h0
    exact h0
  have hsb := PathTo_bounds p hw hh s.x s.y false s.cost hpath_s
  have hedgef : ∀ e ∈ p.edges_v s.x s.y,
      e.x < p.w ∧ e.y < p.h ∧ e.cost ≤ 9 * p.max_move ∧
        Day17.PathTo p e.x e.y true (s.cost + e.cost) := by
    intro e he
    obtain ⟨y2, hcond, rfl⟩ := (edges_v_mem p s.x s.y e).mp he
    refine ⟨?_, ?_, ?_, ?_⟩
    · exact hsb.1
    · show y2 < p.h
      rcases hcond with ⟨h1, -, -⟩ | ⟨-, -, -, h4⟩
      · omega
      · exact h4
    · refine vSegCost_le p hdig s.y y2 s.x ?_
      rcases hcond with ⟨h1, h2, h3⟩ | ⟨h1, h2, h3, h4⟩
      · exact Or.inl ⟨h1, h3⟩
      · exact Or.inr ⟨by omega, h3⟩
    · exact Day17.PathTo.stepV y2 hpath_s hcond
  have hJ : Day17.countSome dist_h ≤ p.w * p.h := by
    rw [Nat.mul_comm]
    exact countSome_le dist_h p.h p.w hInv.shape_h.1 hInv.shape_h.2
  have hC : s.cost ≤ 9 * p.max_move
      * (Day17.countSome dist_v + Day17.countSome dist_h) := by
    have h0 := hInv.val_bound false s.x s.y s.cost hc
    rw [Nat.add_comm (Day17.countSome dist_h) (Day17.countSome dist_v)] at h0
    exact h0
  obtain ⟨R1, R2, R3, R4, R5, R6, R7, R8, R9, R10⟩ :=
    relax_spec p true s.cost (Day17.countSome dist_h) hJ (p.edges_v s.x s.y)
      dist_v heap2 hInv.shape_v.1 hInv.shape_v.2
      (fun e he => ⟨(hedgef e he).1, (hedgef e he).2.1, (hedgef e he).2.2.1⟩)
      hC
      (fun a b c h => by
        have h0 := hInv.val_bound true a b c h
        rw [Nat.add_comm (Day17.countSome dist_h) (Day17.countSome dist_v)] at h0
        exact h0)
      rd rh hrel
  refine ⟨?_, R7⟩
  refine ⟨hInv.shape_h, R1, hInv.origin_h, ?_, hInv.sound_h, ?_, ?_, ?_, ?_, ?_, ?_⟩
  · -- origin_v
    obtain ⟨c1, hc1, hle⟩ := R3 0 0 0 hInv.origin_v
    have hc10 : c1 = 0 := by omega
    rw [hc10] at hc1
    exact hc1
  · -- sound_v
    intro a b c h0
    rcases R2 a b c h0 with h1 | ⟨e, he, ha, hb, hcc, -⟩
    · exact hInv.sound_v a b c h1
    · rw [ha, hb, hcc]
      exact (hedgef e he).2.2.2
  · -- heap_sound
    intro s1 hs1
    rcases R5 s1 hs1 with h1 | ⟨e, he, rfl⟩
    · exact hInv.heap_sound s1 (hmem2 s1 h1)
    · exact (hedgef e he).2.2.2
  · -- heap_dist
    intro s1 hs1
    rcases R5 s1 hs1 with h1 | ⟨e, he, rfl⟩
    · obtain ⟨c0, hc0, hc0le⟩ := hInv.heap_dist s1 (hmem2 s1 h1)
      by_cases hsv : s1.vertical = true
      · have hc0b : Day17.getDist dist_v s1.x s1.y = some c0 := by
          rw [hsv] at hc0
          exact hc0
        obtain ⟨c1, hc1, hc1le⟩ := R3 s1.x s1.y c0 hc0b
        refine ⟨c1, ?_, by omega⟩
        rw [hsv]
        exact hc1
      · have hsv2 : s1.vertical = false := by
          cases h2 : s1.vertical
          · rfl
          · exact absurd h2 hsv
        have hc0b : Day17.getDist dist_h s1.x s1.y = some c0 := by
          rw [hsv2] at hc0
          exact hc0
        refine ⟨c0, ?_, hc0le⟩
        rw [hsv2]
        exact hc0b
    · obtain ⟨c2, hc2, hc2le⟩ := R6 e he
      exact ⟨c2, hc2, hc2le⟩
  · -- entry_live
    intro vert0 x0 y0 c0 hentry
    cases vert0 with
    | false =>
      rcases hInv.entry_live false x0 y0 c0 hentry with
        ⟨s1, hs1, hs1x, hs1y, hs1v, hs1c⟩ | ⟨hng, hexp⟩
      · by_cases hss : s1 = s
        · right
          have hx0 : x0 = s.x := by rw [← hs1x, hss]
          have hy0 : y0 = s.y := by rw [← hs1y, hss]
          have hc0 : c0 = s.cost := by rw [← hs1c, hss]
          refine ⟨by rw [hx0, hy0]; exact hnotgoal, ?_⟩
          intro e he
          rw [hx0, hy0] at he
          obtain ⟨c2, hc2, hc2le⟩ := R6 e he
          exact ⟨c2, hc2, by omega⟩
        · left
          have hs1m : s1 ∈ heap2 := by
            have h2 := hperm.mem_iff.mp hs1
            rcases List.mem_cons.mp h2 with h3 | h3
            · exact absurd h3 hss
            · exact h3
          exact ⟨s1, R4 s1 hs1m, hs1x, hs1y, hs1v, hs1c⟩
      · right
        refine ⟨hng, ?_⟩
        intro e he
        obtain ⟨c2, hc2, hc2le⟩ := hexp e he
        obtain ⟨c3, hc3, hc3le⟩ := R3 e.x e.y c2 hc2
        exact ⟨c3, hc3, by omega⟩
    | true =>
      rcases R2 x0 y0 c0 hentry with h1 | ⟨e, he, ha, hb, hcc, hst⟩
      · rcases hInv.entry_live true x0 y0 c0 h1 with
          ⟨s1, hs1, hs1x, hs1y, hs1v, hs1c⟩ | ⟨hng, hexp⟩
        · left
          have hss : s1 ≠ s := by
            intro h2
            rw [h2] at hs1v
            rw [hvert] at hs1v
            cases hs1v
          have hs1m : s1 ∈ heap2 := by
            have h2 := hperm.mem_iff.mp hs1
            rcases List.mem_cons.mp h2 with h3 | h3
            · exact absurd h3 hss
            · exact h3
          exact ⟨s1, R4 s1 hs1m, hs1x, hs1y, hs1v, hs1c⟩
        · right
          exact ⟨hng, hexp⟩
      · left
        refine ⟨⟨e.x, e.y, s.cost + e.cost, true⟩, hst, ?_, ?_, rfl, ?_⟩
        · rw [ha]
        · rw [hb]
        · rw [hcc]
  · -- val_bound
    intro vert0 x0 y0 c0 hentry
    cases vert0 with
    | false =>
      have hb := hInv.val_bound false x0 y0 c0 hentry
      have hmono : 9 * p.max_move
            * (Day17.countSome dist_h + Day17.countSome dist_v)
          ≤ 9 * p.max_move * (Day17.countSome dist_h + Day17.countSome rd) := by
        refine Nat.mul_le_mul_left _ ?_
        omega
      omega
    | true =>
      have h0 := R9 x0 y0 c0 hentry
      rw [Nat.add_comm (Day17.countSome rd) (Day17.countSome dist_h)] at h0
      exact h0
  · -- heap_bound
    intro s1 hs1
    rcases R10 s1 hs1 with h1 | h2
    · exact hInv.heap_bound s1 (hmem2 s1 h1)
    · exact h2

/-- Helper: discarding a stale popped state preserves the invariant. -/
theorem stale_preserve (p : Day17.Puzzle)
    (s : Day17.State) (heap heap2 : List Day17.State)
    (dist_h dist_v : List (List (Option Nat)))
    (hInv : Day17.Inv p dist_h dist_v heap) (hperm : heap.Perm (s :: heap2))
    (hstale : Day17.leDist s.cost
      (Day17.getDist (if s.vertical then dist_v else dist_h) s.x s.y) = false) :
    Day17.Inv p dist_h dist_v heap2 := by
  have hmem2 : ∀ u ∈ heap2, u ∈ heap :=
    fun u hu => hperm.mem_iff.mpr (List.mem_cons_of_mem _ hu)
  obtain ⟨c0, hc0, hc0lt⟩ : ∃ c0,
      Day17.getDist (if s.vertical then dist_v else dist_h) s.x s.y = some c0 ∧
        c0 < s.cost := by
    rcases h0 : Day17.getDist (if s.vertical then dist_v else dist_h) s.x s.y
      with _ | c0
    · rw [h0] at hstale
      cases hstale
    · rw [h0] at hstale
      unfold Day17.leDist at hstale
      simp at hstale
      exact ⟨c0, rfl, hstale⟩
  refine ⟨hInv.shape_h, hInv.shape_v, hInv.origin_h, hInv.origin_v, hInv.sound_h,
    hInv.sound_v, ?_, ?_, ?_, hInv.val_bound, ?_⟩
  · exact fun s1 hs1 => hInv.heap_sound s1 (hmem2 s1 hs1)
  · exact fun s1 hs1 => hInv.heap_dist s1 (hmem2 s1 hs1)
  · intro vert0 x0 y0 c1 hentry
    rcases hInv.entry_live vert0 x0 y0 c1 hentry with
      ⟨s1, hs1, hs1x, hs1y, hs1v, hs1c⟩ | hb
    · left
      have hss : s1 ≠ s := by
        intro h2
        rw [h2] at hs1x hs1y hs1v hs1c
        rw [← hs1v, ← hs1x, ← hs1y] at hentry
        rw [hentry] at hc0
        have hcc : c1 = c0 := by
          injection hc0
        omega
      have hs1m : s1 ∈ heap2 := by
        have h2 := hperm.mem_iff.mp hs1
        rcases List.mem_cons.mp h2 with h3 | h3
        · exact absurd h3 hss
        · exact h3
      exact ⟨s1, hs1m, hs1x, hs1y, hs1v, hs1c⟩
    · right
      exact hb
  · exact fun s1 hs1 => hInv.heap_bound s1 (hmem2 s1 hs1)

/-- Helper: the main loop: with the invariant, a valid path to the goal and
fuel exceeding the potential-plus-heap measure, the loop returns the
minimum goal path cost. -/
theorem shortestPathGo_spec (p : Day17.Puzzle) (hw : 0 < p.w) (hh : 0 < p.h)
    (hdig : ∀ r ∈ p.rows, ∀ v ∈ r, v ≤ 9)
    (vg : Bool) (cg : Nat) (hgoal : Day17.PathTo p (p.w - 1) (p.h - 1) vg cg) :
    ∀ (fuel : Nat) (dist_h dist_v : List (List (Option Nat)))
      (heap : List Day17.State),
      Day17.Inv p dist_h dist_v heap →
      Day17.phiTable (9 * p.max_move * (2 * p.w * p.h)) dist_h
        + Day17.phiTable (9 * p.max_move * (2 * p.w * p.h)) dist_v
        + heap.length < fuel →
      ∃ res, Day17.shortestPathGo p fuel dist_h dist_v heap = some res ∧
        (∃ v2, Day17.PathTo p (p.w - 1) (p.h - 1) v2 res) ∧
        ∀ v2 c2, Day17.PathTo p (p.w - 1) (p.h - 1) v2 c2 → res ≤ c2 := by
  intro fuel
  induction fuel with
  | zero =>
    intro dist_h dist_v heap hInv hfuel
    omega
  | succ fuel ih =>
    intro dist_h dist_v heap hInv hfuel
    obtain ⟨s0, hs0heap, -⟩ := goal_frontier p dist_h dist_v heap hInv vg cg hgoal
    rcases hpop : Day17.popMax heap with _ | ⟨s, heap2⟩
    · cases heap with
      | nil => cases hs0heap
      | cons a b => exact absurd hpop (popMax_cons_ne a b)
    · obtain ⟨hperm, hmin⟩ := popMax_spec heap s heap2 hpop
      have hlen : heap.length = heap2.length + 1 := by
        rw [hperm.length_eq]
        rfl
      have hsmem : s ∈ heap := hperm.mem_iff.mpr (List.mem_cons_self _ _)
      by_cases hgoalhit : s.x = p.w - 1 ∧ s.y = p.h - 1
      · have hrun : Day17.shortestPathGo p (fuel + 1) dist_h dist_v heap
            = some s.cost := by
          simp [Day17.shortestPathGo, hpop, hgoalhit]
        refine ⟨s.cost, hrun, ?_, ?_⟩
        · have h0 := hInv.heap_sound s hsmem
          refine ⟨s.vertical, ?_⟩
          rw [← hgoalhit.1, ← hgoalhit.2]
          exact h0
        · intro v2 c2 hp2
          obtain ⟨s2, hs2, hle2⟩ := goal_frontier p dist_h dist_v heap hInv v2 c2 hp2
          exact le_trans (hmin s2 hs2) hle2
      · rcases hvert : s.vertical with _ | _
        · -- horizontally entered: relax vertical edges into the vertical table
          rcases hstale : Day17.leDist s.cost (Day17.getDist dist_h s.x s.y)
            with _ | _
          · have hInv2 : Day17.Inv p dist_h dist_v heap2 := by
              refine stale_preserve p s heap heap2 dist_h dist_v hInv hperm ?_
              rw [hvert]
              exact hstale
            have hrun : Day17.shortestPathGo p (fuel + 1) dist_h dist_v heap
                = Day17.shortestPathGo p fuel dist_h dist_v heap2 := by
              simp [Day17.shortestPathGo, hpop, hvert, hstale, hgoalhit]
            obtain ⟨res, hres, hreach, hopt⟩ := ih dist_h dist_v heap2 hInv2
              (by omega)
            exact ⟨res, by rw [hrun]; exact hres, hreach, hopt⟩
          · have hc : Day17.getDist dist_h s.x s.y = some s.cost := by
              obtain ⟨c0, hc0, hc0le⟩ := hInv.heap_dist s hsmem
              have hc0b : Day17.getDist dist_h s.x s.y = some c0 := by
                rw [hvert] at hc0
                exact hc0
              rw [hc0b] at hstale
              unfold Day17.leDist at hstale
              simp at hstale
              rw [hc0b]
              congr 1
              omega
            obtain ⟨rd, rh, hrel⟩ : ∃ rd rh,
                Day17.relax (p.edges_v s.x s.y) true s.cost dist_v heap2
                  = (rd, rh) := ⟨_, _, rfl⟩
            obtain ⟨hInv2, hphile⟩ := step_preserve_h p hw hh hdig s heap heap2
              dist_h dist_v hInv hperm hvert hgoalhit hc rd rh hrel
            have hrun : Day17.shortestPathGo p (fuel + 1) dist_h dist_v heap
                = Day17.shortestPathGo p fuel dist_h rd rh := by
              simp [Day17.shortestPathGo, hpop, hvert, hstale, hgoalhit, hrel]
            obtain ⟨res, hres, hreach, hopt⟩ := ih dist_h rd rh hInv2 (by omega)
            exact ⟨res, by rw [hrun]; exact hres, hreach, hopt⟩
        · -- vertically entered: relax horizontal edges into the horizontal table
          rcases hstale : Day17.leDist s.cost (Day17.getDist dist_v s.x s.y)
            with _ | _
          · have hInv2 : Day17.Inv p dist_h dist_v heap2 := by
              refine stale_preserve p s heap heap2 dist_h dist_v hInv hperm ?_
              rw [hvert]
              exact hstale
            have hrun : Day17.shortestPathGo p (fuel + 1) dist_h dist_v heap
                = Day17.shortestPathGo p fuel dist_h dist_v heap2 := by
              simp [Day17.shortestPathGo, hpop, hvert, hstale, hgoalhit]
            obtain ⟨res, hres, hreach, hopt⟩ := ih dist_h dist_v heap2 hInv2
              (by omega)
            exact ⟨res, by rw [hrun]; exact hres, hreach, hopt⟩
          · have hc : Day17.getDist dist_v s.x s.y = some s.cost := by
              obtain ⟨c0, hc0, hc0le⟩ := hInv.heap_dist s hsmem
              have hc0b : Day17.getDist dist_v s.x s.y = some c0 := by
                rw [hvert] at hc0
                exact hc0
              rw [hc0b] at hstale
              unfold Day17.leDist at hstale
              simp at hstale
              rw [hc0b]
              congr 1
              omega
            obtain ⟨rd, rh, hrel⟩ : ∃ rd rh,
                Day17.relax (p.edges_h s.x s.y) false s.cost dist_h heap2
                  = (rd, rh) := ⟨_, _, rfl⟩
            obtain ⟨hInv2, hphile⟩ := step_preserve_v p hw hh hdig s heap heap2
              dist_h dist_v hInv hperm hvert hgoalhit hc rd rh hrel
            have hrun : Day17.shortestPathGo p (fuel + 1) dist_h dist_v heap
                = Day17.shortestPathGo p fuel rd dist_v rh := by
              simp [Day17.shortestPathGo, hpop, hvert, hstale, hgoalhit, hrel]
            obtain ⟨res, hres, hreach, hopt⟩ := ih rd dist_v rh hInv2 (by omega)
            exact ⟨res, by rw [hrun]; exact hres, hreach, hopt⟩

/-- Helper: the initial distance table: shape, the origin entry, and that
every reached entry is the origin at 0. -/
theorem init_table (H W : Nat) (hh : 0 < H) (hw : 0 < W) :
    ((Day17.setDist (List.replicate H (List.replicate W none)) 0 0 0).length = H ∧
      ∀ r ∈ Day17.setDist (List.replicate H (List.replicate W none)) 0 0 0,
        r.length = W) ∧
    Day17.getDist (Day17.setDist (List.replicate H (List.replicate W none)) 0 0 0)
      0 0 = some 0 ∧
    ∀ x y c, Day17.getDist
        (Day17.setDist (List.replicate H (List.replicate W none)) 0 0 0) x y
        = some c → x = 0 ∧ y = 0 ∧ c = 0 := by
  have hlen : (List.replicate H (List.replicate W (none : Option Nat))).length = H :=
    List.length_replicate H _
  have hrows : ∀ r ∈ List.replicate H (List.replicate W (none : Option Nat)),
      r.length = W := by
    intro r hr
    rw [List.eq_of_mem_replicate hr]
    exact List.length_replicate W _
  have hgd : (List.replicate H (List.replicate W (none : Option Nat))).getD 0 []
      = List.replicate W none := by
    rw [List.getD_eq_getElem?_getD, List.getElem?_replicate, if_pos hh]
    rfl
  have hy0 : 0 < (List.replicate H (List.replicate W (none : Option Nat))).length := by
    rw [hlen]
    exact hh
  have hx0 : 0 <
      ((List.replicate H (List.replicate W (none : Option Nat))).getD 0 []).length := by
    rw [hgd, List.length_replicate]
    exact hw
  refine ⟨setDist_shape _ 0 0 0 H W hlen hrows hh, ?_, ?_⟩
  · exact getDist_set_same _ 0 0 0 hy0 hx0
  · intro x y c h
    by_cases hxy : x = 0 ∧ y = 0
    · have h0 := getDist_set_same
        (List.replicate H (List.replicate W (none : Option Nat))) 0 0 0 hy0 hx0
      rw [hxy.1, hxy.2, h0] at h
      have : (0 : Nat) = c := by injection h
      exact ⟨hxy.1, hxy.2, this.symm⟩
    · rw [getDist_set_ne _ 0 0 0 x y hxy, getDist_replicate] at h
      cases h

/-- C1: for every rectangular grid of digits and every pair
`1 ≤ min_move ≤ max_move`, if at least one valid path exists from `(0, 0)`
to `(w - 1, h - 1)` — a path being a sequence of straight segments of
length between `min_move` and `max_move` inclusive, consecutive segments
alternating between horizontal and vertical orientation and the first
segment of either orientation — then `shortest_path` returns the minimum,
over all such paths, of the sum of the digit values of every cell the path
enters (the start cell excluded). -/
theorem C1_shortest_path_min (p : Day17.Puzzle) (hw : 0 < p.w) (hh : 0 < p.h)
    (hrows : p.rows.length = p.h) (hrowlen : ∀ r ∈ p.rows, r.length = p.w)
    (hdig : ∀ r ∈ p.rows, ∀ v ∈ r, v ≤ 9)
    (hmm1 : 1 ≤ p.min_move) (hmm2 : p.min_move ≤ p.max_move)
    (hex : ∃ vg cg, Day17.PathTo p (p.w - 1) (p.h - 1) vg cg) :
    ∃ cmin, p.shortest_path = some cmin ∧
      (∃ v2, Day17.PathTo p (p.w - 1) (p.h - 1) v2 cmin) ∧
      ∀ v2 c2, Day17.PathTo p (p.w - 1) (p.h - 1) v2 c2 → cmin ≤ c2 := by
  obtain ⟨vg, cg, hgoal⟩ := hex
  obtain ⟨hshape0, horigin0, hchar0⟩ := init_table p.h p.w hh hw
  have hInit : Day17.Inv p
      (Day17.setDist (List.replicate p.h (List.replicate p.w none)) 0 0 0)
      (Day17.setDist (List.replicate p.h (List.replicate p.w none)) 0 0 0)
      [⟨0, 0, 0, false⟩, ⟨0, 0, 0, true⟩] := by
    refine ⟨hshape0, hshape0, horigin0, horigin0, ?_, ?_, ?_, ?_, ?_, ?_, ?_⟩
    · intro x y c h
      obtain ⟨hx, hy, hc⟩ := hchar0 x y c h
      rw [hx, hy, hc]
      exact Day17.PathTo.init false
    · intro x y c h
      obtain ⟨hx, hy, hc⟩ := hchar0 x y c h
      rw [hx, hy, hc]
      exact Day17.PathTo.init true
    · intro s1 hs1
      rcases List.mem_cons.mp hs1 with rfl | hs2
      · exact Day17.PathTo.init false
      · rcases List.mem_cons.mp hs2 with rfl | hs3
        · exact Day17.PathTo.init true
        · cases hs3
    · intro s1 hs1
      rcases List.mem_cons.mp hs1 with rfl | hs2
      · exact ⟨0, horigin0, le_refl 0⟩
      · rcases List.mem_cons.mp hs2 with rfl | hs3
        · exact ⟨0, horigin0, le_refl 0⟩
        · cases hs3
    · intro vert0 x y c hentry
      left
      cases vert0 with
      | false =>
        obtain ⟨hx, hy, hc⟩ := hchar0 x y c hentry
        exact ⟨⟨0, 0, 0, false⟩, List.mem_cons_self _ _, hx.symm, hy.symm, rfl,
          hc.symm⟩
      | true =>
        obtain ⟨hx, hy, hc⟩ := hchar0 x y c hentry
        exact ⟨⟨0, 0, 0, true⟩,
          List.mem_cons_of_mem _ (List.mem_cons_self _ _), hx.symm, hy.symm, rfl,
          hc.symm⟩
    · intro vert0 x y c hentry
      cases vert0 with
      | false =>
        obtain ⟨-, -, hc⟩ := hchar0 x y c hentry
        rw [hc]
        exact Nat.zero_le _
      | true =>
        obtain ⟨-, -, hc⟩ := hchar0 x y c hentry
        rw [hc]
        exact Nat.zero_le _
    · intro s1 hs1
      rcases List.mem_cons.mp hs1 with rfl | hs2
      · exact Nat.zero_le _
      · rcases List.mem_cons.mp hs2 with rfl | hs3
        · exact Nat.zero_le _
        · cases hs3
  have hphi0 : Day17.phiTable (9 * p.max_move * (2 * p.w * p.h))
        (Day17.setDist (List.replicate p.h (List.replicate p.w none)) 0 0 0)
        + (9 * p.max_move * (2 * p.w * p.h) + 2)
      = Day17.phiTable (9 * p.max_move * (2 * p.w * p.h))
          (List.replicate p.h (List.replicate p.w none)) + (0 + 1) := by
    have h0 := phiTable_set (9 * p.max_move * (2 * p.w * p.h))
      (List.replicate p.h (List.replicate p.w none)) 0 0 0
      (by rw [List.length_replicate]; exact hh)
      (by
        rw [List.getD_eq_getElem?_getD, List.getElem?_replicate, if_pos hh]
        rw [show (some (List.replicate p.w (none : Option Nat))).getD []
            = List.replicate p.w none from rfl]
        rw [List.length_replicate]
        exact hw)
    rw [getDist_replicate] at h0
    exact h0
  have hblank : Day17.phiTable (9 * p.max_move * (2 * p.w * p.h))
        (List.replicate p.h (List.replicate p.w none))
      = p.h * (p.w * (9 * p.max_move * (2 * p.w * p.h) + 2)) := by
    unfold Day17.phiTable
    exact tableSum_replicate _ p.h p.w
  have hfuel_eq : Day17.dijkstraFuel p
      = 2 + 2 * (p.h * (p.w * (9 * p.max_move * (2 * p.w * p.h) + 2))) := by
    unfold Day17.dijkstraFuel
    ring
  have hmeas : Day17.phiTable (9 * p.max_move * (2 * p.w * p.h))
        (Day17.setDist (List.replicate p.h (List.replicate p.w none)) 0 0 0)
      + Day17.phiTable (9 * p.max_move * (2 * p.w * p.h))
          (Day17.setDist (List.replicate p.h (List.replicate p.w none)) 0 0 0)
      + ([⟨0, 0, 0, false⟩, ⟨0, 0, 0, true⟩] : List Day17.State).length
      < Day17.dijkstraFuel p := by
    rw [hfuel_eq]
    have hl2 : ([⟨0, 0, 0, false⟩, ⟨0, 0, 0, true⟩] : List Day17.State).length
        = 2 := rfl
    rw [hl2]
    omega
  obtain ⟨res, hres, hreach, hopt⟩ := shortestPathGo_spec p hw hh hdig vg cg hgoal
    (Day17.dijkstraFuel p)
    (Day17.setDist (List.replicate p.h (List.replicate p.w none)) 0 0 0)
    (Day17.setDist (List.replicate p.h (List.replicate p.w none)) 0 0 0)
    [⟨0, 0, 0, false⟩, ⟨0, 0, 0, true⟩] hInit hmeas
  refine ⟨res, ?_, hreach, hopt⟩
  unfold Day17.Puzzle.shortest_path
  rw [if_neg (by omega)]
  exact hres

/-- Witness for C1: a 2x2 grid of ones with `min_move = 1`, `max_move = 3`;
a valid path exists (right then down) and the theorem applies. -/
theorem C1_shortest_path_min_witness :
    ∃ cmin, (⟨[[1, 1], [1, 1]], 2, 2, 1, 3⟩ : Day17.Puzzle).shortest_path
        = some cmin ∧
      (∃ v2, Day17.PathTo (⟨[[1, 1], [1, 1]], 2, 2, 1, 3⟩ : Day17.Puzzle)
        ((⟨[[1, 1], [1, 1]], 2, 2, 1, 3⟩ : Day17.Puzzle).w - 1)
        ((⟨[[1, 1], [1, 1]], 2, 2, 1, 3⟩ : Day17.Puzzle).h - 1) v2 cmin) ∧
      ∀ v2 c2, Day17.PathTo (⟨[[1, 1], [1, 1]], 2, 2, 1, 3⟩ : Day17.Puzzle)
        ((⟨[[1, 1], [1, 1]], 2, 2, 1, 3⟩ : Day17.Puzzle).w - 1)
        ((⟨[[1, 1], [1, 1]], 2, 2, 1, 3⟩ : Day17.Puzzle).h - 1) v2 c2 →
        cmin ≤ c2 :=
  C1_shortest_path_min (⟨[[1, 1], [1, 1]], 2, 2, 1, 3⟩ : Day17.Puzzle)
    (by decide) (by decide) (by decide) (by decide) (by decide) (by decide)
    (by decide)
    ⟨true, _, Day17.PathTo.stepV 1
      (Day17.PathTo.stepH 1 (Day17.PathTo.init true) (by decide)) (by decide)⟩
